import Mathlib

/-!
# CairoRescaleBox: a box filter that supports non-integer box sizes

Shallow embedding of `poppler/CairoRescaleBox.cc`.

* 32-bit pixels and the `uint32_t` accumulators are natural numbers, reduced
  modulo `2 ^ 32` wherever the C code can wrap.
* `int` values (coverage entries, the box budget) are mathematical integers.
* `double` values are the finite non-negative binary64 numbers, each stored as
  the natural number `k` with value `k * 2 ^ (-1074)`; every arithmetic
  operation rounds to nearest, ties to even, as IEEE 754 prescribes.
* Pointers into a row are the list of pixels from the pointer up to the limit;
  buffers that are written at computed offsets are functions from the pixel
  offset to the pixel.
* A loop of the source that has no bound on its iteration count returns
  `none` exactly when the C loop would not terminate.
* `downScaleImage` also returns `none` where the C code divides by zero
  (`scaled_height = 0` in the size of `temp_buf`, a source length of 0 in
  `compute_coverage`) and where its `assert` fails.
* Lengths are natural numbers; the tables of `compute_coverage` are those of
  the source for `1 <= dest_length <= src_length < 2 ^ 31`, the range in which
  the `int` and `long long` operations of the source do not wrap.
* The buffers that a call allocates are uninitialised: their contents are
  parameters of the call and a statement that compares two calls lets them
  differ.
-/

namespace CairoRescaleBox

/-! ## Binary64 arithmetic on non-negative finite values -/

/-- The binary64 value one, in units of `2 ^ (-1074)`. -/
def dblOne : Nat := 2 ^ 1074

/-- Number of binary digits of `n`, by halving at most `fuel` times. -/
def dblBitsAux : Nat → Nat → Nat
  | 0, _ => 0
  | fuel + 1, n => if n = 0 then 0 else dblBitsAux fuel (n / 2) + 1

/-- Number of binary digits of `n` (zero for `n = 0`). -/
def dblBits (n : Nat) : Nat := dblBitsAux n n

/-- Spacing of consecutive binary64 values at magnitude `q` (in units): one unit
in the subnormal range and up to 53 digits, `2 ^ (digits - 53)` above. -/
def dblGranule (q : Nat) : Nat := 2 ^ (dblBits q - 53)

/-- Round the exact quotient `n / d` (in units) to the nearest binary64 value,
ties to the even significand. -/
@[irreducible] def dblRound (n d : Nat) : Nat :=
  let g := dblGranule (n / d)
  let t := n / (d * g)
  let r := n % (d * g)
  if 2 * r < d * g then t * g
  else if d * g < 2 * r then (t + 1) * g
  else if t % 2 = 0 then t * g else (t + 1) * g

/-- Conversion `(double) n` of a non-negative integer. -/
def dblOfNat (n : Nat) : Nat := dblRound (n * dblOne) 1

/-- Binary64 division `a / b`. -/
def dblDiv (a b : Nat) : Nat := dblRound (a * dblOne) b

/-- Binary64 multiplication `a * b`. -/
def dblMul (a b : Nat) : Nat := dblRound (a * b) dblOne

/-- Binary64 subtraction `a - b` for `b ≤ a`. -/
def dblSub (a b : Nat) : Nat := dblRound (a - b) 1

/-- The C library `floor` on a non-negative value. -/
def dblFloor (a : Nat) : Nat := a / dblOne * dblOne

/-- The C library `ceil` on a non-negative value. -/
def dblCeil (a : Nat) : Nat := (a + dblOne - 1) / dblOne * dblOne

/-- Conversion of a non-negative double to `int` (truncation). -/
def dblToInt (a : Nat) : Int := Int.ofNat (a / dblOne)

/-! ## Fixed point -/

/-- Fixed point shift: `1.` is `1 << 24`. -/
def FIXED_SHIFT : Nat := 24

/-- The fixed point unit `1 << FIXED_SHIFT`. -/
def UNIT : Int := ((1 <<< FIXED_SHIFT : Nat) : Int)

/-! ## compute_coverage -/

/-- The value `ratio` of `compute_coverage`: the average contribution of each
source pixel, `((1 << 24) * (long long) dest_length) / src_length`, for
`1 <= src_length` and a quotient below `2 ^ 31` (as for `dest_length <=
src_length < 2 ^ 31`), where the 64-bit product and the conversion of the
quotient to `int` are exact; `ratio_int` is the initializer on machine integers.
A `src_length` of 0 makes the C division trap: `downScaleImage` below tests for
it before it uses the tables. -/
def coverage_ratio (src_length dest_length : Nat) : Int :=
  (((1 <<< 24) * dest_length / src_length : Nat) : Int)

/-- One iteration of the loop of `compute_coverage`: the value stored into
`coverage[i]`.  `floor(right_side) - ceil(left_side)` is a difference of two
integral doubles and is exact, so it is taken on the integers. -/
def coverage_entry (src_length dest_length i : Nat) : Int :=
  let ratio := coverage_ratio src_length dest_length
  let scale := dblDiv (dblOfNat src_length) (dblOfNat dest_length)
  let left_side := dblMul (dblOfNat i) scale
  let right_side := dblMul (dblOfNat (i + 1)) scale
  let right_fract := dblSub right_side (dblFloor right_side)
  let left_fract := dblSub (dblCeil left_side) left_side
  let count : Int := dblToInt (dblFloor right_side) - dblToInt (dblCeil left_side)
  let count : Int := if left_fract = 0 then count - 1 else count
  let overage : Int := dblToInt (dblMul (dblOfNat ratio.toNat) right_fract)
  (1 <<< 24 : Int) - (count * ratio + overage)

/-- The function `compute_coverage(coverage, src_length, dest_length)` for
`1 <= src_length < 2 ^ 31`: the array after the call (entries below
`dest_length` are written, the others keep their contents) and the returned
`ratio`. -/
def compute_coverage (coverage : Nat → Int) (src_length dest_length : Nat) :
    (Nat → Int) × Int :=
  (fun i => if i < dest_length then coverage_entry src_length dest_length i else coverage i,
   coverage_ratio src_length dest_length)

/-! ## Pixels and accumulators -/

/-- Reduction of an integer to `uint32_t`. -/
def u32 (z : Int) : Nat := (z % 4294967296).toNat

/-- The 8-bit channel `(p >> sh) & 0xff` of a packed pixel. -/
def chan (p sh : Nat) : Nat := (p >>> sh) &&& 0xff

/-- The four `uint32_t` accumulators `a`, `r`, `g`, `b`. -/
structure Accum where
  a : Nat
  r : Nat
  g : Nat
  b : Nat
  deriving DecidableEq, Repr

/-- The assignments `a = ((*src >> 24) & 0xff) * w; ...` for the first pixel. -/
def accum_first (p : Nat) (w : Int) : Accum :=
  { a := u32 (chan p 24 * w), r := u32 (chan p 16 * w),
    g := u32 (chan p 8 * w), b := u32 (chan p 0 * w) }

/-- The updates `a += ((*src >> 24) & 0xff) * w; ...`. -/
def accum_add (acc : Accum) (p : Nat) (w : Int) : Accum :=
  { a := u32 (acc.a + chan p 24 * w), r := u32 (acc.r + chan p 16 * w),
    g := u32 (acc.g + chan p 8 * w), b := u32 (acc.b + chan p 0 * w) }

/-- The shifts `a >>= FIXED_SHIFT; ...` followed by
`(a << 24) | (r << 16) | (g << 8) | b`. -/
def accum_pack (acc : Accum) : Nat :=
  (((acc.a >>> FIXED_SHIFT) <<< 24) % 4294967296) ||| ((acc.r >>> FIXED_SHIFT) <<< 16)
    ||| ((acc.g >>> FIXED_SHIFT) <<< 8) ||| (acc.b >>> FIXED_SHIFT)

/-! ## downsample_row_box_filter -/

/-- The inner loop of the skip phase:
`while (box >= pixel_coverage && src < src_limit) { src++; box -= pixel_coverage; }`. -/
def row_skip_inner (pixel_coverage : Int) : Int → List Nat → Int × List Nat
  | box, [] => (box, [])
  | box, p :: src =>
    if box ≥ pixel_coverage then row_skip_inner pixel_coverage (box - pixel_coverage) src
    else (box, p :: src)

/-- The loop `while (x < start && src < src_limit)`, with `todo = start - x`
iterations left; returns the final `x` and `src`. -/
def row_skip (coverage : Nat → Int) (pixel_coverage : Int) :
    Nat → Nat → List Nat → Nat × List Nat
  | 0, x, src => (x, src)
  | _ + 1, x, [] => (x, [])
  | todo + 1, x, _ :: src =>
    let start_coverage := coverage x
    let box := UNIT - start_coverage
    row_skip coverage pixel_coverage todo (x + 1)
      (row_skip_inner pixel_coverage box src).2

/-- The inner loop of the main phase:
`while (box >= pixel_coverage && src < src_limit)` with its accumulation. -/
def row_inner (pixel_coverage : Int) : Int → Accum → List Nat → Int × Accum × List Nat
  | box, acc, [] => (box, acc, [])
  | box, acc, p :: src =>
    if box ≥ pixel_coverage then
      row_inner pixel_coverage (box - pixel_coverage) (accum_add acc p pixel_coverage) src
    else (box, acc, p :: src)

/-- The statement `if (box > 0 && src < src_limit) { a += ... * box; ... }`. -/
def row_leftover (box : Int) (acc : Accum) : List Nat → Accum
  | [] => acc
  | p :: _ => if box > 0 then accum_add acc p box else acc

/-- The loop `while (x < start + width && src < src_limit)`, with
`todo = start + width - x` iterations left; returns the pixels stored through
`dest`, in order. -/
def row_main (coverage : Nat → Int) (pixel_coverage : Int) :
    Nat → Nat → List Nat → List Nat
  | 0, _, _ => []
  | _ + 1, _, [] => []
  | todo + 1, x, p :: src =>
    let start_coverage := coverage x
    let st := row_inner pixel_coverage (UNIT - start_coverage) (accum_first p start_coverage) src
    accum_pack (row_leftover st.1 st.2.1 st.2.2)
      :: row_main coverage pixel_coverage todo (x + 1) st.2.2

/-- The function `downsample_row_box_filter(start, width, src, src_limit, dest,
coverage, pixel_coverage)`; `src` lists the pixels from `src` up to `src_limit`
and the result lists the pixels written to `dest[0]`, `dest[1]`, ... -/
def downsample_row_box_filter (start width : Nat) (src : List Nat)
    (coverage : Nat → Int) (pixel_coverage : Int) : List Nat :=
  let sk := row_skip coverage pixel_coverage start 0 src
  row_main coverage pixel_coverage (start + width - sk.1) sk.1 sk.2

/-! ## downsample_columns_box_filter -/

/-- The loop `while (box >= pixel_coverage)` of the column filter; `src` is the
memory at the pointer `src` and `column_src` an offset into it.  The loop has
no other exit: `none` when `fuel` iterations do not reach `box < pixel_coverage`. -/
def column_inner (pixel_coverage : Int) (src : Nat → Nat) (stride : Nat) :
    Nat → Int → Accum → Nat → Option (Int × Accum × Nat)
  | 0, box, acc, column_src =>
    if box ≥ pixel_coverage then none else some (box, acc, column_src)
  | fuel + 1, box, acc, column_src =>
    if box ≥ pixel_coverage then
      column_inner pixel_coverage src stride fuel (box - pixel_coverage)
        (accum_add acc (src column_src) pixel_coverage) (column_src + stride)
    else some (box, acc, column_src)

/-- The statement `if (box > 0) { a += ... * box; ... }` of the column filter. -/
def column_leftover (src : Nat → Nat) (st : Int × Accum × Nat) : Accum :=
  if st.1 > 0 then accum_add st.2.1 (src st.2.2) st.1 else st.2.1

/-- One iteration of `while (n--)`: the pixel stored for column `j`.  Every
iteration of the inner loop lowers `box` by `pixel_coverage`, so with a
positive `pixel_coverage` at most `box` iterations run; `none` is returned
exactly when the loop cannot end. -/
def column_pixel (start_coverage pixel_coverage : Int) (src : Nat → Nat) (stride j : Nat) :
    Option Nat :=
  let box := UNIT - start_coverage
  (column_inner pixel_coverage src stride box.toNat box
      (accum_first (src j) start_coverage) (j + stride)).map
    fun st => accum_pack (column_leftover src st)

/-- The loop `while (n--)` with `todo` iterations left, at column `j`. -/
def columns_loop (start_coverage pixel_coverage : Int) (src : Nat → Nat) (stride : Nat) :
    Nat → Nat → Option (List Nat)
  | 0, _ => some []
  | todo + 1, j =>
    match column_pixel start_coverage pixel_coverage src stride j with
    | none => none
    | some p =>
      (columns_loop start_coverage pixel_coverage src stride todo (j + 1)).map fun ps => p :: ps

/-- The function `downsample_columns_box_filter(n, start_coverage, pixel_coverage,
src, dest)`: the pixels written to `dest[0]`, ..., `dest[n - 1]`. -/
def downsample_columns_box_filter (n : Nat) (start_coverage pixel_coverage : Int)
    (src : Nat → Nat) : Option (List Nat) :=
  columns_loop start_coverage pixel_coverage src n n 0

/-! ## CairoRescaleBox::downScaleImage -/

/-- Writes `pixels` into `buf` from offset `off` on. -/
def store (buf : Nat → Nat) (off : Nat) (pixels : List Nat) : Nat → Nat :=
  fun k => if off ≤ k ∧ k < off + pixels.length then pixels.getD (k - off) 0 else buf k

/-- Results of the four allocations of one call of `downScaleImage`: `none` (or
`false`) is a failed allocation, otherwise the contents of the fresh buffer,
which the allocator leaves uninitialised: they are arbitrary and differ from
call to call. -/
structure Scratch where
  scanline : Bool
  x_coverage : Option (Nat → Int)
  y_coverage : Option (Nat → Int)
  temp_buf : Option (Nat → Nat)

/-- The parameters of one call of `downScaleImage`; `getRow y x` is pixel `x`
of the row that `getRow(y, scanline)` stores into the scanline.  In the source
`orig_width` and `orig_height` are `unsigned` and reach `compute_coverage` as
`int`, `scaled_width` and `scaled_height` are `signed`, and the four window
parameters are `unsigned short`; the fields are the values of non-negative
arguments, and the tables are those of the source for sizes below `2 ^ 31`. -/
structure Call where
  getRow : Nat → Nat → Nat
  orig_width : Nat
  orig_height : Nat
  scaled_width : Nat
  scaled_height : Nat
  start_column : Nat
  start_row : Nat
  width : Nat
  height : Nat
  dst_stride : Nat

/-- The variables that change while the destination rows are produced. -/
structure RowState where
  box : Int
  columns : Nat
  src_y : Nat
  temp_buf : Nat → Nat
  fetched : List Nat

/-- The statements `getRow(src_y, scanline); downsample_row_box_filter(...,
temp_buf + width * columns, ...); columns++;`: the row is fetched, filtered
horizontally and stored as intermediate row number `columns`. -/
def fetch_row (c : Call) (x_coverage : Nat → Int) (pixel_coverage_x : Int) (st : RowState) :
    RowState :=
  let scanline := (List.range c.orig_width).map (c.getRow st.src_y)
  { st with
    temp_buf := store st.temp_buf (c.width * st.columns)
      (downsample_row_box_filter c.start_column c.width scanline x_coverage pixel_coverage_x)
    columns := st.columns + 1
    fetched := st.fetched ++ [st.src_y] }

/-- The loop `while (box >= pixel_coverage_y)` of the second `for` loop. -/
def rows_inner (c : Call) (x_coverage : Nat → Int) (pixel_coverage_x pixel_coverage_y : Int) :
    Nat → RowState → Option RowState
  | 0, st => if st.box ≥ pixel_coverage_y then none else some st
  | fuel + 1, st =>
    if st.box ≥ pixel_coverage_y then
      let st1 := fetch_row c x_coverage pixel_coverage_x st
      rows_inner c x_coverage pixel_coverage_x pixel_coverage_y fuel
        { st1 with src_y := st1.src_y + 1, box := st1.box - pixel_coverage_y }
    else some st

/-- The start of the body of the second `for` loop: `columns = 0`, `box = 1 <<
FIXED_SHIFT`, the first row is fetched and filtered, then `src_y++` and
`box -= start_coverage_y`. -/
def gather_first (c : Call) (x_coverage : Nat → Int) (pixel_coverage_x : Int)
    (start_coverage_y : Int) (src_y : Nat) (temp_buf : Nat → Nat) (fetched : List Nat) :
    RowState :=
  let st1 := fetch_row c x_coverage pixel_coverage_x
    { box := UNIT, columns := 0, src_y := src_y, temp_buf := temp_buf, fetched := fetched }
  { st1 with src_y := st1.src_y + 1, box := st1.box - start_coverage_y }

/-- The statement `if (box > 0) { getRow(...); downsample_row_box_filter(...);
columns++; }` ("downsample any leftovers"); `src_y` is not advanced. -/
def gather_last (c : Call) (x_coverage : Nat → Int) (pixel_coverage_x : Int) (st : RowState) :
    RowState :=
  if st.box > 0 then fetch_row c x_coverage pixel_coverage_x st else st

/-- The intermediate rows of one destination row: the body of the second `for`
loop up to the call of the column filter. -/
def gather_rows (c : Call) (x_coverage : Nat → Int) (pixel_coverage_x : Int)
    (y_coverage : Nat → Int) (pixel_coverage_y : Int) (dest_y src_y : Nat)
    (temp_buf : Nat → Nat) (fetched : List Nat) : Option RowState :=
  let st := gather_first c x_coverage pixel_coverage_x (y_coverage dest_y) src_y temp_buf fetched
  (rows_inner c x_coverage pixel_coverage_x pixel_coverage_y st.box.toNat st).map
    (gather_last c x_coverage pixel_coverage_x)

/-- The loop `while (box >= pixel_coverage_y) { box -= pixel_coverage_y; src_y++; }`
of the first `for` loop; returns the final `src_y`. -/
def skip_inner (pixel_coverage_y : Int) : Nat → Int → Nat → Option Nat
  | 0, box, src_y => if box ≥ pixel_coverage_y then none else some src_y
  | fuel + 1, box, src_y =>
    if box ≥ pixel_coverage_y then
      skip_inner pixel_coverage_y fuel (box - pixel_coverage_y) (src_y + 1)
    else some src_y

/-- The loop `for (dest_y = 0; dest_y < start_row; dest_y++)` with `todo`
iterations left; returns the final `src_y`. -/
def skip_rows (y_coverage : Nat → Int) (pixel_coverage_y : Int) :
    Nat → Nat → Nat → Option Nat
  | 0, _, src_y => some src_y
  | todo + 1, dest_y, src_y =>
    let box := UNIT - y_coverage dest_y
    match skip_inner pixel_coverage_y box.toNat box (src_y + 1) with
    | none => none
    | some src_y1 => skip_rows y_coverage pixel_coverage_y todo (dest_y + 1) src_y1

/-- What a call of `downScaleImage` leaves behind: the return value, the
destination surface (in pixels), the arguments of the calls of `getRow` in
order, and the rows of pixels stored into the destination, in order. -/
structure Outcome where
  retval : Bool
  dest : Nat → Nat
  fetched : List Nat
  written : List (List Nat)

/-- The variables that change from one destination row to the next. -/
structure ImageState where
  src_y : Nat
  temp_buf : Nat → Nat
  dest : Nat → Nat
  dest_off : Nat
  fetched : List Nat
  written : List (List Nat)

/-- The loop `for (; dest_y < start_row + height; dest_y++)` with `todo`
iterations left. -/
def scale_rows (c : Call) (x_coverage : Nat → Int) (pixel_coverage_x : Int)
    (y_coverage : Nat → Int) (pixel_coverage_y : Int) :
    Nat → Nat → ImageState → Option ImageState
  | 0, _, s => some s
  | todo + 1, dest_y, s =>
    match gather_rows c x_coverage pixel_coverage_x y_coverage pixel_coverage_y dest_y
        s.src_y s.temp_buf s.fetched with
    | none => none
    | some st =>
      match downsample_columns_box_filter c.width (y_coverage dest_y) pixel_coverage_y
          st.temp_buf with
      | none => none
      | some row =>
        scale_rows c x_coverage pixel_coverage_x y_coverage pixel_coverage_y todo (dest_y + 1)
          { src_y := st.src_y, temp_buf := st.temp_buf, dest := store s.dest s.dest_off row,
            dest_off := s.dest_off + c.dst_stride / 4, fetched := st.fetched,
            written := s.written ++ [row] }

/-- The number of rows that `temp_buf` is allocated with, the first argument of
`gmallocn3`: `(orig_height + scaled_height - 1) / scaled_height + 1` in
`unsigned` arithmetic.  The result is `none` when `scaled_height` is 0: the
division traps. -/
def temp_buf_rows (c : Call) : Option Nat :=
  if c.scaled_height = 0 then none
  else some (((c.orig_height + c.scaled_height - 1) % 4294967296 / c.scaled_height + 1) %
    4294967296)

/-- The method `CairoRescaleBox::downScaleImage`; `dest` is the data of
`dest_surface` in 32-bit pixels and `c.dst_stride` its stride in bytes.  The
result is `none` when the call does not return: the division by
`scaled_height = 0` in the size of `temp_buf`, which is evaluated before the
pointers are tested, the division by `src_length = 0` in `compute_coverage`, a
loop that cannot end, or the failing
`assert(width + start_column <= scaled_width)`. -/
def downScaleImage (c : Call) (m : Scratch) (dest : Nat → Nat) : Option Outcome :=
  match temp_buf_rows c with
  | none => none
  | some _ =>
    match m.x_coverage, m.y_coverage, m.scanline, m.temp_buf with
    | some x_coverage0, some y_coverage0, true, some temp_buf =>
      if c.orig_width = 0 ∨ c.orig_height = 0 then none
      else
        let cx := compute_coverage x_coverage0 c.orig_width c.scaled_width
        let cy := compute_coverage y_coverage0 c.orig_height c.scaled_height
        if c.width + c.start_column ≤ c.scaled_width then
          match skip_rows cy.1 cy.2 c.start_row 0 0 with
          | none => none
          | some src_y =>
            (scale_rows c cx.1 cx.2 cy.1 cy.2 c.height c.start_row
                { src_y := src_y, temp_buf := temp_buf, dest := dest, dest_off := 0,
                  fetched := [], written := [] }).map
              fun s => { retval := true, dest := s.dest, fetched := s.fetched,
                         written := s.written }
        else none
    | _, _, _, _ => some { retval := false, dest := dest, fetched := [], written := [] }

/-! ## Specification-level helpers -/

/-- The destination after storing the rows `rows` one after the other, the
first at offset `off` and each next one `step` pixels further. -/
def write_rows (dest : Nat → Nat) (off step : Nat) : List (List Nat) → Nat → Nat
  | [] => dest
  | row :: rows => write_rows (store dest off row) (off + step) step rows

/-- The state after `k` iterations of the loop `while (box >= pixel_coverage_y)`
of the second `for` loop. -/
def rows_iter (c : Call) (x_coverage : Nat → Int) (pixel_coverage_x pixel_coverage_y : Int) :
    Nat → RowState → RowState
  | 0, st => st
  | k + 1, st =>
    let st1 := fetch_row c x_coverage pixel_coverage_x st
    rows_iter c x_coverage pixel_coverage_x pixel_coverage_y k
      { st1 with src_y := st1.src_y + 1, box := st1.box - pixel_coverage_y }

/-- The state after `k` iterations of the loop `while (box >= pixel_coverage)` of
the column filter. -/
def column_iter (pixel_coverage : Int) (src : Nat → Nat) (stride : Nat) :
    Nat → Int × Accum × Nat → Int × Accum × Nat
  | 0, st => st
  | k + 1, st =>
    column_iter pixel_coverage src stride k
      (st.1 - pixel_coverage, accum_add st.2.1 (src st.2.2) pixel_coverage, st.2.2 + stride)

/-- The scanline that `getRow(src_y, scanline)` leaves, filtered horizontally:
the pixels that `downsample_row_box_filter` stores for source row `src_y`. -/
def filtered_row (c : Call) (x_coverage : Nat → Int) (pixel_coverage_x : Int) (src_y : Nat) :
    List Nat :=
  downsample_row_box_filter c.start_column c.width
    ((List.range c.orig_width).map (c.getRow src_y)) x_coverage pixel_coverage_x

/-- Two contents of `temp_buf`, seen as rows of `w` pixels, agree on the first
`n` rows and, in every row, on the pixels from column `len` on. -/
def temp_agree (w len n : Nat) (t t1 : Nat → Nat) : Prop :=
  ∀ m j, j < w → (m < n ∨ len ≤ j) → t (j + m * w) = t1 (j + m * w)

/-- A call of `downScaleImage` that keeps the size `w` x `h` and asks for the
whole image. -/
def identity_call (getRow : Nat → Nat → Nat) (w h dst_stride : Nat) : Call :=
  { getRow := getRow, orig_width := w, orig_height := h, scaled_width := w, scaled_height := h,
    start_column := 0, start_row := 0, width := w, height := h, dst_stride := dst_stride }

/-- A call of `downScaleImage` that downscales a 4 x 1 image to 1 x 1, with the
window (0, 0, 1, 1). -/
def four_to_one_call (getRow : Nat → Nat → Nat) (dst_stride : Nat) : Call :=
  { getRow := getRow, orig_width := 4, orig_height := 1, scaled_width := 1, scaled_height := 1,
    start_column := 0, start_row := 0, width := 1, height := 1, dst_stride := dst_stride }

/-- A row of four pixels whose red channels are 0x00, 0x40, 0x80 and 0xC0. -/
def red_row (_ x : Nat) : Nat := [0x000000, 0x400000, 0x800000, 0xC00000].getD x 0

/-- A value (in units of `2 ^ (-1074)`) that binary64 represents exactly: a
multiple of the spacing at its own magnitude. -/
def dblRep (v : Nat) : Prop := dblGranule v ∣ v

/-- The largest multiple of the spacing that does not exceed `n / d`. -/
def dblDown (n d : Nat) : Nat := n / (d * dblGranule (n / d)) * dblGranule (n / d)

/-- The value `scale` of `compute_coverage`. -/
def cov_scale (s d : Nat) : Nat := dblDiv (dblOfNat s) (dblOfNat d)

/-- The value `i * scale` of `compute_coverage`: the left side of box `i` and the
right side of box `i - 1`. -/
def cov_edge (s d i : Nat) : Nat := dblMul (dblOfNat i) (cov_scale s d)

/-- The value `overage` of `compute_coverage` for box `i`. -/
def cov_overage (s d i : Nat) : Nat :=
  dblMul (dblOfNat (coverage_ratio s d).toNat) (cov_edge s d (i + 1) % dblOne) / dblOne

/-- The spacing of binary64 values between one and two, `2 ^ (-52)`, in units. -/
def dblEps : Nat := 2 ^ 1022

/-- One half, in units. -/
def dblHalf : Nat := 2 ^ 1073

/-- The weights that the loop `while (box >= pixel_coverage && src < src_limit)`
of the row filter applies, with the final `box` and `src`. -/
def row_inner_weights (pixel_coverage : Int) : Int → List Nat → Int × List Int × List Nat
  | box, [] => (box, [], [])
  | box, p :: src =>
    if box ≥ pixel_coverage then
      ((row_inner_weights pixel_coverage (box - pixel_coverage) src).1,
        pixel_coverage :: (row_inner_weights pixel_coverage (box - pixel_coverage) src).2.1,
        (row_inner_weights pixel_coverage (box - pixel_coverage) src).2.2)
    else (box, [], p :: src)

/-- The weight that the statement `if (box > 0 && src < src_limit)` applies. -/
def row_leftover_weights (box : Int) : List Nat → List Int
  | [] => []
  | _ :: _ => if box > 0 then [box] else []

/-- The weights that the loop `while (x < start + width && src < src_limit)`
applies, one list for each pixel it stores: `coverage[x]` for the first source
pixel, `pixel_coverage` for each pixel of the inner loop, the leftover `box`
for the final pixel. -/
def row_main_weights (coverage : Nat → Int) (pixel_coverage : Int) :
    Nat → Nat → List Nat → List (List Int)
  | 0, _, _ => []
  | _ + 1, _, [] => []
  | todo + 1, x, _ :: src =>
    (coverage x :: (row_inner_weights pixel_coverage (UNIT - coverage x) src).2.1 ++
        row_leftover_weights (row_inner_weights pixel_coverage (UNIT - coverage x) src).1
          (row_inner_weights pixel_coverage (UNIT - coverage x) src).2.2)
      :: row_main_weights coverage pixel_coverage todo (x + 1)
        (row_inner_weights pixel_coverage (UNIT - coverage x) src).2.2

/-- The weights that `downsample_row_box_filter` applies, one list for each
pixel it stores. -/
def row_filter_weights (start width : Nat) (src : List Nat) (coverage : Nat → Int)
    (pixel_coverage : Int) : List (List Int) :=
  row_main_weights coverage pixel_coverage
    (start + width - (row_skip coverage pixel_coverage start 0 src).1)
    (row_skip coverage pixel_coverage start 0 src).1
    (row_skip coverage pixel_coverage start 0 src).2

/-- The weights that the loop `while (box >= pixel_coverage)` of the column filter
applies, with the final `box`; `none` when the loop does not end. -/
def column_inner_weights (pixel_coverage : Int) : Nat → Int → Option (Int × List Int)
  | 0, box => if box ≥ pixel_coverage then none else some (box, [])
  | fuel + 1, box =>
    if box ≥ pixel_coverage then
      (column_inner_weights pixel_coverage fuel (box - pixel_coverage)).map
        fun r => (r.1, pixel_coverage :: r.2)
    else some (box, [])

/-- The weights that `downsample_columns_box_filter` applies for one pixel. -/
def column_weights (start_coverage pixel_coverage : Int) : Option (List Int) :=
  (column_inner_weights pixel_coverage (UNIT - start_coverage).toNat
      (UNIT - start_coverage)).map
    fun r => start_coverage :: r.2 ++ (if r.1 > 0 then [r.1] else [])

/-- The weights of destination index `i` on an axis of `s` source elements and
`d` destination elements: `coverage[i]`, then `ratio` for each source element
fully inside the box, then the overage of the box for the element that holds
its right edge, when there is such an element. -/
def box_weights (s d i : Nat) : List Int :=
  coverage_entry s d i ::
    List.replicate (cov_edge s d (i + 1) / dblOne - cov_edge s d i / dblOne - 1)
      (coverage_ratio s d) ++
    (if cov_edge s d (i + 1) / dblOne < s ∧ 0 < cov_overage s d i then
      [(cov_overage s d i : Int)] else [])

/-- The value `2 ^ (-25)` in units. -/
def dblTiny : Nat := 2 ^ 1049

/-- Reduction of an integer to a signed two's complement value of `w` bits. -/
def wrap_signed (w : Nat) (z : Int) : Int := (z + 2 ^ (w - 1)) % 2 ^ w - 2 ^ (w - 1)

/-- The initializer `int ratio = ((1 << 24) * (long long int)dest_length) /
src_length;` on machine integers: the product is taken in 64 bits, the
division truncates, the quotient is converted to `int`. -/
def ratio_int (src_length dest_length : Int) : Int :=
  wrap_signed 32 (Int.tdiv (wrap_signed 64 ((1 <<< 24 : Nat) * dest_length)) src_length)

/-- A call that downscales an image of 16777217 rows of one pixel to one pixel. -/
def tall_call : Call :=
  { getRow := fun _ _ => 0, orig_width := 1, orig_height := 16777217, scaled_width := 1,
    scaled_height := 1, start_column := 0, start_row := 0, width := 1, height := 1,
    dst_stride := 4 }

/-- The pixels that a column pointer reads: `m` pixels from offset `cs` on, one
every `stride` pixels. -/
def column_list (src : Nat → Nat) (stride : Nat) : Nat → Nat → List Nat
  | 0, _ => []
  | m + 1, cs => src cs :: column_list src stride m (cs + stride)

/-- The accumulator of the channel at shift `sh`: `a` for 24, `r` for 16, `g`
for 8 and `b` otherwise. -/
def accum_chan (acc : Accum) (sh : Nat) : Nat :=
  if sh = 24 then acc.a else if sh = 16 then acc.r else if sh = 8 then acc.g else acc.b

/-- The accumulators after the updates `a += ((*src >> 24) & 0xff) * w; ...` for
the successive source pixels `ps` with the successive weights `ws`. -/
def accum_weights (acc : Accum) : List Int → List Nat → Accum
  | w :: ws, p :: ps => accum_weights (accum_add acc p w) ws ps
  | _, _ => acc

/-- The sum of the channel values at shift `sh` of the pixels `ps`, each
multiplied by its weight. -/
def weighted (sh : Nat) : List Int → List Nat → Int
  | w :: ws, p :: ps => w * chan p sh + weighted sh ws ps
  | _, _ => 0

/-- The accumulators when the weights `ws` have been applied to the source
pixels `ps`: the first weight by assignment, the others by update. -/
def box_accum : List Int → List Nat → Accum
  | w :: ws, p :: ps => accum_weights (accum_first p w) ws ps
  | _, _ => { a := 0, r := 0, g := 0, b := 0 }

/-- The pixel that the row filter stores when it applies the weights `ws` to the
source pixels `ps`: the accumulators, shifted and packed. -/
def box_pixel (ws : List Int) (ps : List Nat) : Nat := accum_pack (box_accum ws ps)

/-- A 4 x 3 image: pixel `x` of row `y` has all four channels `10 * y + x`. -/
def sample_image (y x : Nat) : Nat := 0x01010101 * (10 * y + x)

/-- Downscaling the 4 x 3 image to 2 x 2, whole output. -/
def sample_call : Call :=
  { getRow := sample_image, orig_width := 4, orig_height := 3, scaled_width := 2,
    scaled_height := 2, start_column := 0, start_row := 0, width := 2, height := 2,
    dst_stride := 16 }

/-- Downscaling the 4 x 3 image to 2 x 2, the window of the single pixel (1, 1). -/
def sample_window : Call :=
  { sample_call with start_column := 1, start_row := 1, width := 1, height := 1 }

/-- Four successful allocations whose buffers hold zeros. -/
def sample_scratch : Scratch :=
  { scanline := true, x_coverage := some fun _ => 0, y_coverage := some fun _ => 0,
    temp_buf := some fun _ => 0 }

/-! ## The coverage tables of small axes -/

theorem coverage_entry_3_1 : coverage_entry 3 1 0 = 5592406 := by decide!

theorem coverage_ratio_3_1 : coverage_ratio 3 1 = 5592405 := by decide

/-! ## Horizontal windowing -/

theorem row_main_nil (coverage : Nat → Int) (pixel_coverage : Int) (todo x : Nat) :
    row_main coverage pixel_coverage todo x [] = [] := by
  cases todo <;> rfl

theorem row_inner_src (pixel_coverage : Int) (src : List Nat) (box : Int) (acc : Accum) :
    (row_inner pixel_coverage box acc src).2.2 = (row_skip_inner pixel_coverage box src).2 := by
  induction src generalizing box acc with
  | nil => rfl
  | cons p src ih =>
    simp only [row_inner, row_skip_inner]
    split
    · exact ih _ _
    · rfl

theorem row_main_drop (coverage : Nat → Int) (pixel_coverage : Int) (n m x : Nat)
    (src : List Nat) :
    (row_main coverage pixel_coverage (n + m) x src).drop n =
      row_main coverage pixel_coverage
        (x + n + m - (row_skip coverage pixel_coverage n x src).1)
        (row_skip coverage pixel_coverage n x src).1
        (row_skip coverage pixel_coverage n x src).2 := by
  induction n generalizing x src with
  | zero =>
    simp only [row_skip, List.drop_zero, Nat.zero_add, Nat.add_zero]
    congr 1
    omega
  | succ n ih =>
    cases src with
    | nil => simp [row_skip, row_main_nil]
    | cons p src =>
      have h : n + 1 + m = (n + m) + 1 := by omega
      rw [h]
      simp only [row_main, row_skip, List.drop_succ_cons]
      rw [row_inner_src, ih]
      congr 1
      omega

/-- Claim C4 (horizontal windowing): the pixels written by
`downsample_row_box_filter(start, width, ...)` are the pixels that
`downsample_row_box_filter(0, start + width, ...)` writes at the indices
`start`, `start + 1`, ...: the windowed output is the full output without its
first `start` pixels, so pixel `k` of the one is pixel `start + k` of the other. -/
theorem row_filter_window (start width : Nat) (src : List Nat) (coverage : Nat → Int)
    (pixel_coverage : Int) :
    downsample_row_box_filter start width src coverage pixel_coverage =
        (downsample_row_box_filter 0 (start + width) src coverage pixel_coverage).drop start ∧
      ∀ k, (downsample_row_box_filter start width src coverage pixel_coverage)[k]? =
        (downsample_row_box_filter 0 (start + width) src coverage pixel_coverage)[start + k]? := by
  have h : downsample_row_box_filter start width src coverage pixel_coverage =
      (downsample_row_box_filter 0 (start + width) src coverage pixel_coverage).drop start := by
    have := row_main_drop coverage pixel_coverage start width 0 src
    simp only [downsample_row_box_filter, row_skip, Nat.zero_add, Nat.sub_zero] at this ⊢
    exact this.symm
  refine ⟨h, fun k => ?_⟩
  rw [h, List.getElem?_drop]

/-- Claim C8: `compute_coverage` with `src_length = 3` and `dest_length = 1`
returns `floor((1 << 24) / 3) = 5592405` and stores
`coverage[0] = (1 << 24) - 2 * 5592405 = 5592406`. -/
theorem compute_coverage_3_1 (coverage : Nat → Int) :
    (compute_coverage coverage 3 1).2 = 5592405 ∧
      (compute_coverage coverage 3 1).2 = ((1 <<< 24 : Nat) / 3 : Nat) ∧
      (compute_coverage coverage 3 1).1 0 = 5592406 ∧
      (compute_coverage coverage 3 1).1 0 =
        (1 <<< 24 : Int) - 2 * (compute_coverage coverage 3 1).2 := by
  have h : (if 0 < 1 then (5592406 : Int) else coverage 0) = 5592406 := if_pos Nat.one_pos
  simp only [compute_coverage, coverage_ratio_3_1, coverage_entry_3_1, h]
  refine ⟨trivial, ?_, trivial, ?_⟩ <;> decide

/-! ## Pixels -/

theorem chan_eq (p sh : Nat) : chan p sh = p / 2 ^ sh % 256 := by
  unfold chan
  rw [Nat.shiftRight_eq_div_pow]
  exact Nat.and_pow_two_sub_one_eq_mod _ 8

theorem chan_lt (p sh : Nat) : chan p sh < 256 := by
  rw [chan_eq]
  exact Nat.mod_lt _ (by norm_num)

theorem u32_lt (z : Int) : u32 z < 4294967296 := by
  unfold u32
  omega

theorem pack_eq (A R G B : Nat) (hA : A < 256) (hR : R < 256) (hG : G < 256) (hB : B < 256) :
    ((A <<< 24) % 4294967296) ||| (R <<< 16) ||| (G <<< 8) ||| B =
      A * 16777216 + R * 65536 + G * 256 + B := by
  simp only [Nat.shiftLeft_eq]
  have h1 : A * 2 ^ 24 % 4294967296 = 2 ^ 24 * A := by omega
  have h2 : 2 ^ 24 * A ||| R * 2 ^ 16 = 2 ^ 16 * (256 * A + R) := by
    rw [← Nat.mul_add_lt_is_or (by omega)]
    omega
  have h3 : 2 ^ 16 * (256 * A + R) ||| G * 2 ^ 8 = 2 ^ 8 * (65536 * A + 256 * R + G) := by
    rw [← Nat.mul_add_lt_is_or (by omega)]
    omega
  rw [h1, h2, h3, ← Nat.mul_add_lt_is_or (by omega)]
  omega

theorem chan_accum_pack (acc : Accum) (ha : acc.a < 4294967296) (hr : acc.r < 4294967296)
    (hg : acc.g < 4294967296) (hb : acc.b < 4294967296) :
    chan (accum_pack acc) 24 = acc.a / 16777216 ∧ chan (accum_pack acc) 16 = acc.r / 16777216 ∧
      chan (accum_pack acc) 8 = acc.g / 16777216 ∧ chan (accum_pack acc) 0 = acc.b / 16777216 := by
  unfold accum_pack FIXED_SHIFT
  simp only [Nat.shiftRight_eq_div_pow]
  rw [pack_eq _ _ _ _ (by omega) (by omega) (by omega) (by omega)]
  simp only [chan_eq]
  refine ⟨?_, ?_, ?_, ?_⟩ <;> omega

/-! ## Three source pixels for one destination pixel -/

theorem row_filter_three (coverage : Nat → Int) (pixel_coverage : Int)
    (h0 : coverage 0 = 5592406) (hpc : pixel_coverage = 5592405) (p0 p1 p2 : Nat) :
    downsample_row_box_filter 0 1 [p0, p1, p2] coverage pixel_coverage =
      [accum_pack (accum_add (accum_add (accum_first p0 5592406) p1 5592405) p2 5592405)] := by
  subst hpc
  simp [downsample_row_box_filter, row_skip, row_main, row_inner, row_leftover, h0, UNIT,
    FIXED_SHIFT]

theorem compute_coverage_3_1_entry (coverage : Nat → Int) :
    (compute_coverage coverage 3 1).1 0 = 5592406 := by
  show (if 0 < 1 then coverage_entry 3 1 0 else coverage 0) = 5592406
  rw [if_pos Nat.one_pos, coverage_entry_3_1]

theorem compute_coverage_3_1_ratio (coverage : Nat → Int) :
    (compute_coverage coverage 3 1).2 = 5592405 := coverage_ratio_3_1

theorem chan_pack_add (acc : Accum) (p : Nat) (w : Int) :
    chan (accum_pack (accum_add acc p w)) 24 = (accum_add acc p w).a / 16777216 ∧
      chan (accum_pack (accum_add acc p w)) 16 = (accum_add acc p w).r / 16777216 ∧
      chan (accum_pack (accum_add acc p w)) 8 = (accum_add acc p w).g / 16777216 ∧
      chan (accum_pack (accum_add acc p w)) 0 = (accum_add acc p w).b / 16777216 :=
  chan_accum_pack _ (u32_lt (acc.a + chan p 24 * w)) (u32_lt (acc.r + chan p 16 * w))
    (u32_lt (acc.g + chan p 8 * w)) (u32_lt (acc.b + chan p 0 * w))

theorem chan_pack_first (p : Nat) (w : Int) :
    chan (accum_pack (accum_first p w)) 24 = (accum_first p w).a / 16777216 ∧
      chan (accum_pack (accum_first p w)) 16 = (accum_first p w).r / 16777216 ∧
      chan (accum_pack (accum_first p w)) 8 = (accum_first p w).g / 16777216 ∧
      chan (accum_pack (accum_first p w)) 0 = (accum_first p w).b / 16777216 :=
  chan_accum_pack _ (u32_lt (chan p 24 * w)) (u32_lt (chan p 16 * w))
    (u32_lt (chan p 8 * w)) (u32_lt (chan p 0 * w))

theorem accum_3_1_chan (p0 p1 p2 sh : Nat) (hsh : sh ∈ [24, 16, 8, 0]) :
    chan (accum_pack (accum_add (accum_add (accum_first p0 5592406) p1 5592405) p2 5592405)) sh =
      (5592406 * chan p0 sh + 5592405 * chan p1 sh + 5592405 * chan p2 sh) / 16777216 := by
  have hp := chan_pack_add (accum_add (accum_first p0 5592406) p1 5592405) p2 5592405
  have b0 := fun s => chan_lt p0 s
  have b1 := fun s => chan_lt p1 s
  have b2 := fun s => chan_lt p2 s
  have key : ∀ s, u32 (u32 (u32 (chan p0 s * 5592406) + chan p1 s * 5592405) +
      chan p2 s * 5592405) = 5592406 * chan p0 s + 5592405 * chan p1 s + 5592405 * chan p2 s := by
    intro s
    have := b0 s; have := b1 s; have := b2 s
    unfold u32
    omega
  simp only [List.mem_cons, List.mem_singleton, List.not_mem_nil, or_false] at hsh
  simp only [accum_add, accum_first] at hp ⊢
  rcases hsh with rfl | rfl | rfl | rfl
  · rw [hp.1, key]
  · rw [hp.2.1, key]
  · rw [hp.2.2.1, key]
  · rw [hp.2.2.2, key]

/-- Claim C9 as stated fails: with the tables of `compute_coverage(3, 1)` the
channel values 0, 1, 2 give the output channel 0, not `floor((0 + 1 + 2) / 3) = 1`. -/
theorem row_filter_3_1_not_average :
    (downsample_row_box_filter 0 1 [0, 1, 2] (compute_coverage (fun _ => 0) 3 1).1
        (compute_coverage (fun _ => 0) 3 1).2).map (fun q => chan q 0) ≠ [(0 + 1 + 2) / 3] := by
  rw [row_filter_three _ _ (compute_coverage_3_1_entry _) (compute_coverage_3_1_ratio _)]
  decide

/-- Claim C9, amended: with the tables of `compute_coverage(3, 1)` the row filter
turns three source pixels into one pixel, each channel of which is
`floor((5592406 * c0 + 5592405 * c1 + 5592405 * c2) / 2 ^ 24)`; this is
`floor((c0 + c1 + c2) / 3)`, except that it is one less when `c0 + c1 + c2` is
a multiple of 3 and `3 * c0 < c0 + c1 + c2`. -/
theorem row_filter_3_1_channel (coverage : Nat → Int) (p0 p1 p2 sh : Nat)
    (hsh : sh ∈ [24, 16, 8, 0]) :
    ∃ q, downsample_row_box_filter 0 1 [p0, p1, p2] (compute_coverage coverage 3 1).1
          (compute_coverage coverage 3 1).2 = [q] ∧
      chan q sh =
        (5592406 * chan p0 sh + 5592405 * chan p1 sh + 5592405 * chan p2 sh) / 16777216 ∧
      chan q sh = (chan p0 sh + chan p1 sh + chan p2 sh) / 3 -
        (if (chan p0 sh + chan p1 sh + chan p2 sh) % 3 = 0 ∧
            3 * chan p0 sh < chan p0 sh + chan p1 sh + chan p2 sh then 1 else 0) := by
  refine ⟨_, row_filter_three _ _ (compute_coverage_3_1_entry _)
    (compute_coverage_3_1_ratio _) p0 p1 p2, accum_3_1_chan p0 p1 p2 sh hsh, ?_⟩
  rw [accum_3_1_chan p0 p1 p2 sh hsh]
  have b0 := chan_lt p0 sh
  have b1 := chan_lt p1 sh
  have b2 := chan_lt p2 sh
  split <;> omega

theorem row_filter_3_1_channel_witness :
    ∃ q, downsample_row_box_filter 0 1 [0, 1, 2] (compute_coverage (fun _ => 0) 3 1).1
          (compute_coverage (fun _ => 0) 3 1).2 = [q] ∧
      chan q 0 = (5592406 * chan 0 0 + 5592405 * chan 1 0 + 5592405 * chan 2 0) / 16777216 ∧
      chan q 0 = (chan 0 0 + chan 1 0 + chan 2 0) / 3 -
        (if (chan 0 0 + chan 1 0 + chan 2 0) % 3 = 0 ∧
            3 * chan 0 0 < chan 0 0 + chan 1 0 + chan 2 0 then 1 else 0) :=
  row_filter_3_1_channel (fun _ => 0) 0 1 2 0 (by decide)

/-! ## Binary64: values that are computed exactly -/

theorem dblBitsAux_le_iff (fuel : Nat) : ∀ n k : Nat, n ≤ fuel →
    (dblBitsAux fuel n ≤ k ↔ n < 2 ^ k) := by
  induction fuel with
  | zero =>
    intro n k hn
    have h0 : n = 0 := by omega
    subst h0
    simp [dblBitsAux]
  | succ fuel ih =>
    intro n k hn
    unfold dblBitsAux
    by_cases h0 : n = 0
    · subst h0
      simp
    · rw [if_neg h0]
      cases k with
      | zero =>
        simp only [Nat.pow_zero]
        omega
      | succ k =>
        rw [Nat.add_le_add_iff_right, ih (n / 2) k (by omega), Nat.pow_succ]
        omega

theorem dblBits_le_iff (n k : Nat) : dblBits n ≤ k ↔ n < 2 ^ k :=
  dblBitsAux_le_iff n n k (Nat.le_refl n)

theorem dblBits_lt_iff (n k : Nat) : k < dblBits n ↔ 2 ^ k ≤ n := by
  rw [← Nat.not_le, dblBits_le_iff, Nat.not_lt]

theorem dblGranule_pos (q : Nat) : 0 < dblGranule q := by
  unfold dblGranule
  exact Nat.pow_pos (by norm_num)

theorem dblRound_of_dvd (k d : Nat) (hd : 0 < d) (hk : dblGranule k ∣ k) :
    dblRound (k * d) d = k := by
  unfold dblRound
  have hg := dblGranule_pos k
  have hq : k * d / d = k := Nat.mul_div_cancel k hd
  obtain ⟨t, ht⟩ := hk
  simp only [hq]
  have hmod : k * d % (d * dblGranule k) = 0 := by
    apply Nat.mod_eq_zero_of_dvd
    rw [Nat.mul_comm k d]
    exact Nat.mul_dvd_mul_left d ⟨t, ht⟩
  have hdiv : k * d / (d * dblGranule k) = t := by
    have : k * d = t * (d * dblGranule k) := by
      calc k * d = dblGranule k * t * d := by rw [← ht]
        _ = t * (d * dblGranule k) := by ring
    rw [this]
    exact Nat.mul_div_cancel t (Nat.mul_pos hd hg)
  rw [hmod, hdiv, if_pos (by simpa using Nat.mul_pos hd hg)]
  rw [Nat.mul_comm]
  exact ht.symm

theorem dblGranule_dvd (m e : Nat) (hm : m < 2 ^ 53) : dblGranule (m * 2 ^ e) ∣ m * 2 ^ e := by
  unfold dblGranule
  have hb : dblBits (m * 2 ^ e) ≤ 53 + e := by
    rw [dblBits_le_iff, Nat.pow_add]
    exact Nat.mul_lt_mul_of_pos_right hm (Nat.pow_pos (by norm_num))
  exact Dvd.dvd.mul_left (Nat.pow_dvd_pow 2 (by omega)) m

theorem dblOne_pos : 0 < dblOne := Nat.two_pow_pos 1074

theorem dblOfNat_eq (n : Nat) (hn : n < 2 ^ 53) : dblOfNat n = n * dblOne := by
  unfold dblOfNat
  have h := dblRound_of_dvd (n * dblOne) 1 Nat.one_pos (dblGranule_dvd n 1074 hn)
  rwa [Nat.mul_one] at h

theorem dblDiv_self (a : Nat) (ha : 0 < a) : dblDiv a a = dblOne := by
  unfold dblDiv
  have h1 : dblGranule dblOne ∣ dblOne := by
    have := dblGranule_dvd 1 1074 (by omega)
    rwa [Nat.one_mul] at this
  rw [Nat.mul_comm]
  exact dblRound_of_dvd dblOne a ha h1

theorem dblMul_one (n : Nat) (hn : n < 2 ^ 53) : dblMul (n * dblOne) dblOne = n * dblOne := by
  unfold dblMul
  exact dblRound_of_dvd (n * dblOne) dblOne dblOne_pos (dblGranule_dvd n 1074 hn)

theorem dblRound_zero (d : Nat) (hd : 0 < d) : dblRound 0 d = 0 := by
  have h := dblRound_of_dvd 0 d hd (Nat.dvd_zero _)
  rwa [Nat.zero_mul] at h

theorem dblSub_self (a : Nat) : dblSub a a = 0 := by
  unfold dblSub
  rw [Nat.sub_self]
  exact dblRound_zero 1 Nat.one_pos

theorem dblMul_zero (a : Nat) : dblMul a 0 = 0 := by
  unfold dblMul
  rw [Nat.mul_zero]
  exact dblRound_zero dblOne dblOne_pos

theorem dblFloor_int (k : Nat) : dblFloor (k * dblOne) = k * dblOne := by
  unfold dblFloor
  rw [Nat.mul_div_cancel k dblOne_pos]

theorem dblCeil_int (k : Nat) : dblCeil (k * dblOne) = k * dblOne := by
  unfold dblCeil
  have h : (k * dblOne + dblOne - 1) / dblOne = k := by
    have hp := dblOne_pos
    rw [Nat.add_sub_assoc hp, Nat.mul_comm, Nat.mul_add_div hp,
      Nat.div_eq_of_lt (by omega)]
    rfl
  rw [h]

theorem dblToInt_int (k : Nat) : dblToInt (k * dblOne) = k := by
  unfold dblToInt
  rw [Nat.mul_div_cancel k dblOne_pos]
  rfl

/-! ## The identity axis -/

theorem coverage_ratio_self (n : Nat) (hn : 0 < n) : coverage_ratio n n = 16777216 := by
  unfold coverage_ratio
  rw [Nat.mul_div_cancel _ hn]
  rfl

theorem coverage_entry_self (n i : Nat) (hn : 0 < n) (hn2 : n < 2 ^ 53) (hi : i < n) :
    coverage_entry n n i = 16777216 := by
  unfold coverage_entry
  have hi1 : i < 2 ^ 53 := by omega
  have hi2 : i + 1 < 2 ^ 53 := by omega
  have hsc : dblDiv (dblOfNat n) (dblOfNat n) = dblOne := by
    apply dblDiv_self
    rw [dblOfNat_eq n hn2]
    exact Nat.mul_pos hn dblOne_pos
  simp only [hsc, dblOfNat_eq i hi1, dblOfNat_eq (i + 1) hi2, dblMul_one i hi1,
    dblMul_one (i + 1) hi2, dblFloor_int, dblCeil_int, dblSub_self, dblToInt_int, dblMul_zero,
    if_true]
  have h0 : dblToInt 0 = 0 := by
    have := dblToInt_int 0
    rwa [Nat.zero_mul] at this
  rw [h0]
  push_cast
  norm_num

/-! ## Termination of the vertical loops -/

theorem column_inner_some (pc : Int) (hpc : 0 < pc) (src : Nat → Nat) (stride fuel : Nat) :
    ∀ (box : Int) (acc : Accum) (column_src : Nat), box.toNat ≤ fuel →
      ∃ st, column_inner pc src stride fuel box acc column_src = some st := by
  induction fuel with
  | zero =>
    intro box acc column_src hb
    unfold column_inner
    rw [if_neg (by omega)]
    exact ⟨_, rfl⟩
  | succ fuel ih =>
    intro box acc column_src hb
    unfold column_inner
    by_cases h : box ≥ pc
    · rw [if_pos h]
      exact ih _ _ _ (by omega)
    · rw [if_neg h]
      exact ⟨_, rfl⟩

theorem column_pixel_some (sc pc : Int) (hpc : 0 < pc) (src : Nat → Nat) (stride j : Nat) :
    ∃ q, column_pixel sc pc src stride j = some q := by
  unfold column_pixel
  obtain ⟨st, hst⟩ := column_inner_some pc hpc src stride (UNIT - sc).toNat (UNIT - sc)
    (accum_first (src j) sc) (j + stride) (Nat.le_refl _)
  simp only [hst]
  exact ⟨_, rfl⟩

theorem columns_loop_some (sc pc : Int) (hpc : 0 < pc) (src : Nat → Nat) (stride todo : Nat) :
    ∀ j, ∃ row, columns_loop sc pc src stride todo j = some row ∧ row.length = todo := by
  induction todo with
  | zero => exact fun _ => ⟨[], rfl, rfl⟩
  | succ todo ih =>
    intro j
    unfold columns_loop
    obtain ⟨q, hq⟩ := column_pixel_some sc pc hpc src stride j
    obtain ⟨row, hrow, hlen⟩ := ih (j + 1)
    simp only [hq, hrow]
    exact ⟨q :: row, rfl, by simp [hlen]⟩

theorem columns_loop_length (sc pc : Int) (src : Nat → Nat) (stride todo : Nat) :
    ∀ j row, columns_loop sc pc src stride todo j = some row → row.length = todo := by
  induction todo with
  | zero =>
    intro j row h
    simp only [columns_loop, Option.some.injEq] at h
    rw [← h]
    rfl
  | succ todo ih =>
    intro j row h
    unfold columns_loop at h
    cases hq : column_pixel sc pc src stride j with
    | none => simp [hq] at h
    | some q =>
      cases hr : columns_loop sc pc src stride todo (j + 1) with
      | none => simp [hq, hr] at h
      | some r =>
        simp only [hq, hr, Option.map_some', Option.some.injEq] at h
        rw [← h, List.length_cons, ih (j + 1) r hr]

theorem temp_buf_rows_some (c : Call) (hh : c.scaled_height ≠ 0) :
    ∃ n, temp_buf_rows c = some n := by
  unfold temp_buf_rows
  rw [if_neg hh]
  exact ⟨_, rfl⟩

theorem downScaleImage_zero_height (c : Call) (m : Scratch) (dest : Nat → Nat)
    (hh : c.scaled_height = 0) : downScaleImage c m dest = none := by
  unfold downScaleImage temp_buf_rows
  rw [if_pos hh]

theorem downScaleImage_ok (c : Call) (x0 y0 : Nat → Int) (t0 dest : Nat → Nat)
    (hh : c.scaled_height ≠ 0) (how : c.orig_width ≠ 0) (hoh : c.orig_height ≠ 0) :
    downScaleImage c
        { scanline := true, x_coverage := some x0, y_coverage := some y0, temp_buf := some t0 }
        dest =
      if c.width + c.start_column ≤ c.scaled_width then
        match skip_rows (compute_coverage y0 c.orig_height c.scaled_height).1
            (compute_coverage y0 c.orig_height c.scaled_height).2 c.start_row 0 0 with
        | none => none
        | some src_y =>
          (scale_rows c (compute_coverage x0 c.orig_width c.scaled_width).1
              (compute_coverage x0 c.orig_width c.scaled_width).2
              (compute_coverage y0 c.orig_height c.scaled_height).1
              (compute_coverage y0 c.orig_height c.scaled_height).2 c.height c.start_row
              { src_y := src_y, temp_buf := t0, dest := dest, dest_off := 0, fetched := [],
                written := [] }).map
            fun s => { retval := true, dest := s.dest, fetched := s.fetched,
                       written := s.written }
      else none := by
  obtain ⟨n, hn⟩ := temp_buf_rows_some c hh
  unfold downScaleImage
  rw [hn]
  simp only []
  rw [if_neg (by
    rintro (h | h)
    · exact how h
    · exact hoh h)]

theorem downScaleImage_fail (c : Call) (m : Scratch) (dest : Nat → Nat)
    (hh : c.scaled_height ≠ 0)
    (h : ¬ ∃ x0 y0 t0, m =
      { scanline := true, x_coverage := some x0, y_coverage := some y0, temp_buf := some t0 }) :
    downScaleImage c m dest =
      some { retval := false, dest := dest, fetched := [], written := [] } := by
  obtain ⟨n, hn⟩ := temp_buf_rows_some c hh
  unfold downScaleImage
  rw [hn]
  rcases m with ⟨sl, xo, yo, tb⟩
  cases sl <;> cases xo <;> cases yo <;> cases tb <;> first
    | rfl
    | exact absurd ⟨_, _, _, rfl⟩ h

theorem trace_push (f : List Nat) (y k : Nat) (hk : k ≤ 1)
    (h : f.Pairwise (· ≤ ·) ∧ (∀ z ∈ f, z ≤ y) ∧ f.count y ≤ k ∧ ∀ z, f.count z ≤ 2) :
    (f ++ [y]).Pairwise (· ≤ ·) ∧ (∀ z ∈ f ++ [y], z ≤ y) ∧ (f ++ [y]).count y ≤ k + 1 ∧
      (f ++ [y]).count (y + 1) ≤ 0 ∧ ∀ z, (f ++ [y]).count z ≤ 2 := by
  obtain ⟨hp, hle, hc, h2⟩ := h
  refine ⟨?_, ?_, ?_, ?_, ?_⟩
  · rw [List.pairwise_append]
    refine ⟨hp, List.pairwise_singleton _ _, ?_⟩
    intro a ha b hb
    rw [List.mem_singleton] at hb
    subst hb
    exact hle a ha
  · intro z hz
    rw [List.mem_append, List.mem_singleton] at hz
    rcases hz with hz | hz
    · exact hle z hz
    · omega
  · rw [List.count_append, List.count_singleton_self]
    omega
  · rw [List.count_append]
    have h1 : f.count (y + 1) = 0 := by
      rw [List.count_eq_zero]
      intro hmem
      have := hle _ hmem
      omega
    have h3 : [y].count (y + 1) = 0 := by
      rw [List.count_eq_zero, List.mem_singleton]
      omega
    omega
  · intro z
    rw [List.count_append]
    by_cases hz : z = y
    · subst hz
      rw [List.count_singleton_self]
      omega
    · have h3 : [y].count z = 0 := by
        rw [List.count_eq_zero, List.mem_singleton]
        exact hz
      have := h2 z
      omega

theorem rows_inner_trace (c : Call) (xc : Nat → Int) (pcx pcy : Int) (fuel : Nat) :
    ∀ st st1 : RowState, rows_inner c xc pcx pcy fuel st = some st1 →
      (st.fetched.Pairwise (· ≤ ·) ∧ (∀ z ∈ st.fetched, z ≤ st.src_y) ∧
        st.fetched.count st.src_y ≤ 0 ∧ ∀ z, st.fetched.count z ≤ 2) →
      (st1.fetched.Pairwise (· ≤ ·) ∧ (∀ z ∈ st1.fetched, z ≤ st1.src_y) ∧
        st1.fetched.count st1.src_y ≤ 0 ∧ ∀ z, st1.fetched.count z ≤ 2) := by
  induction fuel with
  | zero =>
    intro st st1 h hinv
    unfold rows_inner at h
    split at h
    · exact absurd h (by simp)
    · simp only [Option.some.injEq] at h
      rw [← h]
      exact hinv
  | succ fuel ih =>
    intro st st1 h hinv
    unfold rows_inner at h
    split at h
    · refine ih _ st1 h ?_
      simp only [fetch_row]
      have hp := trace_push st.fetched st.src_y 0 (by omega) hinv
      refine ⟨hp.1, ?_, hp.2.2.2.1, hp.2.2.2.2⟩
      intro z hz
      have := hp.2.1 z hz
      omega
    · simp only [Option.some.injEq] at h
      rw [← h]
      exact hinv

theorem gather_rows_trace (c : Call) (xc : Nat → Int) (pcx : Int) (yc : Nat → Int) (pcy : Int)
    (dest_y src_y : Nat) (temp_buf : Nat → Nat) (fetched : List Nat) (st : RowState)
    (h : gather_rows c xc pcx yc pcy dest_y src_y temp_buf fetched = some st)
    (hinv : fetched.Pairwise (· ≤ ·) ∧ (∀ z ∈ fetched, z ≤ src_y) ∧
      fetched.count src_y ≤ 1 ∧ ∀ z, fetched.count z ≤ 2) :
    st.fetched.Pairwise (· ≤ ·) ∧ (∀ z ∈ st.fetched, z ≤ st.src_y) ∧
      st.fetched.count st.src_y ≤ 1 ∧ ∀ z, st.fetched.count z ≤ 2 := by
  unfold gather_rows at h
  simp only [Option.map_eq_some'] at h
  obtain ⟨st1, h1, h2⟩ := h
  have hp := trace_push fetched src_y 1 (by omega) hinv
  have hfirst := rows_inner_trace c xc pcx pcy _ _ st1 h1 (by
    simp only [gather_first, fetch_row]
    refine ⟨hp.1, ?_, hp.2.2.2.1, hp.2.2.2.2⟩
    intro z hz
    have := hp.2.1 z hz
    omega)
  rw [← h2]
  unfold gather_last
  split
  · simp only [fetch_row]
    have hq := trace_push st1.fetched st1.src_y 0 (by omega) hfirst
    exact ⟨hq.1, hq.2.1, hq.2.2.1, hq.2.2.2.2⟩
  · exact ⟨hfirst.1, hfirst.2.1, by omega, hfirst.2.2.2⟩

theorem scale_rows_trace (c : Call) (xc : Nat → Int) (pcx : Int) (yc : Nat → Int) (pcy : Int)
    (todo : Nat) : ∀ (dest_y : Nat) (s s1 : ImageState),
      scale_rows c xc pcx yc pcy todo dest_y s = some s1 →
      (s.fetched.Pairwise (· ≤ ·) ∧ (∀ z ∈ s.fetched, z ≤ s.src_y) ∧
        s.fetched.count s.src_y ≤ 1 ∧ ∀ z, s.fetched.count z ≤ 2) →
      (s1.fetched.Pairwise (· ≤ ·) ∧ (∀ z ∈ s1.fetched, z ≤ s1.src_y) ∧
        s1.fetched.count s1.src_y ≤ 1 ∧ ∀ z, s1.fetched.count z ≤ 2) := by
  induction todo with
  | zero =>
    intro dest_y s s1 h hinv
    simp only [scale_rows, Option.some.injEq] at h
    rw [← h]
    exact hinv
  | succ todo ih =>
    intro dest_y s s1 h hinv
    unfold scale_rows at h
    cases hg : gather_rows c xc pcx yc pcy dest_y s.src_y s.temp_buf s.fetched with
    | none => simp [hg] at h
    | some st =>
      cases hc : downsample_columns_box_filter c.width (yc dest_y) pcy st.temp_buf with
      | none => simp [hg, hc] at h
      | some row =>
        simp only [hg, hc] at h
        exact ih _ _ s1 h (gather_rows_trace c xc pcx yc pcy dest_y s.src_y s.temp_buf s.fetched
          st hg hinv)

theorem downScaleImage_cases (c : Call) (m : Scratch) (dest : Nat → Nat) (o : Outcome)
    (h : downScaleImage c m dest = some o) :
    o = { retval := false, dest := dest, fetched := [], written := [] } ∨
    ∃ x0 y0 t0 src_y s1, m.x_coverage = some x0 ∧ m.y_coverage = some y0 ∧
      m.scanline = true ∧ m.temp_buf = some t0 ∧
      c.width + c.start_column ≤ c.scaled_width ∧
      skip_rows (compute_coverage y0 c.orig_height c.scaled_height).1
        (compute_coverage y0 c.orig_height c.scaled_height).2 c.start_row 0 0 = some src_y ∧
      scale_rows c (compute_coverage x0 c.orig_width c.scaled_width).1
        (compute_coverage x0 c.orig_width c.scaled_width).2
        (compute_coverage y0 c.orig_height c.scaled_height).1
        (compute_coverage y0 c.orig_height c.scaled_height).2 c.height c.start_row
        { src_y := src_y, temp_buf := t0, dest := dest, dest_off := 0, fetched := [],
          written := [] } = some s1 ∧
      o = { retval := true, dest := s1.dest, fetched := s1.fetched, written := s1.written } := by
  by_cases hh : c.scaled_height = 0
  · rw [downScaleImage_zero_height c m dest hh] at h
    exact absurd h (by simp)
  by_cases halloc : ∃ x0 y0 t0, m =
      { scanline := true, x_coverage := some x0, y_coverage := some y0, temp_buf := some t0 }
  · obtain ⟨x0, y0, t0, rfl⟩ := halloc
    right
    by_cases hz : c.orig_width = 0 ∨ c.orig_height = 0
    · obtain ⟨n, hn⟩ := temp_buf_rows_some c hh
      unfold downScaleImage at h
      rw [hn] at h
      simp only [] at h
      rw [if_pos hz] at h
      exact absurd h (by simp)
    · rw [downScaleImage_ok c x0 y0 t0 dest hh (fun e => hz (Or.inl e))
        (fun e => hz (Or.inr e))] at h
      split at h
      · rename_i hw
        split at h
        · exact absurd h (by simp)
        · rename_i src_y hsk
          simp only [Option.map_eq_some'] at h
          obtain ⟨s1, hs1, ho⟩ := h
          exact ⟨x0, y0, t0, src_y, s1, rfl, rfl, rfl, rfl, hw, hsk, hs1, ho.symm⟩
      · exact absurd h (by simp)
  · left
    rw [downScaleImage_fail c m dest hh halloc] at h
    simp only [Option.some.injEq] at h
    exact h.symm

theorem downScaleImage_trace (c : Call) (m : Scratch) (dest : Nat → Nat) (o : Outcome)
    (h : downScaleImage c m dest = some o) :
    o.fetched.Pairwise (· ≤ ·) ∧ ∀ z, o.fetched.count z ≤ 2 := by
  rcases downScaleImage_cases c m dest o h with ho | ⟨x0, y0, t0, src_y, s1, _, _, _, _, _, _, hs1, ho⟩
  · rw [ho]
    simp
  · have := scale_rows_trace c _ _ _ _ _ _ _ s1 hs1 (by simp)
    rw [ho]
    exact ⟨this.1, this.2.2.2⟩

/-- Claim C6 as stated fails: downscaling three source rows to two destination
rows requests row 1 twice, as the leftover row of destination row 0 and as the
first row of destination row 1. -/
theorem getRow_refetch :
    ∃ o, downScaleImage sample_call sample_scratch (fun _ => 0) = some o ∧
      o.fetched = [0, 1, 1, 2] ∧ ¬ o.fetched.Pairwise (· < ·) := by
  have h : (downScaleImage sample_call sample_scratch (fun _ => 0)).map (·.fetched) =
      some [0, 1, 1, 2] := by decide!
  rw [Option.map_eq_some'] at h
  obtain ⟨o, ho, hf⟩ := h
  refine ⟨o, ho, hf, ?_⟩
  rw [hf]
  decide

/-- Claim C6, amended: within one call of `downScaleImage` the sequence of row
indices passed to `getRow` is non-decreasing, and no row index is requested
more than twice. -/
theorem getRow_order (c : Call) (m : Scratch) (dest : Nat → Nat) (o : Outcome)
    (h : downScaleImage c m dest = some o) :
    o.fetched.Pairwise (· ≤ ·) ∧ ∀ z, o.fetched.count z ≤ 2 :=
  downScaleImage_trace c m dest o h

theorem getRow_order_witness :
    ∃ o, downScaleImage sample_call sample_scratch (fun _ => 0) = some o ∧
      (o.fetched.Pairwise (· ≤ ·) ∧ ∀ z, o.fetched.count z ≤ 2) := by
  have h : (downScaleImage sample_call sample_scratch (fun _ => 0)).isSome = true := by decide!
  obtain ⟨o, ho⟩ := Option.isSome_iff_exists.mp h
  exact ⟨o, ho, getRow_order sample_call sample_scratch (fun _ => 0) o ho⟩

/-! ## The destination frame -/

theorem store_outside (buf : Nat → Nat) (off : Nat) (pixels : List Nat) (p : Nat)
    (h : ¬ (off ≤ p ∧ p < off + pixels.length)) : store buf off pixels p = buf p := by
  unfold store
  rw [if_neg h]

theorem store_inside (buf : Nat → Nat) (off : Nat) (pixels : List Nat) (j : Nat)
    (h : j < pixels.length) : store buf off pixels (off + j) = pixels.getD j 0 := by
  unfold store
  rw [if_pos ⟨by omega, by omega⟩, Nat.add_sub_cancel_left]

theorem write_rows_outside (step : Nat) (rows : List (List Nat)) :
    ∀ (dest : Nat → Nat) (off p : Nat),
      (∀ k, k < rows.length →
        ¬ (off + k * step ≤ p ∧ p < off + k * step + (rows.getD k []).length)) →
      write_rows dest off step rows p = dest p := by
  induction rows with
  | nil => exact fun _ _ _ _ => rfl
  | cons row rows ih =>
    intro dest off p h
    unfold write_rows
    rw [ih (store dest off row) (off + step) p]
    · apply store_outside
      have := h 0 (by simp)
      simpa using this
    · intro k hk
      have := h (k + 1) (by simpa using hk)
      simp only [List.getD_cons_succ] at this
      rw [Nat.add_mul, Nat.one_mul] at this
      intro hcon
      apply this
      omega

theorem write_rows_inside (step w : Nat) (hw : w ≤ step) (rows : List (List Nat)) :
    ∀ (dest : Nat → Nat) (off : Nat), (∀ row ∈ rows, row.length = w) →
      ∀ k j, k < rows.length → j < w →
        write_rows dest off step rows (off + k * step + j) = (rows.getD k []).getD j 0 := by
  induction rows with
  | nil =>
    intro dest off _ k j hk
    simp at hk
  | cons row rows ih =>
    intro dest off hlen k j hk hj
    unfold write_rows
    have hrow : row.length = w := hlen row (by simp)
    have hrest : ∀ r ∈ rows, r.length = w := fun r hr => hlen r (by simp [hr])
    cases k with
    | zero =>
      rw [write_rows_outside]
      · simp only [Nat.zero_mul, Nat.add_zero, List.getD_cons_zero]
        exact store_inside dest off row j (by omega)
      · intro k hk2
        have hl : (rows.getD k []).length = w := by
          rw [List.getD_eq_getElem _ _ hk2]
          exact hrest _ (List.getElem_mem _)
        rw [hl]
        have : k * step ≥ 0 := Nat.zero_le _
        simp only [Nat.zero_mul, Nat.add_zero]
        intro hcon
        have h1 := hcon.1
        have : off + step + k * step ≥ off + step := Nat.le_add_right _ _
        omega
    | succ k =>
      have := ih (store dest off row) (off + step) hrest k j (by simpa using hk) hj
      simp only [List.getD_cons_succ]
      rw [← this]
      congr 1
      rw [Nat.add_mul, Nat.one_mul]
      omega

theorem scale_rows_frame (c : Call) (xc : Nat → Int) (pcx : Int) (yc : Nat → Int) (pcy : Int)
    (todo : Nat) : ∀ (dest_y : Nat) (s s1 : ImageState),
      scale_rows c xc pcx yc pcy todo dest_y s = some s1 →
      ∃ rows : List (List Nat), rows.length = todo ∧ (∀ row ∈ rows, row.length = c.width) ∧
        s1.written = s.written ++ rows ∧
        s1.dest = write_rows s.dest s.dest_off (c.dst_stride / 4) rows := by
  induction todo with
  | zero =>
    intro dest_y s s1 h
    simp only [scale_rows, Option.some.injEq] at h
    rw [← h]
    exact ⟨[], rfl, by simp, by simp, rfl⟩
  | succ todo ih =>
    intro dest_y s s1 h
    unfold scale_rows at h
    cases hg : gather_rows c xc pcx yc pcy dest_y s.src_y s.temp_buf s.fetched with
    | none => simp [hg] at h
    | some st =>
      cases hc : downsample_columns_box_filter c.width (yc dest_y) pcy st.temp_buf with
      | none => simp [hg, hc] at h
      | some row =>
        simp only [hg, hc] at h
        obtain ⟨rows, hlen, hw, hwr, hd⟩ := ih _ _ s1 h
        have hrow : row.length = c.width := columns_loop_length _ _ _ _ _ _ _ hc
        refine ⟨row :: rows, by simp [hlen], ?_, ?_, ?_⟩
        · intro r hr
          rw [List.mem_cons] at hr
          rcases hr with hr | hr
          · rw [hr]
            exact hrow
          · exact hw r hr
        · rw [hwr]
          simp
        · rw [hd]
          rfl

/-- Claim C10 as stated fails: for the window of the single pixel (1, 1) the
pixel is stored at the start of the destination data (offset 0), and the
destination position (1, 1), pixel offset `1 * (16 / 4) + 1 = 5`, keeps its
old value. -/
theorem window_written_at_origin :
    ∃ o, downScaleImage sample_window sample_scratch (fun _ => 9) = some o ∧
      o.retval = true ∧ o.dest 0 = 303174162 ∧ o.dest 5 = 9 := by
  have h : (downScaleImage sample_window sample_scratch (fun _ => 9)).map
      (fun o => (o.retval, o.dest 0, o.dest 5)) = some (true, 303174162, 9) := by decide!
  rw [Option.map_eq_some'] at h
  obtain ⟨o, ho, hf⟩ := h
  simp only [Prod.mk.injEq] at hf
  exact ⟨o, ho, hf.1, hf.2.1, hf.2.2⟩

/-- Claim C10, amended: on success `downScaleImage` stores exactly `height` rows
of `width` pixels into the destination, the `k`-th row beginning at pixel
offset `k * (dst_stride / 4)` from the start of the surface data (consecutive
rows one stride apart, whatever `start_column` and `start_row` are); every
other destination pixel is left unchanged, and when a row fits into the stride
the stored pixels are those of the rows produced. -/
theorem downScaleImage_frame (c : Call) (m : Scratch) (dest : Nat → Nat) (o : Outcome)
    (h : downScaleImage c m dest = some o) (hret : o.retval = true) :
    o.written.length = c.height ∧ (∀ row ∈ o.written, row.length = c.width) ∧
      o.dest = write_rows dest 0 (c.dst_stride / 4) o.written ∧
      (∀ p, (∀ k, k < c.height →
          ¬ (k * (c.dst_stride / 4) ≤ p ∧ p < k * (c.dst_stride / 4) + c.width)) →
        o.dest p = dest p) ∧
      (c.width ≤ c.dst_stride / 4 → ∀ k j, k < c.height → j < c.width →
        o.dest (k * (c.dst_stride / 4) + j) = (o.written.getD k []).getD j 0) := by
  rcases downScaleImage_cases c m dest o h with ho | ⟨x0, y0, t0, src_y, s1, _, _, _, _, _, _, hs1, ho⟩
  · rw [ho] at hret
    exact absurd hret (by simp)
  · obtain ⟨rows, hlen, hw, hwr, hd⟩ := scale_rows_frame c _ _ _ _ _ _ _ s1 hs1
    simp only [List.nil_append] at hwr
    have hwritten : o.written = rows := by rw [ho]; exact hwr
    have hdest : o.dest = write_rows dest 0 (c.dst_stride / 4) rows := by rw [ho]; exact hd
    rw [hwritten, hdest]
    refine ⟨hlen, hw, rfl, ?_, ?_⟩
    · intro p hp
      apply write_rows_outside
      intro k hk
      have hl : (rows.getD k []).length = c.width := by
        rw [List.getD_eq_getElem _ _ hk]
        exact hw _ (List.getElem_mem _)
      rw [hl, Nat.zero_add]
      exact hp k (by omega)
    · intro hfit k j hk hj
      have := write_rows_inside (c.dst_stride / 4) c.width hfit rows dest 0 hw k j (by omega) hj
      rwa [Nat.zero_add] at this

theorem downScaleImage_frame_witness :
    ∃ o, downScaleImage sample_window sample_scratch (fun _ => 9) = some o ∧
      o.retval = true ∧ o.written.length = sample_window.height ∧
      (∀ row ∈ o.written, row.length = sample_window.width) ∧
      o.dest = write_rows (fun _ => 9) 0 (sample_window.dst_stride / 4) o.written ∧
      (∀ p, (∀ k, k < sample_window.height →
          ¬ (k * (sample_window.dst_stride / 4) ≤ p ∧
            p < k * (sample_window.dst_stride / 4) + sample_window.width)) →
        o.dest p = (fun _ => 9) p) ∧
      (sample_window.width ≤ sample_window.dst_stride / 4 →
        ∀ k j, k < sample_window.height → j < sample_window.width →
          o.dest (k * (sample_window.dst_stride / 4) + j) = (o.written.getD k []).getD j 0) := by
  have h : (downScaleImage sample_window sample_scratch (fun _ => 9)).map (·.retval) =
      some true := by decide!
  rw [Option.map_eq_some'] at h
  obtain ⟨o, ho, hret⟩ := h
  exact ⟨o, ho, hret, downScaleImage_frame sample_window sample_scratch (fun _ => 9) o ho hret⟩

/-! ## The loops in closed form -/

theorem skip_inner_shift (pc : Int) (fuel : Nat) : ∀ (box : Int) (y : Nat),
    skip_inner pc fuel box y = (skip_inner pc fuel box 0).map (fun k => y + k) := by
  induction fuel with
  | zero =>
    intro box y
    unfold skip_inner
    split <;> simp
  | succ fuel ih =>
    intro box y
    unfold skip_inner
    split
    · rw [ih (box - pc) (y + 1), ih (box - pc) (0 + 1), Option.map_map]
      congr 1
      funext k
      simp only [Function.comp]
      omega
    · simp

theorem rows_inner_eq (c : Call) (xc : Nat → Int) (pcx pcy : Int) (fuel : Nat) :
    ∀ st : RowState, rows_inner c xc pcx pcy fuel st =
      (skip_inner pcy fuel st.box 0).map (fun k => rows_iter c xc pcx pcy k st) := by
  induction fuel with
  | zero =>
    intro st
    unfold rows_inner skip_inner
    split <;> simp [rows_iter]
  | succ fuel ih =>
    intro st
    unfold rows_inner skip_inner
    split
    · rw [ih, skip_inner_shift pcy fuel _ (0 + 1), Option.map_map]
      simp only [fetch_row]
      congr 1
      funext k
      simp only [Function.comp, Nat.zero_add, Nat.add_comm 1 k, rows_iter, fetch_row]
    · simp [rows_iter]

theorem column_inner_eq (pc : Int) (src : Nat → Nat) (stride fuel : Nat) :
    ∀ (box : Int) (acc : Accum) (cs : Nat), column_inner pc src stride fuel box acc cs =
      (skip_inner pc fuel box 0).map (fun k => column_iter pc src stride k (box, acc, cs)) := by
  induction fuel with
  | zero =>
    intro box acc cs
    unfold column_inner skip_inner
    split <;> simp [column_iter]
  | succ fuel ih =>
    intro box acc cs
    unfold column_inner skip_inner
    split
    · rw [ih, skip_inner_shift pc fuel _ (0 + 1), Option.map_map]
      congr 1
      funext k
      simp only [Function.comp, Nat.zero_add, Nat.add_comm 1 k, column_iter]
    · simp [column_iter]

theorem skip_inner_box (pc : Int) (fuel : Nat) : ∀ (box : Int) (y k : Nat),
    skip_inner pc fuel box y = some k → box - (k - y : Nat) * pc < pc ∧ y ≤ k := by
  induction fuel with
  | zero =>
    intro box y k h
    unfold skip_inner at h
    split at h
    · exact absurd h (by simp)
    · simp only [Option.some.injEq] at h
      subst h
      simp only [Nat.sub_self, Nat.cast_zero, zero_mul, sub_zero]
      omega
  | succ fuel ih =>
    intro box y k h
    unfold skip_inner at h
    split at h
    · obtain ⟨h1, h2⟩ := ih _ _ _ h
      refine ⟨?_, by omega⟩
      have hk : ((k - y : Nat) : Int) = ((k - (y + 1) : Nat) : Int) + 1 := by omega
      rw [hk]
      linarith
    · simp only [Option.some.injEq] at h
      subst h
      simp only [Nat.sub_self, Nat.cast_zero, zero_mul, sub_zero]
      omega

/-! ## The number of pixels the row filter stores -/

theorem row_skip_inner_length (pc : Int) (src : List Nat) : ∀ (src1 : List Nat) (box : Int),
    src.length = src1.length →
      (row_skip_inner pc box src).2.length = (row_skip_inner pc box src1).2.length := by
  induction src with
  | nil =>
    intro src1 box h
    cases src1 with
    | nil => rfl
    | cons _ _ => simp at h
  | cons p src ih =>
    intro src1 box h
    cases src1 with
    | nil => simp at h
    | cons q src1 =>
      simp only [List.length_cons, Nat.add_right_cancel_iff] at h
      simp only [row_skip_inner]
      split
      · exact ih src1 _ h
      · simp [h]

theorem row_skip_length (cov : Nat → Int) (pc : Int) (todo : Nat) :
    ∀ (x : Nat) (src src1 : List Nat), src.length = src1.length →
      (row_skip cov pc todo x src).1 = (row_skip cov pc todo x src1).1 ∧
      (row_skip cov pc todo x src).2.length = (row_skip cov pc todo x src1).2.length := by
  induction todo with
  | zero => exact fun x src src1 h => ⟨rfl, h⟩
  | succ todo ih =>
    intro x src src1 h
    cases src with
    | nil =>
      cases src1 with
      | nil => exact ⟨rfl, rfl⟩
      | cons _ _ => simp at h
    | cons p src =>
      cases src1 with
      | nil => simp at h
      | cons q src1 =>
        simp only [List.length_cons, Nat.add_right_cancel_iff] at h
        simp only [row_skip]
        exact ih _ _ _ (row_skip_inner_length pc src src1 _ h)

theorem row_main_length (cov : Nat → Int) (pc : Int) (todo : Nat) :
    ∀ (x : Nat) (src src1 : List Nat), src.length = src1.length →
      (row_main cov pc todo x src).length = (row_main cov pc todo x src1).length := by
  induction todo with
  | zero => exact fun _ _ _ _ => rfl
  | succ todo ih =>
    intro x src src1 h
    cases src with
    | nil =>
      cases src1 with
      | nil => rfl
      | cons _ _ => simp at h
    | cons p src =>
      cases src1 with
      | nil => simp at h
      | cons q src1 =>
        simp only [List.length_cons, Nat.add_right_cancel_iff] at h
        simp only [row_main, List.length_cons, Nat.add_right_cancel_iff]
        apply ih
        rw [row_inner_src, row_inner_src]
        exact row_skip_inner_length pc src src1 _ h

theorem row_main_length_le (cov : Nat → Int) (pc : Int) (todo : Nat) :
    ∀ (x : Nat) (src : List Nat), (row_main cov pc todo x src).length ≤ todo := by
  induction todo with
  | zero => exact fun _ _ => Nat.le_refl 0
  | succ todo ih =>
    intro x src
    cases src with
    | nil => simp [row_main]
    | cons p src =>
      simp only [row_main, List.length_cons, Nat.add_le_add_iff_right]
      exact ih _ _

theorem row_skip_bounds (cov : Nat → Int) (pc : Int) (todo : Nat) :
    ∀ (x : Nat) (src : List Nat), x ≤ (row_skip cov pc todo x src).1 ∧
      (row_skip cov pc todo x src).1 ≤ x + todo ∧
      ((row_skip cov pc todo x src).1 < x + todo → (row_skip cov pc todo x src).2 = []) := by
  induction todo with
  | zero =>
    intro x src
    simp [row_skip]
  | succ todo ih =>
    intro x src
    cases src with
    | nil => simp [row_skip]
    | cons p src =>
      simp only [row_skip]
      obtain ⟨h1, h2, h3⟩ := ih (x + 1) (row_skip_inner pc (UNIT - cov x) src).2
      refine ⟨by omega, by omega, fun h => h3 (by omega)⟩

theorem row_filter_length_le (start width : Nat) (src : List Nat) (cov : Nat → Int) (pc : Int) :
    (downsample_row_box_filter start width src cov pc).length ≤ width := by
  show (row_main cov pc (start + width - (row_skip cov pc start 0 src).1)
    (row_skip cov pc start 0 src).1 (row_skip cov pc start 0 src).2).length ≤ width
  obtain ⟨h1, h2, h3⟩ := row_skip_bounds cov pc start 0 src
  by_cases h : (row_skip cov pc start 0 src).1 < 0 + start
  · simp only [h3 h, row_main_nil, List.length_nil]
    omega
  · have := row_main_length_le cov pc (start + width - (row_skip cov pc start 0 src).1)
      (row_skip cov pc start 0 src).1 (row_skip cov pc start 0 src).2
    omega

theorem row_filter_length_congr (start width : Nat) (src src1 : List Nat) (cov : Nat → Int)
    (pc : Int) (h : src.length = src1.length) :
    (downsample_row_box_filter start width src cov pc).length =
      (downsample_row_box_filter start width src1 cov pc).length := by
  show (row_main cov pc (start + width - (row_skip cov pc start 0 src).1)
      (row_skip cov pc start 0 src).1 (row_skip cov pc start 0 src).2).length =
    (row_main cov pc (start + width - (row_skip cov pc start 0 src1).1)
      (row_skip cov pc start 0 src1).1 (row_skip cov pc start 0 src1).2).length
  obtain ⟨h1, h2⟩ := row_skip_length cov pc start 0 src src1 h
  rw [h1]
  exact row_main_length cov pc _ _ _ _ h2

theorem filtered_row_length (c : Call) (xc : Nat → Int) (pcx : Int) (y y1 : Nat) :
    (filtered_row c xc pcx y).length = (filtered_row c xc pcx y1).length := by
  unfold filtered_row
  apply row_filter_length_congr
  simp

theorem filtered_row_length_le (c : Call) (xc : Nat → Int) (pcx : Int) (y : Nat) :
    (filtered_row c xc pcx y).length ≤ c.width :=
  row_filter_length_le _ _ _ _ _

/-! ## Two runs on different contents of temp_buf -/

theorem temp_agree_symm (w len n : Nat) (t t1 : Nat → Nat) (h : temp_agree w len n t t1) :
    temp_agree w len n t1 t :=
  fun m j hj hm => (h m j hj hm).symm

theorem fetch_row_eq (c : Call) (xc : Nat → Int) (pcx : Int) (st : RowState) :
    fetch_row c xc pcx st =
      { st with
        temp_buf := store st.temp_buf (c.width * st.columns) (filtered_row c xc pcx st.src_y)
        columns := st.columns + 1
        fetched := st.fetched ++ [st.src_y] } := rfl

theorem rows_iter_fields (c : Call) (xc : Nat → Int) (pcx pcy : Int) (k : Nat) :
    ∀ st : RowState, (rows_iter c xc pcx pcy k st).box = st.box - k * pcy ∧
      (rows_iter c xc pcx pcy k st).columns = st.columns + k ∧
      (rows_iter c xc pcx pcy k st).src_y = st.src_y + k := by
  induction k with
  | zero =>
    intro st
    simp [rows_iter]
  | succ k ih =>
    intro st
    simp only [rows_iter]
    obtain ⟨h1, h2, h3⟩ := ih
      { fetch_row c xc pcx st with
        src_y := (fetch_row c xc pcx st).src_y + 1, box := (fetch_row c xc pcx st).box - pcy }
    rw [h1, h2, h3]
    simp only [fetch_row_eq]
    push_cast
    refine ⟨by ring, by omega, by omega⟩

theorem column_iter_congr (pc : Int) (t t1 : Nat → Nat) (stride k : Nat) :
    ∀ (box : Int) (acc : Accum) (cs : Nat),
      (∀ i, i < k → t (cs + i * stride) = t1 (cs + i * stride)) →
      column_iter pc t stride k (box, acc, cs) = column_iter pc t1 stride k (box, acc, cs) := by
  induction k with
  | zero => exact fun _ _ _ _ => rfl
  | succ k ih =>
    intro box acc cs h
    simp only [column_iter]
    have h0 := h 0 (by omega)
    simp only [Nat.zero_mul, Nat.add_zero] at h0
    rw [h0]
    apply ih
    intro i hi
    have := h (i + 1) (by omega)
    rw [Nat.succ_mul] at this
    have e : cs + stride + i * stride = cs + (i * stride + stride) := by omega
    rw [e]
    exact this

theorem column_iter_fields (pc : Int) (t : Nat → Nat) (stride k : Nat) :
    ∀ st : Int × Accum × Nat, (column_iter pc t stride k st).1 = st.1 - k * pc ∧
      (column_iter pc t stride k st).2.2 = st.2.2 + k * stride := by
  induction k with
  | zero =>
    intro st
    simp [column_iter]
  | succ k ih =>
    intro st
    simp only [column_iter]
    obtain ⟨h1, h2⟩ := ih (st.1 - pc, accum_add st.2.1 (t st.2.2) pc, st.2.2 + stride)
    rw [h1, h2]
    push_cast
    refine ⟨by ring, ?_⟩
    rw [Nat.succ_mul]
    omega

theorem column_pixel_congr (sc pc : Int) (t t1 : Nat → Nat) (w len n j k : Nat) (hj : j < w)
    (hk : skip_inner pc (UNIT - sc).toNat (UNIT - sc) 0 = some k)
    (hn : k + 1 + (if UNIT - sc - k * pc > 0 then 1 else 0) ≤ n)
    (h : temp_agree w len n t t1) :
    column_pixel sc pc t w j = column_pixel sc pc t1 w j := by
  unfold column_pixel
  simp only [column_inner_eq, hk, Option.map_some']
  have h0 : t j = t1 j := by
    have := h 0 j hj (Or.inl (by omega))
    simpa using this
  have hit : column_iter pc t w k (UNIT - sc, accum_first (t j) sc, j + w) =
      column_iter pc t1 w k (UNIT - sc, accum_first (t1 j) sc, j + w) := by
    rw [h0]
    apply column_iter_congr
    intro i hi
    have := h (i + 1) j hj (Or.inl (by omega))
    rw [Nat.succ_mul] at this
    have e : j + w + i * w = j + (i * w + w) := by omega
    rw [e]
    exact this
  rw [hit]
  congr 2
  obtain ⟨f1, f2⟩ := column_iter_fields pc t1 w k (UNIT - sc, accum_first (t1 j) sc, j + w)
  unfold column_leftover
  rw [f1, f2]
  simp only []
  split
  · rename_i hpos
    rw [if_pos hpos] at hn
    have := h (k + 1) j hj (Or.inl (by omega))
    rw [Nat.succ_mul] at this
    have e : j + w + k * w = j + (k * w + w) := by omega
    rw [e, this]
  · rfl

theorem columns_loop_congr (sc pc : Int) (t t1 : Nat → Nat) (w len n k : Nat)
    (hk : skip_inner pc (UNIT - sc).toNat (UNIT - sc) 0 = some k)
    (hn : k + 1 + (if UNIT - sc - k * pc > 0 then 1 else 0) ≤ n)
    (h : temp_agree w len n t t1) (todo : Nat) :
    ∀ j, j + todo ≤ w → columns_loop sc pc t w todo j = columns_loop sc pc t1 w todo j := by
  induction todo with
  | zero => exact fun _ _ => rfl
  | succ todo ih =>
    intro j hj
    simp only [columns_loop]
    rw [column_pixel_congr sc pc t t1 w len n j k (by omega) hk hn h, ih (j + 1) (by omega)]

theorem gather_rows_eq (c : Call) (xc : Nat → Int) (pcx : Int) (yc : Nat → Int) (pcy : Int)
    (dest_y src_y : Nat) (t : Nat → Nat) (f : List Nat) :
    gather_rows c xc pcx yc pcy dest_y src_y t f =
      (skip_inner pcy (UNIT - yc dest_y).toNat (UNIT - yc dest_y) 0).map
        (fun k => gather_last c xc pcx
          (rows_iter c xc pcx pcy k (gather_first c xc pcx (yc dest_y) src_y t f))) := by
  unfold gather_rows
  simp only [rows_inner_eq, Option.map_map]
  rfl

theorem gather_state (c : Call) (xc : Nat → Int) (pcx pcy : Int) (sc : Int)
    (src_y : Nat) (t : Nat → Nat) (f : List Nat) (k : Nat) :
    (gather_last c xc pcx (rows_iter c xc pcx pcy k
        (gather_first c xc pcx sc src_y t f))).src_y = src_y + 1 + k ∧
      (gather_last c xc pcx (rows_iter c xc pcx pcy k
        (gather_first c xc pcx sc src_y t f))).columns =
        k + 1 + (if UNIT - sc - k * pcy > 0 then 1 else 0) := by
  obtain ⟨h1, h2, h3⟩ := rows_iter_fields c xc pcx pcy k (gather_first c xc pcx sc src_y t f)
  have g1 : (gather_first c xc pcx sc src_y t f).box = UNIT - sc := rfl
  have g2 : (gather_first c xc pcx sc src_y t f).columns = 1 := rfl
  have g3 : (gather_first c xc pcx sc src_y t f).src_y = src_y + 1 := rfl
  rw [g1] at h1
  rw [g2] at h2
  rw [g3] at h3
  unfold gather_last
  rw [h1]
  split
  · simp only [fetch_row_eq, h2, h3]
    refine ⟨?_, ?_⟩ <;> first | trivial | omega
  · simp only [h2, h3]
    refine ⟨?_, ?_⟩ <;> first | trivial | omega

theorem accum_pack_first_unit (p : Nat) (hp : p < 4294967296) :
    accum_pack (accum_first p UNIT) = p := by
  have h24 := chan_lt p 24
  have h16 := chan_lt p 16
  have h8 := chan_lt p 8
  have h0 := chan_lt p 0
  have e : ∀ sh, u32 (chan p sh * UNIT) = chan p sh * 16777216 := by
    intro sh
    have := chan_lt p sh
    unfold u32 UNIT FIXED_SHIFT
    simp only [Nat.shiftLeft_eq, Nat.one_mul]
    omega
  unfold accum_pack accum_first FIXED_SHIFT
  simp only [e, Nat.shiftRight_eq_div_pow]
  have d : ∀ sh, chan p sh * 16777216 / 2 ^ 24 = chan p sh := by
    intro sh
    omega
  rw [d, d, d, d, pack_eq _ _ _ _ h24 h16 h8 h0]
  simp only [chan_eq]
  omega

theorem row_inner_zero (src : List Nat) (acc : Accum) :
    row_inner UNIT 0 acc src = (0, acc, src) := by
  cases src with
  | nil => rfl
  | cons p src =>
    unfold row_inner
    rw [if_neg (by decide)]

theorem row_leftover_zero (src : List Nat) (acc : Accum) : row_leftover 0 acc src = acc := by
  cases src with
  | nil => rfl
  | cons p src => simp [row_leftover]

theorem row_main_identity (cov : Nat → Int) (todo : Nat) :
    ∀ (x : Nat) (src : List Nat), (∀ i, x ≤ i → i < x + todo → cov i = UNIT) →
      row_main cov UNIT todo x src =
        (src.take todo).map (fun p => accum_pack (accum_first p UNIT)) := by
  induction todo with
  | zero =>
    intro x src _
    simp [row_main]
  | succ todo ih =>
    intro x src h
    cases src with
    | nil => simp [row_main]
    | cons p src =>
      have hx : cov x = UNIT := h x (Nat.le_refl _) (by omega)
      simp only [row_main, hx, sub_self, row_inner_zero, row_leftover_zero, List.take_succ_cons,
        List.map_cons]
      rw [ih (x + 1) src (fun i h1 h2 => h i (by omega) (by omega))]

theorem row_filter_identity (cov : Nat → Int) (width : Nat) (src : List Nat)
    (h : ∀ i, i < width → cov i = UNIT) (hp : ∀ p ∈ src, p < 4294967296) :
    downsample_row_box_filter 0 width src cov UNIT = src.take width := by
  show row_main cov UNIT (0 + width - (row_skip cov UNIT 0 0 src).1)
    (row_skip cov UNIT 0 0 src).1 (row_skip cov UNIT 0 0 src).2 = src.take width
  simp only [row_skip, Nat.zero_add, Nat.sub_zero]
  rw [row_main_identity cov width 0 src (fun i _ h2 => h i (by omega))]
  have hid : ∀ p ∈ src.take width, accum_pack (accum_first p UNIT) = id p :=
    fun p hp1 => accum_pack_first_unit p (hp p (List.mem_of_mem_take hp1))
  rw [List.map_congr_left hid, List.map_id]

theorem column_pixel_identity (t : Nat → Nat) (w j : Nat) :
    column_pixel UNIT UNIT t w j = some (accum_pack (accum_first (t j) UNIT)) := by
  unfold column_pixel
  simp only [sub_self, Int.toNat_zero, column_inner]
  rw [if_neg (by decide)]
  simp only [Option.map_some', column_leftover]
  rw [if_neg (by decide)]

theorem columns_loop_identity (t : Nat → Nat) (w todo : Nat) :
    ∀ j, columns_loop UNIT UNIT t w todo j =
      some ((List.range' j todo).map (fun i => accum_pack (accum_first (t i) UNIT))) := by
  induction todo with
  | zero => exact fun _ => rfl
  | succ todo ih =>
    intro j
    simp only [columns_loop, column_pixel_identity, ih, Option.map_some', List.range'_succ,
      List.map_cons]

theorem gather_rows_identity (c : Call) (xc : Nat → Int) (pcx : Int) (yc : Nat → Int)
    (dest_y src_y : Nat) (t : Nat → Nat) (f : List Nat) (hy : yc dest_y = UNIT) :
    gather_rows c xc pcx yc UNIT dest_y src_y t f =
      some { box := 0, columns := 1, src_y := src_y + 1,
             temp_buf := store t 0 (filtered_row c xc pcx src_y), fetched := f ++ [src_y] } := by
  rw [gather_rows_eq, hy]
  have hk : skip_inner UNIT (UNIT - UNIT).toNat (UNIT - UNIT) 0 = some 0 := by
    simp only [sub_self, Int.toNat_zero, skip_inner]
    rw [if_neg (by decide)]
  rw [hk]
  simp only [Option.map_some', rows_iter, gather_last, gather_first, fetch_row_eq, sub_self,
    Nat.mul_zero, Nat.zero_add]
  rw [if_neg (by decide)]

theorem store_prefix (t : Nat → Nat) (l : List Nat) (g : Nat → Nat)
    (hg : ∀ p ∈ l, g p = p) :
    (List.range' 0 l.length).map (fun i => g (store t 0 l i)) = l := by
  apply List.ext_getElem
  · simp
  · intro n h1 h2
    simp only [List.getElem_map, List.getElem_range', Nat.zero_add, Nat.one_mul]
    have := store_inside t 0 l n h2
    rw [Nat.zero_add] at this
    rw [this, List.getD_eq_getElem _ _ h2]
    exact hg _ (List.getElem_mem _)

theorem scale_rows_identity (c : Call) (xc : Nat → Int) (pcx : Int) (yc : Nat → Int)
    (hrow : ∀ y, (filtered_row c xc pcx y).length = c.width ∧
      ∀ p ∈ filtered_row c xc pcx y, p < 4294967296)
    (todo : Nat) : ∀ (dest_y : Nat) (s : ImageState),
      (∀ y, dest_y ≤ y → y < dest_y + todo → yc y = UNIT) →
      ∃ r, scale_rows c xc pcx yc UNIT todo dest_y s = some r ∧
        r.written = s.written ++ (List.range' s.src_y todo).map (filtered_row c xc pcx) ∧
        r.fetched = s.fetched ++ List.range' s.src_y todo := by
  induction todo with
  | zero =>
    intro dest_y s _
    exact ⟨s, rfl, by simp, by simp⟩
  | succ todo ih =>
    intro dest_y s hy
    unfold scale_rows
    rw [gather_rows_identity c xc pcx yc dest_y s.src_y s.temp_buf s.fetched
      (hy dest_y (Nat.le_refl _) (by omega))]
    simp only [downsample_columns_box_filter, hy dest_y (Nat.le_refl _) (by omega),
      columns_loop_identity]
    have hrowy := hrow s.src_y
    have hst : (List.range' 0 c.width).map (fun i => accum_pack (accum_first
        (store s.temp_buf 0 (filtered_row c xc pcx s.src_y) i) UNIT)) =
        filtered_row c xc pcx s.src_y := by
      have := store_prefix s.temp_buf (filtered_row c xc pcx s.src_y)
        (fun p => accum_pack (accum_first p UNIT))
        (fun p hp => accum_pack_first_unit p (hrowy.2 p hp))
      rw [hrowy.1] at this
      exact this
    rw [hst]
    obtain ⟨r, hr, hw, hf⟩ := ih (dest_y + 1)
      { src_y := s.src_y + 1,
        temp_buf := store s.temp_buf 0 (filtered_row c xc pcx s.src_y),
        dest := store s.dest s.dest_off (filtered_row c xc pcx s.src_y),
        dest_off := s.dest_off + c.dst_stride / 4, fetched := s.fetched ++ [s.src_y],
        written := s.written ++ [filtered_row c xc pcx s.src_y] }
      (fun y h1 h2 => hy y (by omega) (by omega))
    refine ⟨r, hr, ?_, ?_⟩
    · rw [hw]
      simp [List.range'_succ]
    · rw [hf]
      simp [List.range'_succ]

theorem compute_coverage_self (cov : Nat → Int) (n : Nat) (hn : 0 < n) (hn2 : n < 2 ^ 53) :
    (compute_coverage cov n n).2 = UNIT ∧ ∀ i, i < n → (compute_coverage cov n n).1 i = UNIT := by
  refine ⟨coverage_ratio_self n hn, fun i hi => ?_⟩
  show (if i < n then coverage_entry n n i else cov i) = UNIT
  rw [if_pos hi]
  exact coverage_entry_self n i hn hn2 hi

theorem filtered_row_identity (getRow : Nat → Nat → Nat) (w h dst_stride : Nat) (xc : Nat → Int)
    (hx : ∀ i, i < w → xc i = UNIT) (hpix : ∀ y x, getRow y x < 4294967296) (y : Nat) :
    filtered_row (identity_call getRow w h dst_stride) xc UNIT y =
      (List.range w).map (getRow y) := by
  show downsample_row_box_filter 0 w ((List.range w).map (getRow y)) xc UNIT = _
  rw [row_filter_identity xc w _ hx]
  · apply List.take_of_length_le
    simp
  · intro p hp
    rw [List.mem_map] at hp
    obtain ⟨x, _, rfl⟩ := hp
    exact hpix y x

/-- Claim C5 (identity): when the scaled size equals the original size (both at
least 1, inside the range of `int`), `compute_coverage` returns `1 << 24` and
stores `1 << 24` into every entry on both axes, and the call for the whole
image returns `true` having fetched every source row once and produced, as row
`y`, the pixels of source row `y`; when a row fits into the stride, the
destination pixel at `(x, y)` is source pixel `x` of source row `y`. -/
theorem identity_scaling (getRow : Nat → Nat → Nat) (w h dst_stride : Nat) (x0 y0 : Nat → Int)
    (t0 dest : Nat → Nat) (hw : 0 < w) (hw2 : w < 2 ^ 31) (hh : 0 < h) (hh2 : h < 2 ^ 31)
    (hpix : ∀ y x, getRow y x < 4294967296) :
    ((compute_coverage x0 w w).2 = 16777216 ∧
      ∀ i, i < w → (compute_coverage x0 w w).1 i = 16777216) ∧
    ((compute_coverage y0 h h).2 = 16777216 ∧
      ∀ i, i < h → (compute_coverage y0 h h).1 i = 16777216) ∧
    ∃ o, downScaleImage (identity_call getRow w h dst_stride)
        { scanline := true, x_coverage := some x0, y_coverage := some y0, temp_buf := some t0 }
        dest = some o ∧
      o.retval = true ∧ o.fetched = List.range h ∧
      o.written = (List.range h).map (fun y => (List.range w).map (getRow y)) ∧
      (w ≤ dst_stride / 4 → ∀ y x, y < h → x < w →
        o.dest (y * (dst_stride / 4) + x) = getRow y x) := by
  have hcx := compute_coverage_self x0 w hw (by omega)
  have hcy := compute_coverage_self y0 h hh (by omega)
  refine ⟨hcx, hcy, ?_⟩
  rw [downScaleImage_ok _ _ _ _ _ (Nat.pos_iff_ne_zero.mp hh) (Nat.pos_iff_ne_zero.mp hw)
    (Nat.pos_iff_ne_zero.mp hh)]
  have e1 : (identity_call getRow w h dst_stride).width +
      (identity_call getRow w h dst_stride).start_column ≤
      (identity_call getRow w h dst_stride).scaled_width := Nat.le_refl w
  rw [if_pos e1]
  have e2 : skip_rows (compute_coverage y0 (identity_call getRow w h dst_stride).orig_height
      (identity_call getRow w h dst_stride).scaled_height).1
      (compute_coverage y0 (identity_call getRow w h dst_stride).orig_height
      (identity_call getRow w h dst_stride).scaled_height).2
      (identity_call getRow w h dst_stride).start_row 0 0 = some 0 := rfl
  rw [e2]
  have hpx : (compute_coverage x0 (identity_call getRow w h dst_stride).orig_width
      (identity_call getRow w h dst_stride).scaled_width).2 = UNIT := hcx.1
  have hpy : (compute_coverage y0 (identity_call getRow w h dst_stride).orig_height
      (identity_call getRow w h dst_stride).scaled_height).2 = UNIT := hcy.1
  simp only [hpx, hpy]
  have hrow := fun y => filtered_row_identity getRow w h dst_stride
    (compute_coverage x0 (identity_call getRow w h dst_stride).orig_width
      (identity_call getRow w h dst_stride).scaled_width).1 hcx.2 hpix y
  obtain ⟨r, hr, hwr, hf⟩ := scale_rows_identity (identity_call getRow w h dst_stride)
    (compute_coverage x0 (identity_call getRow w h dst_stride).orig_width
      (identity_call getRow w h dst_stride).scaled_width).1 UNIT
    (compute_coverage y0 (identity_call getRow w h dst_stride).orig_height
      (identity_call getRow w h dst_stride).scaled_height).1
    (fun y => by
      rw [hrow y]
      refine ⟨by simp [identity_call], fun p hp => ?_⟩
      rw [List.mem_map] at hp
      obtain ⟨x, _, rfl⟩ := hp
      exact hpix y x)
    (identity_call getRow w h dst_stride).height
    (identity_call getRow w h dst_stride).start_row
    { src_y := 0, temp_buf := t0, dest := dest, dest_off := 0, fetched := [], written := [] }
    (fun y _ h2 => hcy.2 y (by simpa [identity_call] using h2))
  obtain ⟨rows, hlen, hwid, hwr2, hd⟩ := scale_rows_frame _ _ _ _ _ _ _ _ _ hr
  rw [hr]
  simp only [Option.map_some', List.nil_append] at hwr hf hwr2 ⊢
  have hheight : (identity_call getRow w h dst_stride).height = h := rfl
  have hwidth : (identity_call getRow w h dst_stride).width = w := rfl
  have hstride : (identity_call getRow w h dst_stride).dst_stride = dst_stride := rfl
  rw [hheight] at hwr hf hlen
  rw [hwidth] at hwid
  rw [hstride] at hd
  have hrows : r.written = (List.range h).map (fun y => (List.range w).map (getRow y)) := by
    rw [hwr, ← List.range_eq_range']
    apply List.map_congr_left
    intro y _
    exact hrow y
  refine ⟨_, rfl, rfl, ?_, hrows, ?_⟩
  · rw [hf, ← List.range_eq_range']
  · intro hfit y x hy hx
    show r.dest (y * (dst_stride / 4) + x) = getRow y x
    rw [hd]
    have := write_rows_inside (dst_stride / 4) w hfit rows dest 0 hwid y x (by omega) hx
    rw [Nat.zero_add] at this
    rw [this, ← hwr2, hrows]
    simp [hy, hx]

theorem identity_scaling_witness :
    ((compute_coverage (fun _ => 0) 2 2).2 = 16777216 ∧
      ∀ i, i < 2 → (compute_coverage (fun _ => 0) 2 2).1 i = 16777216) ∧
    ((compute_coverage (fun _ => 0) 3 3).2 = 16777216 ∧
      ∀ i, i < 3 → (compute_coverage (fun _ => 0) 3 3).1 i = 16777216) ∧
    ∃ o, downScaleImage (identity_call (fun y x => (10 * y + x) % 256) 2 3 8)
        { scanline := true, x_coverage := some fun _ => 0, y_coverage := some fun _ => 0,
          temp_buf := some fun _ => 0 }
        (fun _ => 0) = some o ∧
      o.retval = true ∧ o.fetched = List.range 3 ∧
      o.written =
        (List.range 3).map (fun y => (List.range 2).map (fun x => (10 * y + x) % 256)) ∧
      (2 ≤ 8 / 4 → ∀ y x, y < 3 → x < 2 → o.dest (y * (8 / 4) + x) = (10 * y + x) % 256) :=
  identity_scaling (fun y x => (10 * y + x) % 256) 2 3 8 (fun _ => 0) (fun _ => 0) (fun _ => 0)
    (fun _ => 0) (by decide) (by decide) (by decide) (by decide) (fun y x => by
      show (10 * y + x) % 256 < 4294967296
      omega)

/-! ## Four source pixels for one destination pixel -/

theorem coverage_entry_4_1 : coverage_entry 4 1 0 = 4194304 := by decide!

theorem coverage_ratio_4_1 : coverage_ratio 4 1 = 4194304 := by decide

theorem row_filter_four (coverage : Nat → Int) (pixel_coverage : Int)
    (h0 : coverage 0 = 4194304) (hpc : pixel_coverage = 4194304) (p0 p1 p2 p3 : Nat) :
    downsample_row_box_filter 0 1 [p0, p1, p2, p3] coverage pixel_coverage =
      [accum_pack (accum_add (accum_add (accum_add (accum_first p0 4194304) p1 4194304)
        p2 4194304) p3 4194304)] := by
  subst hpc
  simp [downsample_row_box_filter, row_skip, row_main, row_inner, row_leftover, h0, UNIT,
    FIXED_SHIFT]

theorem accum_pack_lt (acc : Accum) (ha : acc.a < 4294967296) (hr : acc.r < 4294967296)
    (hg : acc.g < 4294967296) (hb : acc.b < 4294967296) : accum_pack acc < 4294967296 := by
  unfold accum_pack FIXED_SHIFT
  simp only [Nat.shiftRight_eq_div_pow]
  rw [pack_eq _ _ _ _ (by omega) (by omega) (by omega) (by omega)]
  omega

theorem accum_pack_add_lt (acc : Accum) (p : Nat) (w : Int) :
    accum_pack (accum_add acc p w) < 4294967296 :=
  accum_pack_lt _ (u32_lt (acc.a + chan p 24 * w)) (u32_lt (acc.r + chan p 16 * w))
    (u32_lt (acc.g + chan p 8 * w)) (u32_lt (acc.b + chan p 0 * w))

theorem accum_4_1_chan (p0 p1 p2 p3 sh : Nat) (hsh : sh ∈ [24, 16, 8, 0]) :
    chan (accum_pack (accum_add (accum_add (accum_add (accum_first p0 4194304) p1 4194304)
        p2 4194304) p3 4194304)) sh =
      (chan p0 sh + chan p1 sh + chan p2 sh + chan p3 sh) / 4 := by
  have hp := chan_pack_add (accum_add (accum_add (accum_first p0 4194304) p1 4194304)
    p2 4194304) p3 4194304
  have key : ∀ s, u32 (u32 (u32 (u32 (chan p0 s * 4194304) + chan p1 s * 4194304) +
      chan p2 s * 4194304) + chan p3 s * 4194304) / 16777216 =
      (chan p0 s + chan p1 s + chan p2 s + chan p3 s) / 4 := by
    intro s
    have := chan_lt p0 s; have := chan_lt p1 s; have := chan_lt p2 s; have := chan_lt p3 s
    unfold u32
    omega
  simp only [List.mem_cons, List.mem_singleton, List.not_mem_nil, or_false] at hsh
  simp only [accum_add, accum_first] at hp ⊢
  rcases hsh with rfl | rfl | rfl | rfl
  · rw [hp.1, key]
  · rw [hp.2.1, key]
  · rw [hp.2.2.1, key]
  · rw [hp.2.2.2, key]

/-- Claim C7: for every 4 x 1 source image downscaled to 1 x 1 (window
(0, 0, 1, 1)) `downScaleImage` returns `true` and stores one pixel, each channel
of which is `floor((c0 + c1 + c2 + c3) / 4)` of the four source values of that
channel. -/
theorem downscale_4x1 (getRow : Nat → Nat → Nat) (dst_stride : Nat) (x0 y0 : Nat → Int)
    (t0 dest : Nat → Nat) (sh : Nat) (hsh : sh ∈ [24, 16, 8, 0]) :
    ∃ o q, downScaleImage (four_to_one_call getRow dst_stride)
        { scanline := true, x_coverage := some x0, y_coverage := some y0, temp_buf := some t0 }
        dest = some o ∧
      o.retval = true ∧ o.written = [[q]] ∧ o.dest 0 = q ∧
      chan q sh = (chan (getRow 0 0) sh + chan (getRow 0 1) sh + chan (getRow 0 2) sh +
        chan (getRow 0 3) sh) / 4 := by
  have hcy := compute_coverage_self y0 1 Nat.one_pos (by omega)
  have hx0 : (compute_coverage x0 4 1).1 0 = 4194304 := by
    show (if 0 < 1 then coverage_entry 4 1 0 else x0 0) = 4194304
    rw [if_pos Nat.one_pos, coverage_entry_4_1]
  have hpx : (compute_coverage x0 4 1).2 = 4194304 := coverage_ratio_4_1
  have hrow : ∀ y, filtered_row (four_to_one_call getRow dst_stride) (compute_coverage x0 4 1).1
      (compute_coverage x0 4 1).2 y =
      [accum_pack (accum_add (accum_add (accum_add (accum_first (getRow y 0) 4194304)
        (getRow y 1) 4194304) (getRow y 2) 4194304) (getRow y 3) 4194304)] := by
    intro y
    have hs : (List.range 4).map (getRow y) = [getRow y 0, getRow y 1, getRow y 2, getRow y 3] :=
      rfl
    show downsample_row_box_filter 0 1 ((List.range 4).map (getRow y)) _ _ = _
    rw [hs]
    exact row_filter_four _ _ hx0 hpx _ _ _ _
  rw [downScaleImage_ok _ _ _ _ _ Nat.one_ne_zero (Nat.succ_ne_zero 3) Nat.one_ne_zero]
  have e1 : (four_to_one_call getRow dst_stride).width +
      (four_to_one_call getRow dst_stride).start_column ≤
      (four_to_one_call getRow dst_stride).scaled_width := Nat.le_refl 1
  rw [if_pos e1]
  have e2 : skip_rows (compute_coverage y0 (four_to_one_call getRow dst_stride).orig_height
      (four_to_one_call getRow dst_stride).scaled_height).1
      (compute_coverage y0 (four_to_one_call getRow dst_stride).orig_height
      (four_to_one_call getRow dst_stride).scaled_height).2
      (four_to_one_call getRow dst_stride).start_row 0 0 = some 0 := rfl
  rw [e2]
  have hpy : (compute_coverage y0 (four_to_one_call getRow dst_stride).orig_height
      (four_to_one_call getRow dst_stride).scaled_height).2 = UNIT := hcy.1
  simp only [hpy]
  obtain ⟨r, hr, hwr, _⟩ := scale_rows_identity (four_to_one_call getRow dst_stride)
    (compute_coverage x0 4 1).1 (compute_coverage x0 4 1).2
    (compute_coverage y0 (four_to_one_call getRow dst_stride).orig_height
      (four_to_one_call getRow dst_stride).scaled_height).1
    (fun y => by
      rw [hrow y]
      refine ⟨rfl, fun p hp => ?_⟩
      rw [List.mem_singleton] at hp
      rw [hp]
      exact accum_pack_add_lt _ _ _)
    1 0
    { src_y := 0, temp_buf := t0, dest := dest, dest_off := 0, fetched := [], written := [] }
    (fun y _ h2 => hcy.2 y (by omega))
  obtain ⟨rows, _, _, hwr2, hd⟩ := scale_rows_frame _ _ _ _ _ _ _ _ _ hr
  have hr1 : scale_rows (four_to_one_call getRow dst_stride)
      (compute_coverage x0 (four_to_one_call getRow dst_stride).orig_width
        (four_to_one_call getRow dst_stride).scaled_width).1
      (compute_coverage x0 (four_to_one_call getRow dst_stride).orig_width
        (four_to_one_call getRow dst_stride).scaled_width).2
      (compute_coverage y0 (four_to_one_call getRow dst_stride).orig_height
        (four_to_one_call getRow dst_stride).scaled_height).1 UNIT
      (four_to_one_call getRow dst_stride).height (four_to_one_call getRow dst_stride).start_row
      { src_y := 0, temp_buf := t0, dest := dest, dest_off := 0, fetched := [],
        written := [] } = some r := hr
  rw [hr1]
  simp only [Option.map_some', List.nil_append, List.range'_one, List.map_cons, List.map_nil,
    hrow] at hwr hwr2 ⊢
  refine ⟨_, _, rfl, rfl, hwr, ?_, accum_4_1_chan _ _ _ _ sh hsh⟩
  show r.dest 0 = _
  rw [hd, ← hwr2, hwr]
  simp [write_rows, store]

theorem downscale_4x1_witness :
    ∃ o q, downScaleImage (four_to_one_call red_row 4) sample_scratch (fun _ => 0) = some o ∧
      o.retval = true ∧ o.written = [[q]] ∧ o.dest 0 = q ∧ chan q 16 = 0x60 := by
  obtain ⟨o, q, h1, h2, h3, h4, h5⟩ := downscale_4x1 red_row 4 (fun _ => 0) (fun _ => 0)
    (fun _ => 0) (fun _ => 0) 16 (by decide)
  refine ⟨o, q, h1, h2, h3, h4, ?_⟩
  rw [h5]
  decide

/-! ## Binary64: rounding to a nearest representable value -/


theorem dblBits_mono (a b : Nat) (h : a ≤ b) : dblBits a ≤ dblBits b := by
  rw [dblBits_le_iff]
  exact Nat.lt_of_le_of_lt h ((dblBits_le_iff b _).mp (Nat.le_refl _))

theorem dblGranule_dvd_of_le (a b : Nat) (h : a ≤ b) : dblGranule a ∣ dblGranule b := by
  unfold dblGranule
  exact Nat.pow_dvd_pow 2 (Nat.sub_le_sub_right (dblBits_mono a b h) 53)

theorem dblGranule_le_of_le (a b : Nat) (h : a ≤ b) : dblGranule a ≤ dblGranule b :=
  Nat.le_of_dvd (dblGranule_pos b) (dblGranule_dvd_of_le a b h)

theorem lt_dblGranule (q : Nat) : q < 2 ^ 53 * dblGranule q := by
  unfold dblGranule
  rw [← Nat.pow_add, ← dblBits_le_iff]
  omega

theorem dblGranule_one_or (q : Nat) : dblGranule q = 1 ∨ 2 ^ 52 * dblGranule q ≤ q := by
  unfold dblGranule
  by_cases h : dblBits q ≤ 53
  · left
    have : dblBits q - 53 = 0 := by omega
    rw [this]
    rfl
  · right
    rw [← Nat.pow_add, ← dblBits_lt_iff]
    omega

theorem dblRep_of (m e : Nat) (hm : m < 2 ^ 53) : dblRep (m * 2 ^ e) := dblGranule_dvd m e hm

theorem dblRep_of_le (m e : Nat) (hm : m ≤ 2 ^ 53) : dblRep (m * 2 ^ e) := by
  rcases Nat.lt_or_eq_of_le hm with h | h
  · exact dblRep_of m e h
  · subst h
    have := dblRep_of (2 ^ 52) (e + 1) (by norm_num)
    have e1 : 2 ^ 52 * 2 ^ (e + 1) = 2 ^ 53 * 2 ^ e := by
      rw [Nat.pow_succ]
      ring
    rwa [e1] at this

theorem dblRep_mul_granule (t q : Nat) (ht : t ≤ 2 ^ 53) : dblRep (t * dblGranule q) := by
  unfold dblGranule
  exact dblRep_of_le t _ ht

theorem dblDown_le (n d : Nat) : dblDown n d * d ≤ n := by
  unfold dblDown
  calc n / (d * dblGranule (n / d)) * dblGranule (n / d) * d
      = d * dblGranule (n / d) * (n / (d * dblGranule (n / d))) := by ring
    _ ≤ n := Nat.mul_div_le n _

theorem lt_dblDown (n d : Nat) (hd : 0 < d) : n < (dblDown n d + dblGranule (n / d)) * d := by
  unfold dblDown
  have hdg : 0 < d * dblGranule (n / d) := Nat.mul_pos hd (dblGranule_pos _)
  have h1 := Nat.div_add_mod n (d * dblGranule (n / d))
  have h2 := Nat.mod_lt n hdg
  calc n = d * dblGranule (n / d) * (n / (d * dblGranule (n / d))) +
        n % (d * dblGranule (n / d)) := h1.symm
    _ < d * dblGranule (n / d) * (n / (d * dblGranule (n / d))) + d * dblGranule (n / d) := by
      omega
    _ = (n / (d * dblGranule (n / d)) * dblGranule (n / d) + dblGranule (n / d)) * d := by ring

theorem dblRound_cases (n d : Nat) :
    (dblRound n d = dblDown n d ∧ 2 * (n - dblDown n d * d) ≤ d * dblGranule (n / d)) ∨
    (dblRound n d = dblDown n d + dblGranule (n / d) ∧
      d * dblGranule (n / d) ≤ 2 * (n - dblDown n d * d)) := by
  have hr : n - dblDown n d * d = n % (d * dblGranule (n / d)) := by
    have h1 := Nat.div_add_mod n (d * dblGranule (n / d))
    have : dblDown n d * d = d * dblGranule (n / d) * (n / (d * dblGranule (n / d))) := by
      unfold dblDown
      ring
    omega
  rw [hr]
  unfold dblRound dblDown
  simp only [Nat.add_mul, Nat.one_mul]
  split
  · left
    exact ⟨rfl, by omega⟩
  · split
    · right
      exact ⟨rfl, by omega⟩
    · split
      · left
        exact ⟨rfl, by omega⟩
      · right
        exact ⟨rfl, by omega⟩

theorem dblDown_le_round (n d : Nat) : dblDown n d ≤ dblRound n d := by
  rcases dblRound_cases n d with h | h <;> rw [h.1]
  omega

theorem dblRound_le_up (n d : Nat) : dblRound n d ≤ dblDown n d + dblGranule (n / d) := by
  rcases dblRound_cases n d with h | h <;> rw [h.1]
  omega

theorem dblGranule_eq_of_between (q v : Nat) (h1 : 2 ^ 52 * dblGranule q ≤ v) (h2 : v ≤ q) :
    dblGranule v = dblGranule q := by
  have hm := dblBits_mono v q h2
  unfold dblGranule at h1 ⊢
  by_cases h : dblBits q ≤ 53
  · have e1 : dblBits q - 53 = 0 := by omega
    have e2 : dblBits v - 53 = 0 := by omega
    rw [e1, e2]
  · rw [← Nat.pow_add, ← dblBits_lt_iff] at h1
    have : dblBits v = dblBits q := by omega
    rw [this]

theorem dblDown_quot (n d : Nat) :
    dblDown n d = n / d / dblGranule (n / d) * dblGranule (n / d) := by
  unfold dblDown
  rw [Nat.div_div_eq_div_mul]

/-- A representable value below the exact quotient is at most the lower neighbour. -/
theorem dblRep_le_down (n d v : Nat) (hd : 0 < d) (hv : dblRep v) (h : v * d ≤ n) :
    v ≤ dblDown n d := by
  have hq : v ≤ n / d := (Nat.le_div_iff_mul_le hd).mpr h
  have hg := dblGranule_pos (n / d)
  rw [dblDown_quot]
  rcases dblGranule_one_or (n / d) with h1 | h1
  · rw [h1, Nat.div_one, Nat.mul_one]
    exact hq
  · by_cases hlow : 2 ^ 52 * dblGranule (n / d) ≤ v
    · have e := dblGranule_eq_of_between (n / d) v hlow hq
      unfold dblRep at hv
      rw [e] at hv
      obtain ⟨k, hk⟩ := hv
      rw [hk, Nat.mul_comm]
      apply Nat.mul_le_mul_right
      rw [Nat.le_div_iff_mul_le hg, Nat.mul_comm, ← hk]
      exact hq
    · have : 2 ^ 52 ≤ n / d / dblGranule (n / d) := (Nat.le_div_iff_mul_le hg).mpr h1
      have h3 := Nat.mul_le_mul_right (dblGranule (n / d)) this
      omega

theorem dblRep_le_round (n d v : Nat) (hd : 0 < d) (hv : dblRep v) (h : v * d ≤ n) :
    v ≤ dblRound n d :=
  Nat.le_trans (dblRep_le_down n d v hd hv h) (dblDown_le_round n d)

/-- A representable value above the exact quotient is at least the upper
neighbour, unless the quotient is the lower neighbour itself. -/
theorem dblRep_ge_up (n d v : Nat) (hd : 0 < d) (hv : dblRep v) (h : n ≤ v * d) :
    dblDown n d + dblGranule (n / d) ≤ v ∨ (n = dblDown n d * d ∧ v = dblDown n d) := by
  have hq : n / d ≤ v := by
    calc n / d ≤ v * d / d := Nat.div_le_div_right h
      _ = v := Nat.mul_div_cancel v hd
  have hdv : dblGranule (n / d) ∣ v := Dvd.dvd.trans (dblGranule_dvd_of_le _ _ hq) hv
  obtain ⟨k, hk⟩ := hdv
  have hdown := dblDown_le n d
  have hup := lt_dblDown n d hd
  have hg := dblGranule_pos (n / d)
  have hD : dblDown n d = n / (d * dblGranule (n / d)) * dblGranule (n / d) := rfl
  generalize n / (d * dblGranule (n / d)) = t at hD
  generalize dblGranule (n / d) = g at *
  rw [hD] at hdown hup ⊢
  subst hk
  rcases Nat.lt_or_ge t k with hlt | hge
  · left
    have : (t + 1) * g ≤ k * g := Nat.mul_le_mul_right g hlt
    rw [Nat.add_mul, Nat.one_mul] at this
    rw [Nat.mul_comm g k]
    exact this
  · right
    have h1 : g * k * d ≤ t * g * d := by
      apply Nat.mul_le_mul_right
      rw [Nat.mul_comm g k]
      exact Nat.mul_le_mul_right g hge
    have h2 : n = t * g * d := by omega
    refine ⟨h2, ?_⟩
    have h3 : g * k * d = t * g * d := by omega
    exact Nat.eq_of_mul_eq_mul_right hd h3

theorem dblRep_round_le (n d v : Nat) (hd : 0 < d) (hv : dblRep v) (h : n ≤ v * d) :
    dblRound n d ≤ v := by
  rcases dblRep_ge_up n d v hd hv h with h1 | ⟨h1, h2⟩
  · exact Nat.le_trans (dblRound_le_up n d) h1
  · rcases dblRound_cases n d with h3 | h3
    · rw [h3.1, h2]
    · have hg := dblGranule_pos (n / d)
      have := h3.2
      rw [← h1, Nat.sub_self] at this
      have : 0 < d * dblGranule (n / d) := Nat.mul_pos hd hg
      omega

theorem dblRep_down (n d : Nat) (hd : 0 < d) : dblRep (dblDown n d) := by
  rw [dblDown_quot]
  apply dblRep_mul_granule
  have hq := lt_dblGranule (n / d)
  have hg := dblGranule_pos (n / d)
  apply Nat.le_of_lt
  exact Nat.div_lt_of_lt_mul (by rwa [Nat.mul_comm] at hq)

theorem dblRep_up (n d : Nat) (hd : 0 < d) : dblRep (dblDown n d + dblGranule (n / d)) := by
  rw [dblDown_quot]
  have e : n / d / dblGranule (n / d) * dblGranule (n / d) + dblGranule (n / d) =
      (n / d / dblGranule (n / d) + 1) * dblGranule (n / d) := by ring
  rw [e]
  apply dblRep_mul_granule
  have hq := lt_dblGranule (n / d)
  have hg := dblGranule_pos (n / d)
  exact Nat.div_lt_of_lt_mul (by rwa [Nat.mul_comm] at hq)

theorem dblRep_round (n d : Nat) (hd : 0 < d) : dblRep (dblRound n d) := by
  rcases dblRound_cases n d with h | h <;> rw [h.1]
  · exact dblRep_down n d hd
  · exact dblRep_up n d hd

/-- The result of `dblRound` is a nearest representable value: the exact
quotient is not above the midpoint to a larger representable value. -/
theorem dblRound_mid_above (n d v : Nat) (hd : 0 < d) (hv : dblRep v)
    (h : dblRound n d < v) : 2 * n ≤ (dblRound n d + v) * d := by
  have hdown := dblDown_le n d
  have hup := lt_dblDown n d hd
  rw [Nat.add_mul] at hup ⊢
  rcases dblRound_cases n d with ⟨e, hc⟩ | ⟨e, hc⟩
  · rw [e] at h ⊢
    rcases Nat.le_total n (v * d) with h1 | h1
    · rcases dblRep_ge_up n d v hd hv h1 with h2 | ⟨_, h2⟩
      · have h3 := Nat.mul_le_mul_right d h2
        rw [Nat.add_mul] at h3
        have e1 : dblGranule (n / d) * d = d * dblGranule (n / d) := Nat.mul_comm _ _
        omega
      · omega
    · have := dblRep_le_down n d v hd hv h1
      omega
  · rw [e] at h ⊢
    have h3 := Nat.mul_le_mul_right d (Nat.le_of_lt h)
    rw [Nat.add_mul] at h3 ⊢
    omega

/-- The exact quotient is not below the midpoint to a smaller representable value. -/
theorem dblRound_mid_below (n d v : Nat) (hd : 0 < d) (hv : dblRep v)
    (h : v < dblRound n d) : (dblRound n d + v) * d ≤ 2 * n := by
  have hdown := dblDown_le n d
  have hup := lt_dblDown n d hd
  have hg := Nat.mul_pos hd (dblGranule_pos (n / d))
  rw [Nat.add_mul] at hup ⊢
  rcases dblRound_cases n d with ⟨e, hc⟩ | ⟨e, hc⟩
  · rw [e] at h ⊢
    have h3 := Nat.mul_le_mul_right d (Nat.le_of_lt h)
    omega
  · rw [e] at h ⊢
    rw [Nat.add_mul]
    have e1 : dblGranule (n / d) * d = d * dblGranule (n / d) := Nat.mul_comm _ _
    rcases Nat.le_total (v * d) n with h1 | h1
    · have h2 := Nat.mul_le_mul_right d (dblRep_le_down n d v hd hv h1)
      omega
    · rcases dblRep_ge_up n d v hd hv h1 with h2 | ⟨h2, _⟩
      · omega
      · omega

/-! ## The boxes that compute_coverage lays out -/

theorem dblOne_eq_pow : ∃ k, k = 1074 ∧ dblOne = 2 ^ k := ⟨1074, rfl, rfl⟩

theorem dblEps_eq_pow : ∃ k, k = 1022 ∧ dblEps = 2 ^ k := ⟨1022, rfl, rfl⟩

theorem dblRep_nat (k : Nat) (hk : k < 2 ^ 53) : dblRep (k * dblOne) :=
  dblRep_of k 1074 hk

theorem dblRep_one : dblRep dblOne := by
  have := dblRep_nat 1 (by omega)
  rwa [Nat.one_mul] at this

theorem dblRep_unit : dblRep 1 := by
  have := dblRep_of 1 0 (by omega)
  simpa using this

theorem dblGranule_dvd_one (w : Nat) (hw : w < 2 ^ 53 * dblOne) : dblGranule w ∣ dblOne := by
  obtain ⟨k, hk, hone⟩ := dblOne_eq_pow
  unfold dblGranule
  rw [hone] at hw ⊢
  apply Nat.pow_dvd_pow
  have : dblBits w ≤ 53 + k := by
    rw [dblBits_le_iff, Nat.pow_add]
    exact hw
  omega

/-- Removing whole units from a representable value leaves a representable value. -/
theorem dblRep_sub_units (v w k : Nat) (hv : dblRep v) (h : w + k * dblOne = v)
    (hw : w < 2 ^ 53 * dblOne) : dblRep w := by
  unfold dblRep at hv ⊢
  have h1 : dblGranule w ∣ v :=
    Dvd.dvd.trans (dblGranule_dvd_of_le w v (by omega)) hv
  have h2 : dblGranule w ∣ k * dblOne := Dvd.dvd.mul_left (dblGranule_dvd_one w hw) k
  rw [← h] at h1
  exact (Nat.dvd_add_left h2).mp h1

theorem dblRep_mod_one (v : Nat) (hv : dblRep v) : dblRep (v % dblOne) := by
  apply dblRep_sub_units v (v % dblOne) (v / dblOne) hv
  · rw [Nat.mul_comm]
    exact Nat.mod_add_div v dblOne
  · have := Nat.mod_lt v dblOne_pos
    have : dblOne ≤ 2 ^ 53 * dblOne := Nat.le_mul_of_pos_left _ (by norm_num)
    omega

theorem dblRep_dvd_of_ge_one (v : Nat) (hv : dblRep v) (h : dblOne ≤ v) : dblEps ∣ v := by
  obtain ⟨k, hk, hone⟩ := dblOne_eq_pow
  obtain ⟨j, hj, heps⟩ := dblEps_eq_pow
  unfold dblRep dblGranule at hv
  rw [hone] at h
  rw [heps]
  have hb : k < dblBits v := by
    rw [dblBits_lt_iff]
    exact h
  exact Dvd.dvd.trans (Nat.pow_dvd_pow 2 (by omega)) hv

theorem dblEps_dvd_one : dblEps ∣ dblOne := by
  obtain ⟨k, hk, hone⟩ := dblOne_eq_pow
  obtain ⟨j, hj, heps⟩ := dblEps_eq_pow
  rw [hone, heps]
  exact Nat.pow_dvd_pow 2 (by omega)

theorem dblEps_mul : 2 ^ 52 * dblEps = dblOne := by
  obtain ⟨k, hk, hone⟩ := dblOne_eq_pow
  obtain ⟨j, hj, heps⟩ := dblEps_eq_pow
  have e : 52 + j = k := by omega
  rw [hone, heps, ← Nat.pow_add, e]

theorem dblRound_one_exact (v : Nat) (hv : dblRep v) : dblRound v 1 = v := by
  have := dblRound_of_dvd v 1 Nat.one_pos hv
  rwa [Nat.mul_one] at this

theorem dblRound_one_eq_zero (x : Nat) : dblRound x 1 = 0 ↔ x = 0 := by
  constructor
  · intro h
    by_contra hx
    have := dblRep_le_round x 1 1 Nat.one_pos dblRep_unit (by omega)
    omega
  · intro h
    rw [h]
    exact dblRound_zero 1 Nat.one_pos

theorem dblSub_floor (v : Nat) (hv : dblRep v) : dblSub v (dblFloor v) = v % dblOne := by
  unfold dblSub dblFloor
  have e : v - v / dblOne * dblOne = v % dblOne := by
    have := Nat.mod_add_div v dblOne
    rw [Nat.mul_comm] at this
    omega
  rw [e]
  exact dblRound_one_exact _ (dblRep_mod_one v hv)

theorem dblCeil_floor (v : Nat) :
    dblCeil v / dblOne = v / dblOne + (if v % dblOne = 0 then 0 else 1) := by
  unfold dblCeil
  have hp := dblOne_pos
  rw [Nat.mul_div_cancel _ hp]
  have h1 := Nat.mod_add_div v dblOne
  have h2 := Nat.mod_lt v hp
  split
  · rename_i h0
    have e : v + dblOne - 1 = (dblOne - 1) + dblOne * (v / dblOne) := by omega
    rw [e, Nat.add_mul_div_left _ _ hp, Nat.div_eq_of_lt (by omega)]
    omega
  · rename_i h0
    have e : v + dblOne - 1 = (v % dblOne - 1) + dblOne * (v / dblOne + 1) := by
      rw [Nat.mul_add, Nat.mul_one]
      omega
    rw [e, Nat.add_mul_div_left _ _ hp, Nat.div_eq_of_lt (by omega)]
    omega

theorem dblSub_ceil_eq_zero (v : Nat) : dblSub (dblCeil v) v = 0 ↔ v % dblOne = 0 := by
  unfold dblSub
  rw [dblRound_one_eq_zero]
  have hp := dblOne_pos
  have h1 := Nat.mod_add_div v dblOne
  have h2 := Nat.mod_lt v hp
  have hc := dblCeil_floor v
  have hm : dblCeil v = dblCeil v / dblOne * dblOne := by
    unfold dblCeil
    rw [Nat.mul_div_cancel _ hp]
  rw [hm, hc]
  constructor
  · intro h
    by_contra h0
    rw [if_neg h0, Nat.add_mul, Nat.one_mul] at h
    have : v / dblOne * dblOne = dblOne * (v / dblOne) := Nat.mul_comm _ _
    omega
  · intro h0
    rw [if_pos h0, Nat.add_zero]
    have : v / dblOne * dblOne = dblOne * (v / dblOne) := Nat.mul_comm _ _
    omega

theorem dblRep_edge (s d i : Nat) : dblRep (cov_edge s d i) :=
  dblRep_round _ _ dblOne_pos

/-- The entry `coverage[i]` in terms of the integer parts of the two edges of
box `i` and of its overage. -/
theorem coverage_entry_eq (s d i : Nat) :
    coverage_entry s d i = 16777216 -
      (((cov_edge s d (i + 1) / dblOne : Nat) - (cov_edge s d i / dblOne : Nat) - 1) *
        coverage_ratio s d + (cov_overage s d i : Nat)) := by
  have hp := dblOne_pos
  have hR := dblRep_edge s d (i + 1)
  have e1 : dblSub (cov_edge s d (i + 1)) (dblFloor (cov_edge s d (i + 1))) =
      cov_edge s d (i + 1) % dblOne := dblSub_floor _ hR
  have e2 : dblToInt (dblFloor (cov_edge s d (i + 1))) = (cov_edge s d (i + 1) / dblOne : Nat) := by
    unfold dblToInt dblFloor
    rw [Nat.mul_div_cancel _ hp]
    rfl
  have e3 : dblToInt (dblCeil (cov_edge s d i)) =
      ((cov_edge s d i / dblOne + (if cov_edge s d i % dblOne = 0 then 0 else 1) : Nat) : Int) := by
    unfold dblToInt
    rw [dblCeil_floor]
    rfl
  have e4 := dblSub_ceil_eq_zero (cov_edge s d i)
  show (1 <<< 24 : Int) -
    ((if dblSub (dblCeil (cov_edge s d i)) (cov_edge s d i) = 0 then
        dblToInt (dblFloor (cov_edge s d (i + 1))) - dblToInt (dblCeil (cov_edge s d i)) - 1
      else dblToInt (dblFloor (cov_edge s d (i + 1))) - dblToInt (dblCeil (cov_edge s d i))) *
        coverage_ratio s d +
      dblToInt (dblMul (dblOfNat (coverage_ratio s d).toNat)
        (dblSub (cov_edge s d (i + 1)) (dblFloor (cov_edge s d (i + 1)))))) = _
  rw [e1, e2, e3]
  have e5 : dblToInt (dblMul (dblOfNat (coverage_ratio s d).toNat)
      (cov_edge s d (i + 1) % dblOne)) = (cov_overage s d i : Nat) := rfl
  rw [e5]
  have e6 : (1 <<< 24 : Int) = 16777216 := rfl
  rw [e6]
  by_cases h0 : cov_edge s d i % dblOne = 0
  · rw [if_pos (e4.mpr h0), if_pos h0]
    push_cast
    ring
  · rw [if_neg (fun h => h0 (e4.mp h)), if_neg h0]
    push_cast
    ring

theorem dblHalf_eq_pow : ∃ k, k = 1073 ∧ dblHalf = 2 ^ k := ⟨1073, rfl, rfl⟩

theorem dblHalf_two : 2 * dblHalf = dblOne := by
  obtain ⟨k, hk, hone⟩ := dblOne_eq_pow
  obtain ⟨j, hj, hh⟩ := dblHalf_eq_pow
  have e : j + 1 = k := by omega
  rw [hone, hh, ← e, Nat.pow_succ, Nat.mul_comm]

theorem dblRep_half (m : Nat) (hm : m < 2 ^ 53) : dblRep (m * dblHalf) := by
  obtain ⟨j, hj, hh⟩ := dblHalf_eq_pow
  rw [hh]
  exact dblRep_of m j hm

theorem two_pow_le_dblOne : 2 ^ 53 ≤ dblOne := by
  obtain ⟨k, hk, hone⟩ := dblOne_eq_pow
  rw [hone]
  exact Nat.pow_le_pow_right (by norm_num) (by omega)

theorem dblRound_err_up (n d : Nat) :
    2 * (dblRound n d * d) ≤ 2 * n + d * dblGranule (n / d) := by
  have hdown := dblDown_le n d
  rcases dblRound_cases n d with ⟨e, hc⟩ | ⟨e, hc⟩
  · rw [e]
    omega
  · rw [e, Nat.add_mul]
    have e1 : dblGranule (n / d) * d = d * dblGranule (n / d) := Nat.mul_comm _ _
    omega

theorem dblRound_err_down (n d : Nat) (hd : 0 < d) :
    2 * n ≤ 2 * (dblRound n d * d) + d * dblGranule (n / d) := by
  have hdown := dblDown_le n d
  have hup := lt_dblDown n d hd
  rw [Nat.add_mul] at hup
  have e1 : dblGranule (n / d) * d = d * dblGranule (n / d) := Nat.mul_comm _ _
  rcases dblRound_cases n d with ⟨e, hc⟩ | ⟨e, hc⟩
  · rw [e]
    omega
  · rw [e, Nat.add_mul]
    omega

theorem cov_scale_eq (s d : Nat) (hs : s < 2 ^ 53) (hd : d < 2 ^ 53) :
    cov_scale s d = dblRound (s * dblOne * dblOne) (d * dblOne) := by
  unfold cov_scale dblDiv
  rw [dblOfNat_eq s hs, dblOfNat_eq d hd]

theorem cov_edge_eq (s d i : Nat) (hi : i < 2 ^ 53) :
    cov_edge s d i = dblRound (i * dblOne * cov_scale s d) dblOne := by
  unfold cov_edge dblMul
  rw [dblOfNat_eq i hi]

theorem cov_scale_ge (s d : Nat) (hd : 0 < d) (hds : d ≤ s) (hs : s < 2 ^ 53) :
    dblOne ≤ cov_scale s d := by
  rw [cov_scale_eq s d hs (by omega)]
  apply dblRep_le_round _ _ _ (Nat.mul_pos hd dblOne_pos) dblRep_one
  calc dblOne * (d * dblOne) = d * dblOne * dblOne := by ring
    _ ≤ s * dblOne * dblOne := Nat.mul_le_mul_right _ (Nat.mul_le_mul_right _ hds)

theorem dblRep_scale (s d : Nat) (hd : 0 < d) (hs : s < 2 ^ 53) (hd2 : d < 2 ^ 53) :
    dblRep (cov_scale s d) := by
  rw [cov_scale_eq s d hs hd2]
  exact dblRep_round _ _ (Nat.mul_pos hd dblOne_pos)

/-- The computed scale exceeds `s / d` by at most the relative error `2 ^ (-53)`. -/
theorem cov_scale_le (s d : Nat) (hd : 0 < d) (hds : d ≤ s) (hs : s < 2 ^ 53) :
    2 ^ 53 * (cov_scale s d * d) ≤ 2 ^ 53 * (s * dblOne) + s * dblOne := by
  have hp := dblOne_pos
  have hD : 0 < d * dblOne := Nat.mul_pos hd hp
  have herr := dblRound_err_up (s * dblOne * dblOne) (d * dblOne)
  rw [← cov_scale_eq s d hs (by omega)] at herr
  generalize hg : dblGranule (s * dblOne * dblOne / (d * dblOne)) = g at herr
  have hgb : 2 ^ 52 * g * d ≤ s * dblOne := by
    rcases dblGranule_one_or (s * dblOne * dblOne / (d * dblOne)) with h1 | h1
    · rw [hg] at h1
      rw [h1, Nat.mul_one]
      have := two_pow_le_dblOne
      calc 2 ^ 52 * d ≤ dblOne * s := Nat.mul_le_mul (by omega) hds
        _ = s * dblOne := Nat.mul_comm _ _
    · rw [hg] at h1
      have h2 := (Nat.le_div_iff_mul_le hD).mp h1
      have h3 : 2 ^ 52 * g * d * dblOne ≤ s * dblOne * dblOne := by
        calc 2 ^ 52 * g * d * dblOne = 2 ^ 52 * g * (d * dblOne) := by ring
          _ ≤ s * dblOne * dblOne := h2
      exact Nat.le_of_mul_le_mul_right h3 hp
  have h4 : 2 * (cov_scale s d * d) * dblOne ≤ (2 * (s * dblOne) + d * g) * dblOne := by
    calc 2 * (cov_scale s d * d) * dblOne = 2 * (cov_scale s d * (d * dblOne)) := by ring
      _ ≤ 2 * (s * dblOne * dblOne) + d * dblOne * g := herr
      _ = (2 * (s * dblOne) + d * g) * dblOne := by ring
  have h5 := Nat.le_of_mul_le_mul_right h4 hp
  have h6 : 2 ^ 52 * (2 * (cov_scale s d * d)) ≤ 2 ^ 52 * (2 * (s * dblOne) + d * g) :=
    Nat.mul_le_mul_left _ h5
  calc 2 ^ 53 * (cov_scale s d * d) = 2 ^ 52 * (2 * (cov_scale s d * d)) := by ring
    _ ≤ 2 ^ 52 * (2 * (s * dblOne) + d * g) := h6
    _ = 2 ^ 53 * (s * dblOne) + 2 ^ 52 * g * d := by ring
    _ ≤ 2 ^ 53 * (s * dblOne) + s * dblOne := by omega

theorem dblRound_one_le (a v : Nat) (hv : dblRep v) (h : a ≤ v * dblOne) :
    dblRound a dblOne ≤ v := dblRep_round_le a dblOne v dblOne_pos hv h

theorem dblRound_one_ge (a v : Nat) (hv : dblRep v) (h : v * dblOne ≤ a) :
    v ≤ dblRound a dblOne := dblRep_le_round a dblOne v dblOne_pos hv h

/-- The last right edge is below `s + 1`. -/
theorem cov_edge_last (s d : Nat) (hd : 0 < d) (hds : d ≤ s) (hs : s < 2 ^ 52) :
    cov_edge s d d ≤ (2 * s + 1) * dblHalf := by
  have hp := dblOne_pos
  have h2 := dblHalf_two
  have hsc := cov_scale_le s d hd hds (by omega)
  rw [cov_edge_eq s d d (by omega)]
  apply dblRound_one_le _ _ (dblRep_half _ (by omega))
  have h3 : s * dblOne ≤ 2 ^ 53 * dblHalf := by
    calc s * dblOne ≤ 2 ^ 52 * dblOne := Nat.mul_le_mul_right _ (by omega)
      _ = 2 ^ 53 * dblHalf := by rw [← h2]; ring
  have h4 : 2 ^ 53 * (cov_scale s d * d) ≤ 2 ^ 53 * ((2 * s + 1) * dblHalf) := by
    calc 2 ^ 53 * (cov_scale s d * d) ≤ 2 ^ 53 * (s * dblOne) + s * dblOne := hsc
      _ ≤ 2 ^ 53 * (s * dblOne) + 2 ^ 53 * dblHalf := by omega
      _ = 2 ^ 53 * ((2 * s + 1) * dblHalf) := by rw [← h2]; ring
  have h5 := Nat.le_of_mul_le_mul_left h4 (by norm_num)
  calc d * dblOne * cov_scale s d = cov_scale s d * d * dblOne := by ring
    _ ≤ (2 * s + 1) * dblHalf * dblOne := Nat.mul_le_mul_right _ h5

/-- Every left edge is below `s`. -/
theorem cov_edge_lt (s d i : Nat) (hi : i < d) (hds : d ≤ s) (hs : s < 2 ^ 52) :
    cov_edge s d i ≤ (2 * s - 1) * dblHalf := by
  have hp := dblOne_pos
  have h2 := dblHalf_two
  have hd : 0 < d := by omega
  have hsc := cov_scale_le s d hd hds (by omega)
  have hge := cov_scale_ge s d hd hds (by omega)
  rw [cov_edge_eq s d i (by omega)]
  apply dblRound_one_le _ _ (dblRep_half _ (by omega))
  have h3 : s * dblOne ≤ 2 ^ 53 * dblHalf := by
    calc s * dblOne ≤ 2 ^ 52 * dblOne := Nat.mul_le_mul_right _ (by omega)
      _ = 2 ^ 53 * dblHalf := by rw [← h2]; ring
  have h6 : cov_scale s d * i + dblOne ≤ cov_scale s d * d := by
    calc cov_scale s d * i + dblOne ≤ cov_scale s d * i + cov_scale s d := by omega
      _ = cov_scale s d * (i + 1) := by ring
      _ ≤ cov_scale s d * d := Nat.mul_le_mul_left _ hi
  have h7 : 2 * s - 1 + 1 = 2 * s := by omega
  have h4 : 2 ^ 53 * (cov_scale s d * i) ≤ 2 ^ 53 * ((2 * s - 1) * dblHalf) := by
    have e1 : 2 ^ 53 * ((2 * s - 1) * dblHalf) + 2 ^ 53 * dblHalf = 2 ^ 53 * (s * dblOne) := by
      calc 2 ^ 53 * ((2 * s - 1) * dblHalf) + 2 ^ 53 * dblHalf
          = 2 ^ 53 * ((2 * s - 1 + 1) * dblHalf) := by ring
        _ = 2 ^ 53 * (s * dblOne) := by rw [h7, ← h2]; ring
    have e2 : 2 ^ 53 * (cov_scale s d * i) + 2 ^ 53 * dblOne ≤ 2 ^ 53 * (cov_scale s d * d) := by
      rw [← Nat.mul_add]
      exact Nat.mul_le_mul_left _ h6
    have e3 : 2 ^ 53 * dblOne = 2 ^ 53 * dblHalf + 2 ^ 53 * dblHalf := by rw [← h2]; ring
    omega
  have h5 := Nat.le_of_mul_le_mul_left h4 (by norm_num)
  calc i * dblOne * cov_scale s d = cov_scale s d * i * dblOne := by ring
    _ ≤ (2 * s - 1) * dblHalf * dblOne := Nat.mul_le_mul_right _ h5

theorem cov_floor_lt (s d i : Nat) (hi : i < d) (hds : d ≤ s) (hs : s < 2 ^ 52) :
    cov_edge s d i / dblOne < s := by
  have h := cov_edge_lt s d i hi hds hs
  have h2 := dblHalf_two
  have hp := dblOne_pos
  rw [Nat.div_lt_iff_lt_mul hp]
  have h3 : (2 * s - 1) * dblHalf < s * dblOne := by
    rw [← h2]
    have : 0 < dblHalf := by omega
    calc (2 * s - 1) * dblHalf < (2 * s - 1) * dblHalf + dblHalf := by omega
      _ = (2 * s - 1 + 1) * dblHalf := by ring
      _ = s * (2 * dblHalf) := by
        have : 2 * s - 1 + 1 = 2 * s := by omega
        rw [this]
        ring
  omega

theorem cov_floor_last (s d : Nat) (hd : 0 < d) (hds : d ≤ s) (hs : s < 2 ^ 52) :
    cov_edge s d d / dblOne ≤ s := by
  have h := cov_edge_last s d hd hds hs
  have h2 := dblHalf_two
  have hp := dblOne_pos
  have h3 : (2 * s + 1) * dblHalf < (s + 1) * dblOne := by
    rw [← h2]
    have : 0 < dblHalf := by omega
    calc (2 * s + 1) * dblHalf < (2 * s + 1) * dblHalf + dblHalf := by omega
      _ = (s + 1) * (2 * dblHalf) := by ring
  have : cov_edge s d d / dblOne < s + 1 := by
    rw [Nat.div_lt_iff_lt_mul hp]
    omega
  omega

/-- The integer parts of consecutive edges grow by at least one: `count >= 0`. -/
theorem cov_floor_step (s d i : Nat) (hi : i < d) (hds : d ≤ s) (hs : s < 2 ^ 52) :
    cov_edge s d i / dblOne + 1 ≤ cov_edge s d (i + 1) / dblOne := by
  have hp := dblOne_pos
  have hd : 0 < d := by omega
  have hge := cov_scale_ge s d hd hds (by omega)
  have hFL := cov_floor_lt s d i hi hds hs
  have hL := cov_edge_eq s d i (by omega)
  have hR := cov_edge_eq s d (i + 1) (by omega)
  have hRepL := dblRep_edge s d i
  have hRepR := dblRep_edge s d (i + 1)
  generalize cov_scale s d = sf at *
  generalize hLdef : cov_edge s d i = L at *
  generalize hRdef : cov_edge s d (i + 1) = R at *
  rw [Nat.le_div_iff_mul_le hp]
  have hM : L / dblOne * dblOne ≤ L := Nat.div_mul_le_self L dblOne
  have hMrep : dblRep (L / dblOne * dblOne) := dblRep_nat _ (by omega)
  have hNrep : dblRep ((L / dblOne + 1) * dblOne) := dblRep_nat _ (by omega)
  have hnR : (i + 1) * dblOne * sf = i * dblOne * sf + dblOne * sf := by ring
  have hsf : dblOne * dblOne ≤ dblOne * sf := Nat.mul_le_mul_left _ hge
  by_cases hc : L / dblOne * dblOne * dblOne ≤ i * dblOne * sf
  · have hN : (L / dblOne + 1) * dblOne * dblOne ≤ (i + 1) * dblOne * sf := by
      rw [hnR]
      calc (L / dblOne + 1) * dblOne * dblOne
          = L / dblOne * dblOne * dblOne + dblOne * dblOne := by ring
        _ ≤ i * dblOne * sf + dblOne * sf := Nat.add_le_add hc hsf
    calc (L / dblOne + 1) * dblOne ≤ dblRound ((i + 1) * dblOne * sf) dblOne :=
          dblRound_one_ge ((i + 1) * dblOne * sf) ((L / dblOne + 1) * dblOne) hNrep hN
      _ = R := hR.symm
  · by_contra hcon
    have hRN : R < (L / dblOne + 1) * dblOne := by omega
    have hLM : L = L / dblOne * dblOne := by
      have : L ≤ L / dblOne * dblOne :=
        calc L = dblRound (i * dblOne * sf) dblOne := hL
          _ ≤ L / dblOne * dblOne :=
            dblRound_one_le (i * dblOne * sf) (L / dblOne * dblOne) hMrep (by omega)
      omega
    have hRone : dblOne ≤ R :=
      calc dblOne ≤ dblRound ((i + 1) * dblOne * sf) dblOne :=
            dblRound_one_ge ((i + 1) * dblOne * sf) dblOne dblRep_one (by rw [hnR]; omega)
        _ = R := hR.symm
    have hR1rep : dblRep (R - dblOne) := by
      apply dblRep_sub_units R (R - dblOne) 1 hRepR (by omega)
      have h53 : (L / dblOne + 1) * dblOne ≤ 2 ^ 53 * dblOne :=
        Nat.mul_le_mul_right _ (by omega)
      omega
    have hN1 : (L / dblOne + 1) * dblOne = L / dblOne * dblOne + dblOne := by ring
    have h1 := dblRound_mid_above ((i + 1) * dblOne * sf) dblOne ((L / dblOne + 1) * dblOne)
      hp hNrep (by rw [← hR]; exact hRN)
    rw [← hR] at h1
    have h2 := dblRound_mid_below (i * dblOne * sf) dblOne (R - dblOne) hp hR1rep (by
      rw [← hL]
      omega)
    rw [← hL] at h2
    have hsf1 : sf = dblOne := by
      have e1 : (R + (L / dblOne + 1) * dblOne) * dblOne =
          (L + (R - dblOne)) * dblOne + 2 * (dblOne * dblOne) := by
        have : R = (R - dblOne) + dblOne := by omega
        rw [this, hLM]
        simp only [Nat.add_sub_cancel, Nat.mul_div_cancel _ hp]
        ring
      have h3 : 2 * (dblOne * sf) ≤ 2 * (dblOne * dblOne) := by
        rw [hnR] at h1
        omega
      have h4 : dblOne * sf ≤ dblOne * dblOne := by omega
      have := Nat.le_of_mul_le_mul_left h4 hp
      omega
    apply hc
    rw [hsf1] at hL ⊢
    have hexact : dblRound (i * dblOne * dblOne) dblOne = i * dblOne :=
      dblRound_of_dvd (i * dblOne) dblOne hp (dblRep_nat i (by omega))
    rw [hL, hexact, Nat.mul_div_cancel _ hp]

theorem coverage_ratio_toNat (s d : Nat) :
    (coverage_ratio s d).toNat = 16777216 * d / s := by
  unfold coverage_ratio
  rw [Int.toNat_ofNat]
  rfl

theorem coverage_ratio_cast (s d : Nat) :
    coverage_ratio s d = ((16777216 * d / s : Nat) : Int) := rfl

theorem coverage_ratio_le (s d : Nat) (hds : d ≤ s) : 16777216 * d / s ≤ 16777216 := by
  rcases Nat.eq_zero_or_pos s with h | h
  · subst h
    simp
  · rw [Nat.div_le_iff_le_mul_add_pred h]
    have : 16777216 * d ≤ s * 16777216 := by
      rw [Nat.mul_comm s]
      exact Nat.mul_le_mul_left _ hds
    omega

/-- A product with a factor below one rounds to less than the other factor. -/
theorem dblMul_frac_lt (r rf : Nat) (hr : 0 < r) (hr2 : r < 2 ^ 53) (hrf : rf + dblEps ≤ dblOne) :
    dblMul (r * dblOne) rf / dblOne < r := by
  have hp := dblOne_pos
  obtain ⟨j, hj, heps⟩ := dblEps_eq_pow
  have hmul := dblEps_mul
  have hb1 : 2 ^ (dblBits r - 1) ≤ r := by
    rw [← dblBits_lt_iff]
    have : 0 < dblBits r := by
      rw [dblBits_lt_iff]
      simpa using hr
    omega
  have hb2 : r < 2 ^ (dblBits r - 1 + 1) := by
    rw [← dblBits_le_iff]
    omega
  have hb3 : dblBits r ≤ 53 := by
    rw [dblBits_le_iff]
    exact hr2
  generalize dblBits r - 1 = b at hb1 hb2
  have hb4 : b ≤ 52 := by
    have := (dblBits_le_iff r b).not.mpr (by omega)
    omega
  -- the representable value just used as bound
  have hm : r * 2 ^ (52 - b) ≤ 2 ^ 53 := by
    have e0 : b + 1 + (52 - b) = 53 := by omega
    have e : (2 : Nat) ^ 53 = 2 ^ (b + 1) * 2 ^ (52 - b) := by
      rw [← Nat.pow_add, e0]
    rw [e]
    exact Nat.mul_le_mul_right _ (Nat.le_of_lt hb2)
  have hmpos : 0 < r * 2 ^ (52 - b) := Nat.mul_pos hr (Nat.pow_pos (by norm_num))
  have hvrep : dblRep ((r * 2 ^ (52 - b) - 1) * 2 ^ (b + j)) := dblRep_of _ _ (by omega)
  have hv : (r * 2 ^ (52 - b) - 1) * 2 ^ (b + j) + 2 ^ b * dblEps = r * dblOne := by
    have e1 : (r * 2 ^ (52 - b) - 1) * 2 ^ (b + j) + 2 ^ (b + j) =
        r * 2 ^ (52 - b) * 2 ^ (b + j) := by
      have : r * 2 ^ (52 - b) = (r * 2 ^ (52 - b) - 1) + 1 := by omega
      conv_rhs => rw [this]
      ring
    have e3 : 52 - b + (b + j) = 52 + j := by omega
    have e2 : 2 ^ (52 - b) * 2 ^ (b + j) = 2 ^ 52 * 2 ^ j := by
      rw [← Nat.pow_add, ← Nat.pow_add, e3]
    rw [heps, ← Nat.pow_add, e1, Nat.mul_assoc, e2, ← heps, hmul]
  generalize (r * 2 ^ (52 - b) - 1) * 2 ^ (b + j) = v at hvrep hv
  have hle : r * dblOne * rf ≤ v * dblOne := by
    have h1 : r * rf + r * dblEps ≤ r * dblOne := by
      rw [← Nat.mul_add]
      exact Nat.mul_le_mul_left _ hrf
    have h2 : 2 ^ b * dblEps ≤ r * dblEps := Nat.mul_le_mul_right _ hb1
    have h3 : r * rf ≤ v := by omega
    calc r * dblOne * rf = r * rf * dblOne := by ring
      _ ≤ v * dblOne := Nat.mul_le_mul_right _ h3
  have hres : dblMul (r * dblOne) rf ≤ v := by
    unfold dblMul
    exact dblRound_one_le (r * dblOne * rf) v hvrep hle
  rw [Nat.div_lt_iff_lt_mul hp]
  have : 0 < 2 ^ b * dblEps := Nat.mul_pos (Nat.pow_pos (by norm_num)) (by
    rw [heps]
    exact Nat.pow_pos (by norm_num))
  omega

theorem cov_overage_lt (s d i : Nat) (hi : i < d) (hds : d ≤ s) (hs : s < 2 ^ 52)
    (hr : 0 < 16777216 * d / s) : cov_overage s d i < 16777216 * d / s := by
  have hp := dblOne_pos
  have hstep := cov_floor_step s d i hi hds hs
  have hRep := dblRep_edge s d (i + 1)
  have hrle := coverage_ratio_le s d hds
  unfold cov_overage
  rw [coverage_ratio_toNat, dblOfNat_eq _ (by omega)]
  apply dblMul_frac_lt _ _ hr (by omega)
  have hge : dblOne ≤ cov_edge s d (i + 1) := by
    have h1 : 1 ≤ cov_edge s d (i + 1) / dblOne :=
      Nat.le_trans (Nat.le_add_left 1 _) hstep
    have := (Nat.le_div_iff_mul_le hp).mp h1
    omega
  obtain ⟨a, ha⟩ := dblRep_dvd_of_ge_one _ hRep hge
  obtain ⟨c, hc⟩ := dblEps_dvd_one
  have hmod : dblEps ∣ cov_edge s d (i + 1) % dblOne := by
    rw [Nat.dvd_mod_iff ⟨c, hc⟩]
    exact ⟨a, ha⟩
  obtain ⟨e, he⟩ := hmod
  have hlt := Nat.mod_lt (cov_edge s d (i + 1)) hp
  rw [he] at hlt ⊢
  rw [hc] at hlt ⊢
  have hepos : 0 < dblEps := by
    obtain ⟨j, hj, heps⟩ := dblEps_eq_pow
    rw [heps]
    exact Nat.pow_pos (by norm_num)
  have h1 : e < c := Nat.lt_of_mul_lt_mul_left hlt
  calc dblEps * e + dblEps = dblEps * (e + 1) := by ring
    _ ≤ dblEps * c := Nat.mul_le_mul_left _ h1

/-! ## The weights applied by the filters -/

/-! ### The instrumented loops run as the filters do -/

theorem row_inner_weights_state (pc : Int) (src : List Nat) : ∀ (box : Int) (acc : Accum),
    (row_inner_weights pc box src).1 = (row_inner pc box acc src).1 ∧
      (row_inner_weights pc box src).2.2 = (row_inner pc box acc src).2.2 := by
  induction src with
  | nil => exact fun _ _ => ⟨rfl, rfl⟩
  | cons p src ih =>
    intro box acc
    simp only [row_inner_weights, row_inner]
    split
    · exact ih _ _
    · exact ⟨rfl, rfl⟩

theorem row_main_weights_length (cov : Nat → Int) (pc : Int) (todo : Nat) :
    ∀ (x : Nat) (src : List Nat),
      (row_main_weights cov pc todo x src).length = (row_main cov pc todo x src).length := by
  induction todo with
  | zero => exact fun _ _ => rfl
  | succ todo ih =>
    intro x src
    cases src with
    | nil => rfl
    | cons p src =>
      simp only [row_main_weights, row_main, List.length_cons]
      rw [(row_inner_weights_state pc src _ (accum_first p (cov x))).2, ih]

theorem row_filter_weights_length (start width : Nat) (src : List Nat) (cov : Nat → Int)
    (pc : Int) : (row_filter_weights start width src cov pc).length =
      (downsample_row_box_filter start width src cov pc).length :=
  row_main_weights_length cov pc _ _ _

/-! ### The inner loop on a regular box -/

theorem row_inner_weights_run (r ov : Int) (h0 : 0 ≤ ov) (hlt : ov < r) (cnt : Nat) :
    ∀ src : List Nat, cnt ≤ src.length →
      row_inner_weights r (cnt * r + ov) src = (ov, List.replicate cnt r, src.drop cnt) := by
  induction cnt with
  | zero =>
    intro src _
    cases src with
    | nil => simp [row_inner_weights]
    | cons p src =>
      simp only [row_inner_weights, Nat.cast_zero, zero_mul, zero_add, List.replicate_zero,
        List.drop_zero]
      rw [if_neg (by omega)]
  | succ cnt ih =>
    intro src hlen
    cases src with
    | nil => simp at hlen
    | cons p src =>
      simp only [List.length_cons, Nat.add_le_add_iff_right] at hlen
      have e : ((cnt + 1 : Nat) : Int) * r + ov - r = cnt * r + ov := by
        push_cast
        ring
      have hge : ((cnt + 1 : Nat) : Int) * r + ov ≥ r := by
        have : (0 : Int) ≤ cnt * r := mul_nonneg (by omega) (by omega)
        push_cast
        linarith
      simp only [row_inner_weights]
      rw [if_pos hge, e, ih src hlen]
      simp [List.replicate_succ]

theorem column_inner_weights_run (pc : Int) (hpc : 0 < pc) (fuel : Nat) :
    ∀ box : Int, 0 ≤ box → box.toNat ≤ fuel →
      ∃ r, column_inner_weights pc fuel box = some r ∧ r.2.sum + r.1 = box ∧ 0 ≤ r.1 := by
  induction fuel with
  | zero =>
    intro box h0 hf
    unfold column_inner_weights
    rw [if_neg (by omega)]
    exact ⟨_, rfl, by simp, h0⟩
  | succ fuel ih =>
    intro box h0 hf
    unfold column_inner_weights
    by_cases h : box ≥ pc
    · rw [if_pos h]
      obtain ⟨r, hr, hsum, hnn⟩ := ih (box - pc) (by omega) (by omega)
      rw [hr]
      refine ⟨_, rfl, ?_, hnn⟩
      simp only [Option.map_some', List.sum_cons]
      omega
    · rw [if_neg h]
      exact ⟨_, rfl, by simp, h0⟩

theorem column_weights_sum (sc pc : Int) (hpc : 0 < pc) (hsc : sc ≤ UNIT) :
    ∃ w, column_weights sc pc = some w ∧ w.sum = UNIT := by
  unfold column_weights
  obtain ⟨r, hr, hsum, hnn⟩ := column_inner_weights_run pc hpc _ (UNIT - sc) (by omega)
    (Nat.le_refl _)
  rw [hr]
  refine ⟨_, rfl, ?_⟩
  simp only [List.sum_cons, List.sum_append]
  split
  · simp only [List.sum_cons, List.sum_nil]
    omega
  · simp only [List.sum_nil]
    omega

/-! ### The weights of box `i` under the tables of compute_coverage -/

theorem cov_edge_zero (s d : Nat) : cov_edge s d 0 = 0 := by
  rw [cov_edge_eq s d 0 (by norm_num), Nat.zero_mul, Nat.zero_mul]
  exact dblRound_zero _ dblOne_pos

theorem cov_floor_le (s d i : Nat) (hd : 0 < d) (hi : i ≤ d) (hds : d ≤ s) (hs : s < 2 ^ 52) :
    cov_edge s d i / dblOne ≤ s := by
  rcases Nat.lt_or_eq_of_le hi with h | h
  · exact Nat.le_of_lt (cov_floor_lt s d i h hds hs)
  · rw [h]
    exact cov_floor_last s d hd hds hs

/-- The budget left after the first source pixel of box `i`. -/
theorem coverage_entry_box (s d i : Nat) (hi : i < d) (hds : d ≤ s) (hs : s < 2 ^ 52) :
    UNIT - coverage_entry s d i =
      ((cov_edge s d (i + 1) / dblOne - cov_edge s d i / dblOne - 1 : Nat) : Int) *
        coverage_ratio s d + (cov_overage s d i : Nat) := by
  have hstep := cov_floor_step s d i hi hds hs
  rw [coverage_entry_eq]
  have e : UNIT = 16777216 := rfl
  rw [e]
  generalize cov_edge s d (i + 1) / dblOne = b at hstep
  generalize cov_edge s d i / dblOne = a at hstep
  have e2 : ((b - a - 1 : Nat) : Int) = (b : Int) - a - 1 := by omega
  rw [e2]
  ring

theorem row_leftover_weights_drop (ov : Int) (src : List Nat) (cnt : Nat) :
    row_leftover_weights ov (src.drop cnt) =
      if cnt < src.length ∧ 0 < ov then [ov] else [] := by
  cases h : src.drop cnt with
  | nil =>
    have : src.length ≤ cnt := List.drop_eq_nil_iff.mp h
    rw [if_neg (by omega)]
    rfl
  | cons p rest =>
    have : cnt < src.length := by
      by_contra hc
      have := List.drop_eq_nil_iff.mpr (Nat.le_of_not_lt hc)
      rw [this] at h
      exact absurd h (by simp)
    unfold row_leftover_weights
    by_cases h0 : 0 < ov
    · rw [if_pos h0, if_pos ⟨this, h0⟩]
    · rw [if_neg h0, if_neg (fun hc => h0 hc.2)]

/-- The row filter walks the source as the tables prescribe: at the start of
index `x` the source cursor is at `floor (x * scale)`. -/
theorem row_main_weights_run (c0 : Nat → Int) (s d : Nat) (hds : d ≤ s) (hs : s < 2 ^ 52)
    (hr : 0 < 16777216 * d / s) (todo : Nat) :
    ∀ (x : Nat) (src : List Nat), x + todo ≤ d → src.length + cov_edge s d x / dblOne = s →
      row_main_weights (compute_coverage c0 s d).1 (compute_coverage c0 s d).2 todo x src =
        (List.range' x todo).map (box_weights s d) := by
  induction todo with
  | zero => exact fun _ _ _ _ => rfl
  | succ todo ih =>
    intro x src hx hlen
    have hxd : x < d := by omega
    have hlt := cov_floor_lt s d x hxd hds hs
    have hle := cov_floor_le s d (x + 1) (by omega) (by omega) hds hs
    have hstep := cov_floor_step s d x hxd hds hs
    have hov := cov_overage_lt s d x hxd hds hs hr
    have hbox := coverage_entry_box s d x hxd hds hs
    cases src with
    | nil =>
      simp only [List.length_nil, Nat.zero_add] at hlen
      omega
    | cons p src =>
      simp only [List.length_cons] at hlen
      have hcov : (compute_coverage c0 s d).1 x = coverage_entry s d x := by
        show (if x < d then coverage_entry s d x else c0 x) = _
        rw [if_pos hxd]
      have hpc : (compute_coverage c0 s d).2 = coverage_ratio s d := rfl
      have hcnt : cov_edge s d (x + 1) / dblOne - cov_edge s d x / dblOne - 1 ≤ src.length := by
        omega
      have hrun := row_inner_weights_run (coverage_ratio s d) (cov_overage s d x : Nat)
        (by omega) (by rw [coverage_ratio_cast]; exact_mod_cast hov) _ src hcnt
      simp only [row_main_weights, hcov, hpc, hbox, hrun, List.range'_succ, List.map_cons]
      rw [row_leftover_weights_drop]
      congr 1
      · unfold box_weights
        congr 2
        have e1 : (cov_edge s d (x + 1) / dblOne - cov_edge s d x / dblOne - 1 < src.length ∧
            (0 : Int) < (cov_overage s d x : Nat)) ↔
            (cov_edge s d (x + 1) / dblOne < s ∧ 0 < cov_overage s d x) := by
          constructor
          · intro h
            exact ⟨by omega, by exact_mod_cast h.2⟩
          · intro h
            exact ⟨by omega, by exact_mod_cast h.2⟩
        simp only [e1]
      · apply ih (x + 1) _ (by omega)
        rw [List.length_drop]
        omega

theorem box_weights_sum (s d i : Nat) (hi : i < d) (hds : d ≤ s) (hs : s < 2 ^ 52) :
    (box_weights s d i).sum =
      UNIT - (if cov_edge s d (i + 1) / dblOne < s then 0 else (cov_overage s d i : Int)) := by
  have hbox := coverage_entry_box s d i hi hds hs
  unfold box_weights
  simp only [List.sum_cons, List.sum_append, List.sum_replicate, nsmul_eq_mul]
  by_cases h1 : cov_edge s d (i + 1) / dblOne < s
  · rw [if_pos h1]
    by_cases h2 : 0 < cov_overage s d i
    · rw [if_pos ⟨h1, h2⟩]
      simp only [List.sum_cons, List.sum_nil]
      linarith
    · rw [if_neg (fun h => h2 h.2)]
      have : cov_overage s d i = 0 := by omega
      rw [this] at hbox
      simp only [List.sum_nil]
      push_cast at hbox
      linarith
  · rw [if_neg h1, if_neg (fun h => h1 h.1)]
    simp only [List.sum_nil]
    linarith

/-! ### The last box of a row of fewer than `2 ^ 28` pixels -/

theorem dblTiny_eq_pow : ∃ k, k = 1049 ∧ dblTiny = 2 ^ k := ⟨1049, rfl, rfl⟩

theorem dblTiny_one : 2 ^ 25 * dblTiny = dblOne := by
  obtain ⟨k, hk, hone⟩ := dblOne_eq_pow
  obtain ⟨j, hj, ht⟩ := dblTiny_eq_pow
  have e : 25 + j = k := by omega
  rw [hone, ht, ← e, Nat.pow_add]

theorem dblTiny_half : 2 ^ 24 * dblTiny = dblHalf := by
  obtain ⟨k, hk, hh⟩ := dblHalf_eq_pow
  obtain ⟨j, hj, ht⟩ := dblTiny_eq_pow
  have e : 24 + j = k := by omega
  rw [hh, ht, ← e, Nat.pow_add]

theorem dblRep_tiny (m : Nat) (hm : m < 2 ^ 53) : dblRep (m * dblTiny) := by
  obtain ⟨j, hj, ht⟩ := dblTiny_eq_pow
  rw [ht]
  exact dblRep_of m j hm

/-- With fewer than `2 ^ 28` source elements the last right edge exceeds `s` by
at most `2 ^ (-25)`. -/
theorem cov_edge_last_tiny (s d : Nat) (hd : 0 < d) (hds : d ≤ s) (hs : s < 2 ^ 28) :
    cov_edge s d d ≤ s * dblOne + dblTiny := by
  have hp := dblOne_pos
  have hle := cov_scale_le s d hd hds (by omega)
  have ht := dblTiny_one
  have hv : dblRep ((s * 2 ^ 25 + 1) * dblTiny) := dblRep_tiny _ (by omega)
  have ev : (s * 2 ^ 25 + 1) * dblTiny = s * dblOne + dblTiny := by
    rw [← ht]
    ring
  rw [ev] at hv
  rw [cov_edge_eq s d d (by omega)]
  have hso : s * dblOne + dblOne ≤ 2 ^ 28 * dblOne := by
    calc s * dblOne + dblOne = (s + 1) * dblOne := by ring
      _ ≤ 2 ^ 28 * dblOne := Nat.mul_le_mul_right _ (by omega)
  have h53 : 2 ^ 53 * dblTiny = 2 ^ 28 * dblOne := by
    rw [← ht]
    ring
  have hX : cov_scale s d * d ≤ s * dblOne + dblTiny := by
    generalize cov_scale s d * d = X at hle
    generalize s * dblOne = Y at hle hso
    omega
  apply dblRound_one_le _ _ hv
  calc d * dblOne * cov_scale s d = cov_scale s d * d * dblOne := by ring
    _ ≤ (s * dblOne + dblTiny) * dblOne := Nat.mul_le_mul_right _ hX

/-- With fewer than `2 ^ 28` source elements a last right edge at `s` or above
has no overage. -/
theorem cov_overage_last (s d i : Nat) (hi : i + 1 = d) (hds : d ≤ s) (hs : s < 2 ^ 28)
    (h : s ≤ cov_edge s d (i + 1) / dblOne) : cov_overage s d i = 0 := by
  have hp := dblOne_pos
  have hlast := cov_edge_last_tiny s d (by omega) hds hs
  have hrle := coverage_ratio_le s d hds
  rw [hi] at h
  unfold cov_overage
  rw [hi, coverage_ratio_toNat, dblOfNat_eq _ (by omega)]
  have hmod : cov_edge s d d % dblOne ≤ dblTiny := by
    have h1 := (Nat.le_div_iff_mul_le hp).mp h
    have h2 := Nat.div_add_mod (cov_edge s d d) dblOne
    have h3 : dblOne * s ≤ dblOne * (cov_edge s d d / dblOne) := Nat.mul_le_mul_left _ h
    have h4 : dblOne * s = s * dblOne := Nat.mul_comm _ _
    omega
  have hhalf : dblMul (16777216 * d / s * dblOne) (cov_edge s d d % dblOne) ≤ dblHalf := by
    unfold dblMul
    have hr1 : dblRep (1 * dblHalf) := dblRep_half 1 (by norm_num)
    rw [Nat.one_mul] at hr1
    apply dblRound_one_le _ _ hr1
    have h5 : 16777216 * d / s * (cov_edge s d d % dblOne) ≤ 2 ^ 24 * dblTiny :=
      Nat.mul_le_mul (by omega) hmod
    rw [dblTiny_half] at h5
    calc 16777216 * d / s * dblOne * (cov_edge s d d % dblOne)
        = 16777216 * d / s * (cov_edge s d d % dblOne) * dblOne := by ring
      _ ≤ dblHalf * dblOne := Nat.mul_le_mul_right _ h5
  apply Nat.div_eq_of_lt
  have := dblHalf_two
  omega

theorem cov_edge_huge : cov_edge 1549821054 1452203946 1452203946 / dblOne = 1549821054 := by
  decide!

theorem cov_overage_huge : cov_overage 1549821054 1452203946 1452203945 = 3 := by
  decide!

/-- The weights of a whole row: one box after the other. -/
theorem row_filter_weights_run (c0 : Nat → Int) (s d : Nat) (src : List Nat) (hds : d ≤ s)
    (hs : s < 2 ^ 52) (hr : 0 < 16777216 * d / s) (hsrc : src.length = s) :
    row_filter_weights 0 d src (compute_coverage c0 s d).1 (compute_coverage c0 s d).2 =
      (List.range d).map (box_weights s d) := by
  have h := row_main_weights_run c0 s d hds hs hr d 0 src (by omega)
    (by rw [cov_edge_zero, Nat.zero_div]; exact hsrc)
  rw [List.range_eq_range']
  have e : row_filter_weights 0 d src (compute_coverage c0 s d).1 (compute_coverage c0 s d).2 =
      row_main_weights (compute_coverage c0 s d).1 (compute_coverage c0 s d).2 (0 + d - 0) 0
        src := rfl
  rw [e, Nat.zero_add, Nat.sub_zero]
  exact h

theorem row_filter_weights_get (c0 : Nat → Int) (s d i : Nat) (src : List Nat) (hds : d ≤ s)
    (hs : s < 2 ^ 52) (hr : 0 < 16777216 * d / s) (hsrc : src.length = s) (hi : i < d) :
    (row_filter_weights 0 d src (compute_coverage c0 s d).1 (compute_coverage c0 s d).2)[i]? =
      some (box_weights s d i) := by
  rw [row_filter_weights_run c0 s d src hds hs hr hsrc, List.getElem?_map,
    List.getElem?_range hi]
  rfl

theorem coverage_ratio_pos_of_le (s d : Nat) (hd : 0 < d) (hds : d ≤ s)
    (hr : s ≤ 16777216 * d) : 0 < 16777216 * d / s :=
  Nat.div_pos hr (by omega)

theorem coverage_entry_le_unit (s d i : Nat) (hi : i < d) (hds : d ≤ s) (hs : s < 2 ^ 52) :
    coverage_entry s d i ≤ UNIT := by
  have h := coverage_entry_box s d i hi hds hs
  have h1 : (0 : Int) ≤ coverage_ratio s d := by
    rw [coverage_ratio_cast]
    exact Int.ofNat_nonneg _
  have h2 := mul_nonneg
    (Int.ofNat_nonneg (cov_edge s d (i + 1) / dblOne - cov_edge s d i / dblOne - 1)) h1
  have h3 : (0 : Int) ≤ (cov_overage s d i : Nat) := Int.ofNat_nonneg _
  linarith

/-- Claim C1, counterexample: on a row of 1549821054 pixels resampled to
1452203946 the weights that `downsample_row_box_filter` applies for the last
destination pixel sum to `(1 << 24) - 3`: the right edge of the last box is
computed as `1549821054 + 2 ^ (-22)`, which leaves an overage of 3 for a source
pixel beyond the end of the row, and `src < src_limit` keeps it from being
applied. -/
theorem row_weights_sum_short :
    ∃ w, (row_filter_weights 0 1452203946 (List.replicate 1549821054 0)
        (compute_coverage (fun _ => 0) 1549821054 1452203946).1
        (compute_coverage (fun _ => 0) 1549821054 1452203946).2)[1452203945]? = some w ∧
      w.sum = (1 <<< 24 : Int) - 3 := by
  refine ⟨_, row_filter_weights_get _ 1549821054 1452203946 1452203945 _ (by norm_num)
    (by norm_num) (by norm_num) (List.length_replicate _ _) (by norm_num), ?_⟩
  rw [box_weights_sum 1549821054 1452203946 1452203945 (by norm_num) (by norm_num)
    (by norm_num)]
  have e : 1452203945 + 1 = 1452203946 := rfl
  rw [e, cov_edge_huge, cov_overage_huge, if_neg (Nat.lt_irrefl _)]
  rfl

/-- Claim C1, amended: for `1 <= d <= s < 2 ^ 31` with `s <= (1 << 24) * d` and
every `i < d`, with the tables of `compute_coverage(s, d)`: the weights that
`downsample_columns_box_filter` applies with `start_coverage = coverage[i]` sum
to `1 << 24`; the weights that `downsample_row_box_filter` applies for index
`i` on a row of `s` pixels sum to `1 << 24`, less the overage of box `i` when
the computed right edge of the box is at or beyond the end of the row.  That
can only be at the last index, and not at all when `s < 2 ^ 28`: there the sum
is `1 << 24`. -/
theorem weights_sum (c0 : Nat → Int) (s d i : Nat) (src : List Nat) (hd : 1 ≤ d) (hds : d ≤ s)
    (hs : s < 2 ^ 31) (hr : s ≤ 16777216 * d) (hi : i < d) (hsrc : src.length = s) :
    (∃ w, column_weights ((compute_coverage c0 s d).1 i) (compute_coverage c0 s d).2 = some w ∧
        w.sum = (1 <<< 24 : Int)) ∧
      ∃ w, (row_filter_weights 0 d src (compute_coverage c0 s d).1
          (compute_coverage c0 s d).2)[i]? = some w ∧
        w.sum = (1 <<< 24 : Int) -
          (if cov_edge s d (i + 1) / dblOne < s then 0 else (cov_overage s d i : Int)) ∧
        (i + 1 < d ∨ s < 2 ^ 28 → w.sum = (1 <<< 24 : Int)) := by
  have hs52 : s < 2 ^ 52 := by omega
  have hrp := coverage_ratio_pos_of_le s d hd hds hr
  have hcov : (compute_coverage c0 s d).1 i = coverage_entry s d i := by
    show (if i < d then coverage_entry s d i else c0 i) = _
    rw [if_pos hi]
  have hpc : (compute_coverage c0 s d).2 = ((16777216 * d / s : Nat) : Int) := rfl
  have hU : UNIT = (1 <<< 24 : Int) := rfl
  have hsum := box_weights_sum s d i hi hds hs52
  rw [hU] at hsum
  refine ⟨?_, box_weights s d i, row_filter_weights_get c0 s d i src hds hs52 hrp hsrc hi,
    hsum, ?_⟩
  · rw [hcov, hpc, ← hU]
    exact column_weights_sum _ _ (by exact_mod_cast hrp) (coverage_entry_le_unit s d i hi hds hs52)
  · intro h
    rw [hsum]
    by_cases hlt : cov_edge s d (i + 1) / dblOne < s
    · rw [if_pos hlt, sub_zero]
    · rw [if_neg hlt]
      rcases h with h | h
      · exact absurd (cov_floor_lt s d (i + 1) h hds hs52) hlt
      · have hlast : i + 1 = d := by
          by_contra hne
          exact hlt (cov_floor_lt s d (i + 1) (by omega) hds hs52)
        rw [cov_overage_last s d i hlast hds h (Nat.le_of_not_lt hlt)]
        simp

theorem weights_sum_witness :
    (∃ w, column_weights ((compute_coverage (fun _ => 0) 3 1).1 0)
        (compute_coverage (fun _ => 0) 3 1).2 = some w ∧ w.sum = (1 <<< 24 : Int)) ∧
      ∃ w, (row_filter_weights 0 1 [1, 2, 3] (compute_coverage (fun _ => 0) 3 1).1
          (compute_coverage (fun _ => 0) 3 1).2)[0]? = some w ∧
        w.sum = (1 <<< 24 : Int) -
          (if cov_edge 3 1 (0 + 1) / dblOne < 3 then 0 else (cov_overage 3 1 0 : Int)) ∧
        (0 + 1 < 1 ∨ 3 < 2 ^ 28 → w.sum = (1 <<< 24 : Int)) :=
  weights_sum (fun _ => 0) 3 1 0 [1, 2, 3] (by decide) (by decide) (by decide) (by decide)
    (by decide) rfl

theorem wrap_signed_id (w : Nat) (z : Int) (hw : 0 < w) (h1 : -(2 ^ (w - 1)) ≤ z)
    (h2 : z < 2 ^ (w - 1)) : wrap_signed w z = z := by
  unfold wrap_signed
  have e : (2 : Int) ^ w = 2 * 2 ^ (w - 1) := by
    obtain ⟨k, rfl⟩ : ∃ k, w = k + 1 := ⟨w - 1, by omega⟩
    rw [pow_succ]
    simp only [Nat.add_sub_cancel]
    ring
  rw [e]
  generalize (2 : Int) ^ (w - 1) = P at *
  rw [Int.emod_eq_of_lt (by omega) (by omega)]
  omega

/-- Claim C11: in a call with `scaled_height >= 1` (so that the size of
`temp_buf`, which is computed before the pointers are tested, is defined), when
one of the four scratch allocations fails `downScaleImage` returns false,
leaves every destination pixel as it was and never calls `getRow`; it returns
true only when all four allocations succeeded. -/
theorem allocation_failure (c : Call) (m : Scratch) (dest : Nat → Nat)
    (hh : 1 ≤ c.scaled_height) :
    ((m.scanline = false ∨ m.x_coverage = none ∨ m.y_coverage = none ∨ m.temp_buf = none) →
      downScaleImage c m dest =
        some { retval := false, dest := dest, fetched := [], written := [] }) ∧
    ∀ o, downScaleImage c m dest = some o → o.retval = true →
      m.scanline = true ∧ m.x_coverage ≠ none ∧ m.y_coverage ≠ none ∧ m.temp_buf ≠ none := by
  constructor
  · intro h
    apply downScaleImage_fail _ _ _ (by omega)
    rintro ⟨x0, y0, t0, rfl⟩
    simp at h
  · intro o ho hret
    rcases downScaleImage_cases c m dest o ho with h | ⟨x0, y0, t0, _, _, hx, hy, hs, ht, _⟩
    · rw [h] at hret
      exact absurd hret (by simp)
    · rw [hx, hy, hs, ht]
      simp

theorem allocation_failure_witness :
    1 ≤ sample_call.scaled_height ∧
      downScaleImage sample_call { sample_scratch with temp_buf := none } (fun _ => 7) =
        some { retval := false, dest := fun _ => 7, fetched := [], written := [] } :=
  ⟨by decide, (allocation_failure sample_call { sample_scratch with temp_buf := none }
    (fun _ => 7) (by decide)).1 (Or.inr (Or.inr (Or.inr rfl)))⟩

/-- Claim C12: for 32-bit signed lengths with `1 <= dest_length <= src_length`
the value that `compute_coverage` returns, computed with a 64-bit product, is
`floor((1 << 24) * dest_length / src_length)`: neither the product nor the
conversion of the quotient to `int` wraps, and the value lies in `[0, 1 << 24]`. -/
theorem compute_coverage_ratio (coverage : Nat → Int) (s d : Nat) (hd : 1 ≤ d) (hds : d ≤ s)
    (hs : s < 2 ^ 31) :
    ratio_int s d = ((16777216 * d / s : Nat) : Int) ∧
      (compute_coverage coverage s d).2 = ratio_int s d ∧
      0 ≤ (compute_coverage coverage s d).2 ∧
      (compute_coverage coverage s d).2 ≤ (1 <<< 24 : Int) := by
  have hle := coverage_ratio_le s d hds
  have hprod : 16777216 * d < 2 ^ 55 := by omega
  have h1 : ratio_int s d = ((16777216 * d / s : Nat) : Int) := by
    unfold ratio_int
    have e1 : (((1 <<< 24 : Nat) : Int) * (d : Int)) = ((16777216 * d : Nat) : Int) := by
      push_cast
      rfl
    have b1 : (0 : Int) ≤ ((16777216 * d : Nat) : Int) := Int.ofNat_nonneg _
    have b2 : ((16777216 * d : Nat) : Int) < 2 ^ 55 := by exact_mod_cast hprod
    have b3 : (0 : Int) ≤ ((16777216 * d / s : Nat) : Int) := Int.ofNat_nonneg _
    have b4 : ((16777216 * d / s : Nat) : Int) ≤ 16777216 := by exact_mod_cast hle
    rw [e1, wrap_signed_id 64 _ (by norm_num) (by norm_num; omega) (by norm_num; omega)]
    have e2 : Int.tdiv ((16777216 * d : Nat) : Int) (s : Int) =
        ((16777216 * d / s : Nat) : Int) := by
      exact (Int.ofNat_tdiv (16777216 * d) s).symm
    rw [e2]
    generalize ((16777216 * d / s : Nat) : Int) = q at b3 b4
    exact wrap_signed_id 32 q (by norm_num) (by norm_num; omega) (by norm_num; omega)
  have h2 : (compute_coverage coverage s d).2 = ((16777216 * d / s : Nat) : Int) := rfl
  refine ⟨h1, by rw [h1, h2], by rw [h2]; exact Int.ofNat_nonneg _, ?_⟩
  rw [h2]
  have : ((1 <<< 24 : Int)) = ((16777216 : Nat) : Int) := rfl
  rw [this]
  exact_mod_cast hle

theorem compute_coverage_ratio_witness :
    ratio_int (3 : Nat) (1 : Nat) = ((16777216 * 1 / 3 : Nat) : Int) ∧
      (compute_coverage (fun _ => 0) 3 1).2 = ratio_int (3 : Nat) (1 : Nat) ∧
      0 ≤ (compute_coverage (fun _ => 0) 3 1).2 ∧
      (compute_coverage (fun _ => 0) 3 1).2 ≤ (1 <<< 24 : Int) :=
  compute_coverage_ratio (fun _ => 0) 3 1 (by decide) (by decide) (by decide)

/-- Claim C13 fails on the code: a call that satisfies the stated preconditions
and does not return.  With `orig_height = 16777217` and `scaled_height = 1`
`pixel_coverage_y` is `floor(16777216 / 16777217) = 0` and `box` is 0 after the
first row, so `while (box >= pixel_coverage_y)`, which has no other exit, never
ends. -/
theorem downScaleImage_diverges :
    tall_call.start_column + tall_call.width ≤ tall_call.scaled_width ∧
      tall_call.start_row + tall_call.height ≤ tall_call.scaled_height ∧
      1 ≤ tall_call.scaled_width ∧ tall_call.scaled_width ≤ tall_call.orig_width ∧
      1 ≤ tall_call.scaled_height ∧ tall_call.scaled_height ≤ tall_call.orig_height ∧
      (compute_coverage (fun _ => 0) tall_call.orig_height tall_call.scaled_height).2 = 0 ∧
      downScaleImage tall_call sample_scratch (fun _ => 0) = none := by
  have h : (downScaleImage tall_call sample_scratch (fun _ => 0)).isSome = false := by decide!
  refine ⟨by decide, by decide, by decide, by decide, by decide, by decide, by decide, ?_⟩
  cases hh : downScaleImage tall_call sample_scratch (fun _ => 0) with
  | none => rfl
  | some o =>
    rw [hh] at h
    exact absurd h (by simp)

/-! ## The number of iterations of the inner loops -/

/-- A budget of `cnt` whole weights and a rest below one weight lets the loop
`while (box >= pixel_coverage)` run `cnt` times. -/
theorem skip_inner_run (r ov : Int) (h0 : 0 ≤ ov) (hlt : ov < r) (cnt : Nat) :
    ∀ (fuel y : Nat), cnt ≤ fuel → skip_inner r fuel (cnt * r + ov) y = some (y + cnt) := by
  induction cnt with
  | zero =>
    intro fuel y _
    cases fuel with
    | zero =>
      unfold skip_inner
      rw [if_neg (by push_cast; omega)]
      rfl
    | succ fuel =>
      unfold skip_inner
      rw [if_neg (by push_cast; omega)]
      rfl
  | succ cnt ih =>
    intro fuel y hf
    obtain ⟨fuel, rfl⟩ : ∃ f, fuel = f + 1 := ⟨fuel - 1, by omega⟩
    have hnn : (0 : Int) ≤ cnt * r := mul_nonneg (Int.ofNat_nonneg _) (by omega)
    have e : ((cnt + 1 : Nat) : Int) * r + ov - r = cnt * r + ov := by
      push_cast
      ring
    unfold skip_inner
    rw [if_pos (by push_cast; linarith), e, ih fuel (y + 1) (by omega)]
    congr 1
    omega

theorem toNat_budget (r ov : Int) (h0 : 0 ≤ ov) (hr : 0 < r) (cnt : Nat) :
    cnt ≤ (cnt * r + ov).toNat := by
  have h1 : (cnt : Int) ≤ cnt * r := by
    have := mul_le_mul_of_nonneg_left (show (1 : Int) ≤ r by omega) (Int.ofNat_nonneg cnt)
    simpa using this
  omega

/-! ## The column filter as a row filter -/

theorem column_list_length (src : Nat → Nat) (stride m : Nat) :
    ∀ cs, (column_list src stride m cs).length = m := by
  induction m with
  | zero => exact fun _ => rfl
  | succ m ih =>
    intro cs
    simp only [column_list, List.length_cons, ih]

theorem column_list_eq (src : Nat → Nat) (stride m : Nat) :
    ∀ cs, column_list src stride m cs = (List.range m).map (fun k => src (cs + k * stride)) := by
  induction m with
  | zero => exact fun _ => rfl
  | succ m ih =>
    intro cs
    rw [List.range_succ_eq_map, List.map_cons, List.map_map, column_list, ih]
    simp only [Nat.zero_mul, Nat.add_zero]
    congr 1
    apply List.map_congr_left
    intro k _
    simp only [Function.comp, Nat.succ_mul]
    congr 1
    omega

theorem row_inner_column (pc ov : Int) (h0 : 0 ≤ ov) (hlt : ov < pc) (src : Nat → Nat)
    (stride cnt : Nat) : ∀ (acc : Accum) (cs m : Nat), cnt ≤ m →
      row_inner pc (cnt * pc + ov) acc (column_list src stride m cs) =
        (ov, (column_iter pc src stride cnt (cnt * pc + ov, acc, cs)).2.1,
          column_list src stride (m - cnt) (cs + cnt * stride)) := by
  induction cnt with
  | zero =>
    intro acc cs m _
    simp only [Nat.cast_zero, zero_mul, zero_add, column_iter, Nat.sub_zero, Nat.zero_mul,
      Nat.add_zero]
    cases m with
    | zero => rfl
    | succ m =>
      simp only [column_list, row_inner]
      rw [if_neg (by omega)]
  | succ cnt ih =>
    intro acc cs m hm
    obtain ⟨m, rfl⟩ : ∃ k, m = k + 1 := ⟨m - 1, by omega⟩
    have hnn : (0 : Int) ≤ cnt * pc := mul_nonneg (Int.ofNat_nonneg _) (by omega)
    have e : ((cnt + 1 : Nat) : Int) * pc + ov - pc = cnt * pc + ov := by
      push_cast
      ring
    simp only [column_list, row_inner, column_iter]
    rw [if_pos (by push_cast; linarith), e, ih _ _ m (by omega)]
    congr 3
    · omega
    · rw [Nat.succ_mul]
      omega

theorem columns_loop_get (sc pc : Int) (src : Nat → Nat) (stride todo : Nat) :
    ∀ (j : Nat) (row : List Nat), columns_loop sc pc src stride todo j = some row →
      ∀ i, i < todo → ∃ q, row[i]? = some q ∧ column_pixel sc pc src stride (j + i) = some q := by
  induction todo with
  | zero => exact fun _ _ _ i hi => absurd hi (Nat.not_lt_zero i)
  | succ todo ih =>
    intro j row h i hi
    unfold columns_loop at h
    cases hq : column_pixel sc pc src stride j with
    | none =>
      rw [hq] at h
      exact absurd h (by simp)
    | some q =>
      rw [hq] at h
      simp only [Option.map_eq_some'] at h
      obtain ⟨ps, hps, rfl⟩ := h
      cases i with
      | zero => exact ⟨q, by simp, hq⟩
      | succ i =>
        obtain ⟨q1, h1, h2⟩ := ih (j + 1) ps hps i (by omega)
        refine ⟨q1, by simpa using h1, ?_⟩
        have e : j + (i + 1) = j + 1 + i := by omega
        rw [e]
        exact h2

/-- The pixel of one column, by the number of whole weights in the budget. -/
theorem column_pixel_run (sc pc ov : Int) (cnt : Nat) (h0 : 0 ≤ ov) (hlt : ov < pc)
    (hb : UNIT - sc = cnt * pc + ov) (src : Nat → Nat) (stride j : Nat) :
    column_pixel sc pc src stride j =
      some (accum_pack (column_leftover src
        (column_iter pc src stride cnt (UNIT - sc, accum_first (src j) sc, j + stride)))) := by
  unfold column_pixel
  simp only [column_inner_eq]
  have hk : skip_inner pc (UNIT - sc).toNat (UNIT - sc) 0 = some cnt := by
    rw [hb, skip_inner_run pc ov h0 hlt cnt _ 0 (toNat_budget pc ov h0 (by omega) cnt)]
    simp
  rw [hk]
  rfl

/-- Claim C16: for `0 <= start_coverage <= 1 << 24`, `pixel_coverage >= 1` and
`j < n` the `j`-th pixel that `downsample_columns_box_filter` writes is the one
pixel that `downsample_row_box_filter(0, 1, ...)` writes with
`coverage[0] = start_coverage` and the same `pixel_coverage` on the pixels
`temp[j]`, `temp[j + n]`, `temp[j + 2 n]`, ... of column `j`, when at least
`(1 << 24 - start_coverage) / pixel_coverage + 2` of them are given. -/
theorem column_filter_is_row_filter (n : Nat) (sc pc : Int) (temp : Nat → Nat)
    (coverage : Nat → Int) (j L : Nat) (hsc0 : 0 ≤ sc) (hsc : sc ≤ (1 <<< 24 : Int))
    (hpc : 1 ≤ pc) (hj : j < n) (hcov : coverage 0 = sc)
    (hL : ((1 <<< 24 : Int) - sc) / pc + 2 ≤ L) :
    ∃ row q, downsample_columns_box_filter n sc pc temp = some row ∧ row[j]? = some q ∧
      downsample_row_box_filter 0 1 ((List.range L).map (fun k => temp (j + k * n)))
        coverage pc = [q] := by
  have hU : UNIT = (1 <<< 24 : Int) := rfl
  rw [← hU] at hsc hL
  have hbox : 0 ≤ UNIT - sc := by omega
  have hq0 : 0 ≤ (UNIT - sc) / pc := Int.ediv_nonneg hbox (by omega)
  obtain ⟨cnt, hcnt⟩ : ∃ cnt : Nat, (UNIT - sc) / pc = cnt := ⟨_, (Int.toNat_of_nonneg hq0).symm⟩
  have hov0 : 0 ≤ (UNIT - sc) % pc := Int.emod_nonneg _ (by omega)
  have hovlt : (UNIT - sc) % pc < pc := Int.emod_lt_of_pos _ (by omega)
  have hb : UNIT - sc = cnt * pc + (UNIT - sc) % pc := by
    have := Int.ediv_add_emod (UNIT - sc) pc
    rw [hcnt] at this
    linarith
  obtain ⟨row, hrow, hlen⟩ := columns_loop_some sc pc (by omega) temp n n 0
  obtain ⟨q, hq, hpix⟩ := columns_loop_get sc pc temp n n 0 row hrow j hj
  refine ⟨row, q, hrow, hq, ?_⟩
  rw [Nat.zero_add, column_pixel_run sc pc _ cnt hov0 hovlt hb temp n j] at hpix
  have hLc : cnt + 2 ≤ L := by
    rw [hcnt] at hL
    exact_mod_cast hL
  obtain ⟨m, rfl⟩ : ∃ m, L = m + 1 := ⟨L - 1, by omega⟩
  rw [← column_list_eq temp n (m + 1) j]
  have hrun := row_inner_column pc _ hov0 hovlt temp n cnt (accum_first (temp j) sc) (j + n) m
    (by omega)
  rw [← hb] at hrun
  have e : downsample_row_box_filter 0 1 (column_list temp n (m + 1) j) coverage pc =
      [accum_pack (row_leftover
        (row_inner pc (UNIT - coverage 0) (accum_first (temp j) (coverage 0))
          (column_list temp n m (j + n))).1
        (row_inner pc (UNIT - coverage 0) (accum_first (temp j) (coverage 0))
          (column_list temp n m (j + n))).2.1
        (row_inner pc (UNIT - coverage 0) (accum_first (temp j) (coverage 0))
          (column_list temp n m (j + n))).2.2)] := rfl
  rw [e, hcov, hrun]
  obtain ⟨m1, hm1⟩ : ∃ m1, m - cnt = m1 + 1 := ⟨m - cnt - 1, by omega⟩
  obtain ⟨f1, f2⟩ := column_iter_fields pc temp n cnt (UNIT - sc, accum_first (temp j) sc, j + n)
  simp only [Option.some.injEq] at hpix
  rw [← hpix, hm1]
  simp only [column_list, row_leftover, column_leftover]
  rw [f1, f2]
  have e3 : UNIT - sc - cnt * pc = (UNIT - sc) % pc := by linarith
  rw [e3]

theorem column_filter_is_row_filter_witness :
    ∃ row q, downsample_columns_box_filter 1 5592406 5592405 (fun k => k) = some row ∧
      row[0]? = some q ∧
      downsample_row_box_filter 0 1 ((List.range 4).map (fun k => (fun k => k) (0 + k * 1)))
        (fun _ => 5592406) 5592405 = [q] :=
  column_filter_is_row_filter 1 5592406 5592405 (fun k => k) (fun _ => 5592406) 0 4 (by decide)
    (by decide) (by decide) (by decide) rfl (by decide)

/-! ## The rows that the column filter reads -/

theorem column_inner_weights_eq (pc : Int) (fuel : Nat) : ∀ box : Int,
    column_inner_weights pc fuel box =
      (skip_inner pc fuel box 0).map (fun k : Nat => (box - k * pc, List.replicate k pc)) := by
  induction fuel with
  | zero =>
    intro box
    unfold column_inner_weights skip_inner
    split <;> simp
  | succ fuel ih =>
    intro box
    unfold column_inner_weights skip_inner
    split
    · rw [ih, skip_inner_shift pc fuel _ (0 + 1), Option.map_map, Option.map_map]
      congr 1
      funext k
      simp only [Function.comp, Nat.zero_add]
      have e : 1 + k = k + 1 := Nat.add_comm _ _
      rw [e, List.replicate_succ]
      congr 1
      push_cast
      ring
    · simp

theorem column_weights_eq (sc pc : Int) :
    column_weights sc pc =
      (skip_inner pc (UNIT - sc).toNat (UNIT - sc) 0).map
        (fun k : Nat => sc :: List.replicate k pc ++
          (if UNIT - sc - k * pc > 0 then [UNIT - sc - k * pc] else [])) := by
  unfold column_weights
  rw [column_inner_weights_eq, Option.map_map]
  rfl

theorem column_pixel_of_count (sc pc : Int) (t : Nat → Nat) (w j k : Nat)
    (hk : skip_inner pc (UNIT - sc).toNat (UNIT - sc) 0 = some k) :
    ∃ q, column_pixel sc pc t w j = some q := by
  unfold column_pixel
  simp only [column_inner_eq, hk, Option.map_some']
  exact ⟨_, rfl⟩

theorem columns_loop_of_count (sc pc : Int) (t : Nat → Nat) (w k : Nat)
    (hk : skip_inner pc (UNIT - sc).toNat (UNIT - sc) 0 = some k) (todo : Nat) :
    ∀ j, ∃ row, columns_loop sc pc t w todo j = some row ∧ row.length = todo := by
  induction todo with
  | zero => exact fun _ => ⟨[], rfl, rfl⟩
  | succ todo ih =>
    intro j
    unfold columns_loop
    obtain ⟨q, hq⟩ := column_pixel_of_count sc pc t w j k hk
    obtain ⟨row, hrow, hlen⟩ := ih (j + 1)
    simp only [hq, hrow]
    exact ⟨q :: row, rfl, by simp [hlen]⟩

/-- Claim C15: when the rows of destination row `dest_y` have been gathered,
with `columns` intermediate rows stored, the column filter called with
`start_coverage = y_coverage[dest_y]` and the same `pixel_coverage_y` returns,
the number of rows it consumes for a pixel (one first row, the rows of its loop
`while (box >= pixel_coverage)`, one final row when `box > 0`) is `columns`,
and its result depends on the intermediate rows `0 .. columns - 1` only. -/
theorem column_filter_rows (c : Call) (xc : Nat → Int) (pcx : Int) (yc : Nat → Int) (pcy : Int)
    (dest_y src_y : Nat) (t : Nat → Nat) (f : List Nat) (st : RowState)
    (h : gather_rows c xc pcx yc pcy dest_y src_y t f = some st) :
    (∃ w, column_weights (yc dest_y) pcy = some w ∧ w.length = st.columns) ∧
      (∃ row, downsample_columns_box_filter c.width (yc dest_y) pcy st.temp_buf = some row ∧
        row.length = c.width) ∧
      ∀ t1 : Nat → Nat,
        (∀ m j, m < st.columns → j < c.width →
          t1 (j + m * c.width) = st.temp_buf (j + m * c.width)) →
        downsample_columns_box_filter c.width (yc dest_y) pcy t1 =
          downsample_columns_box_filter c.width (yc dest_y) pcy st.temp_buf := by
  rw [gather_rows_eq, Option.map_eq_some'] at h
  obtain ⟨k, hk, hst⟩ := h
  obtain ⟨_, hcol⟩ := gather_state c xc pcx pcy (yc dest_y) src_y t f k
  rw [hst] at hcol
  refine ⟨?_, ?_, ?_⟩
  · rw [column_weights_eq, hk]
    refine ⟨_, rfl, ?_⟩
    rw [hcol]
    simp only [List.length_cons, List.length_append, List.length_replicate]
    split <;> simp
  · exact columns_loop_of_count (yc dest_y) pcy st.temp_buf c.width k hk c.width 0
  · intro t1 h1
    unfold downsample_columns_box_filter
    apply columns_loop_congr (yc dest_y) pcy t1 st.temp_buf c.width c.width st.columns k hk
      (by rw [hcol]) _ c.width 0 (by omega)
    intro m j hj hm
    rcases hm with hm | hm
    · exact h1 m j hm hj
    · omega

theorem column_filter_rows_witness :
    ∃ st, gather_rows sample_call (fun _ => 8388608) 8388608 (fun _ => 5592406) 5592405 0 0
        (fun _ => 0) [] = some st ∧
      ((∃ w, column_weights ((fun _ => 5592406) 0) 5592405 = some w ∧ w.length = st.columns) ∧
      (∃ row, downsample_columns_box_filter sample_call.width ((fun _ => 5592406) 0) 5592405
          st.temp_buf = some row ∧ row.length = sample_call.width) ∧
      ∀ t1 : Nat → Nat,
        (∀ m j, m < st.columns → j < sample_call.width →
          t1 (j + m * sample_call.width) = st.temp_buf (j + m * sample_call.width)) →
        downsample_columns_box_filter sample_call.width ((fun _ => 5592406) 0) 5592405 t1 =
          downsample_columns_box_filter sample_call.width ((fun _ => 5592406) 0) 5592405
            st.temp_buf) := by
  have h : (gather_rows sample_call (fun _ => 8388608) 8388608 (fun _ => 5592406) 5592405 0 0
      (fun _ => 0) []).isSome = true := by decide!
  obtain ⟨st, hst⟩ := Option.isSome_iff_exists.mp h
  exact ⟨st, hst, column_filter_rows sample_call _ _ _ _ 0 0 _ _ st hst⟩

/-! ## The source cursor under the tables of compute_coverage -/

theorem row_skip_inner_run (r ov : Int) (h0 : 0 ≤ ov) (hlt : ov < r) (cnt : Nat) :
    ∀ src : List Nat, cnt ≤ src.length →
      row_skip_inner r (cnt * r + ov) src = (ov, src.drop cnt) := by
  induction cnt with
  | zero =>
    intro src _
    cases src with
    | nil => simp [row_skip_inner]
    | cons p src =>
      simp only [row_skip_inner, Nat.cast_zero, zero_mul, zero_add, List.drop_zero]
      rw [if_neg (by omega)]
  | succ cnt ih =>
    intro src hlen
    cases src with
    | nil => simp at hlen
    | cons p src =>
      have hnn : (0 : Int) ≤ cnt * r := mul_nonneg (Int.ofNat_nonneg _) (by omega)
      have e : ((cnt + 1 : Nat) : Int) * r + ov - r = cnt * r + ov := by
        push_cast
        ring
      simp only [row_skip_inner, List.drop_succ_cons]
      rw [if_pos (by push_cast; linarith), e]
      exact ih src (by simpa using hlen)

theorem cov_floor_mono (s d : Nat) (hds : d ≤ s) (hs : s < 2 ^ 52) (k : Nat) :
    ∀ i, i + k ≤ d → cov_edge s d i / dblOne ≤ cov_edge s d (i + k) / dblOne := by
  induction k with
  | zero => exact fun i _ => Nat.le_refl _
  | succ k ih =>
    intro i hik
    have h1 := ih i (by omega)
    have h2 := cov_floor_step s d (i + k) (by omega) hds hs
    have e : i + (k + 1) = i + k + 1 := rfl
    rw [e]
    omega

theorem compute_coverage_fst (c0 : Nat → Int) (s d i : Nat) (hi : i < d) :
    (compute_coverage c0 s d).1 i = coverage_entry s d i := by
  show (if i < d then coverage_entry s d i else c0 i) = _
  rw [if_pos hi]

/-- Skipping `todo` destination indices moves the source pointer from
`floor (x * scale)` to `floor ((x + todo) * scale)`. -/
theorem row_skip_run (c0 : Nat → Int) (s d : Nat) (hds : d ≤ s) (hs : s < 2 ^ 52)
    (hr : 0 < 16777216 * d / s) (todo : Nat) :
    ∀ (x : Nat) (src : List Nat), x + todo ≤ d → src.length + cov_edge s d x / dblOne = s →
      row_skip (compute_coverage c0 s d).1 (compute_coverage c0 s d).2 todo x src =
        (x + todo,
          src.drop (cov_edge s d (x + todo) / dblOne - cov_edge s d x / dblOne)) := by
  induction todo with
  | zero =>
    intro x src _ _
    simp [row_skip]
  | succ todo ih =>
    intro x src hx hlen
    have hxd : x < d := by omega
    have hlt := cov_floor_lt s d x hxd hds hs
    have hle := cov_floor_le s d (x + 1) (by omega) (by omega) hds hs
    have hstep := cov_floor_step s d x hxd hds hs
    have hmono := cov_floor_mono s d hds hs todo (x + 1) (by omega)
    have hov := cov_overage_lt s d x hxd hds hs hr
    have hbox := coverage_entry_box s d x hxd hds hs
    cases src with
    | nil =>
      simp only [List.length_nil, Nat.zero_add] at hlen
      omega
    | cons p src =>
      simp only [List.length_cons] at hlen
      have hpc : (compute_coverage c0 s d).2 = coverage_ratio s d := rfl
      have hrun := row_skip_inner_run (coverage_ratio s d) (cov_overage s d x : Nat)
        (by omega) (by rw [coverage_ratio_cast]; exact_mod_cast hov)
        (cov_edge s d (x + 1) / dblOne - cov_edge s d x / dblOne - 1) src (by omega)
      have hrun1 : row_skip_inner (compute_coverage c0 s d).2
          (UNIT - (compute_coverage c0 s d).1 x) src =
          (((cov_overage s d x : Nat) : Int),
            src.drop (cov_edge s d (x + 1) / dblOne - cov_edge s d x / dblOne - 1)) := by
        rw [compute_coverage_fst c0 s d x hxd, hbox]
        exact hrun
      simp only [row_skip, hrun1]
      rw [ih (x + 1) _ (by omega) (by rw [List.length_drop]; omega), List.drop_drop]
      have e1 : x + 1 + todo = x + (todo + 1) := by omega
      rw [e1]
      have e2 : cov_edge s d (x + (todo + 1)) / dblOne - cov_edge s d x / dblOne =
          (cov_edge s d (x + 1) / dblOne - cov_edge s d x / dblOne - 1 +
            (cov_edge s d (x + (todo + 1)) / dblOne - cov_edge s d (x + 1) / dblOne)) + 1 := by
        rw [e1] at hmono
        omega
      rw [e2, List.drop_succ_cons]

/-- Skipping `todo` destination rows moves `src_y` by
`floor ((dest_y + todo) * scale) - floor (dest_y * scale)`. -/
theorem skip_rows_run (c0 : Nat → Int) (s d : Nat) (hds : d ≤ s) (hs : s < 2 ^ 52)
    (hr : 0 < 16777216 * d / s) (todo : Nat) :
    ∀ (dest_y src_y : Nat), dest_y + todo ≤ d →
      skip_rows (compute_coverage c0 s d).1 (compute_coverage c0 s d).2 todo dest_y src_y =
        some (src_y + (cov_edge s d (dest_y + todo) / dblOne - cov_edge s d dest_y / dblOne)) := by
  induction todo with
  | zero =>
    intro dest_y src_y _
    simp [skip_rows]
  | succ todo ih =>
    intro x src_y hx
    have hxd : x < d := by omega
    have hstep := cov_floor_step s d x hxd hds hs
    have hmono := cov_floor_mono s d hds hs todo (x + 1) (by omega)
    have hov := cov_overage_lt s d x hxd hds hs hr
    have hbox := coverage_entry_box s d x hxd hds hs
    have hpc : (compute_coverage c0 s d).2 = coverage_ratio s d := rfl
    have hov1 : ((cov_overage s d x : Nat) : Int) < coverage_ratio s d := by
      rw [coverage_ratio_cast]
      exact_mod_cast hov
    have hrpos : 0 < coverage_ratio s d := by
      rw [coverage_ratio_cast]
      exact_mod_cast hr
    have hrun := skip_inner_run (coverage_ratio s d) (cov_overage s d x : Nat)
      (Int.ofNat_nonneg _) hov1
      (cov_edge s d (x + 1) / dblOne - cov_edge s d x / dblOne - 1) _ (src_y + 1)
      (toNat_budget (coverage_ratio s d) (cov_overage s d x : Nat) (Int.ofNat_nonneg _) hrpos
        (cov_edge s d (x + 1) / dblOne - cov_edge s d x / dblOne - 1))
    have hrun1 : skip_inner (compute_coverage c0 s d).2
        (UNIT - (compute_coverage c0 s d).1 x).toNat (UNIT - (compute_coverage c0 s d).1 x)
        (src_y + 1) =
        some (src_y + 1 +
          (cov_edge s d (x + 1) / dblOne - cov_edge s d x / dblOne - 1)) := by
      rw [compute_coverage_fst c0 s d x hxd, hbox]
      exact hrun
    simp only [skip_rows, hrun1]
    rw [ih (x + 1) _ (by omega)]
    have e1 : x + 1 + todo = x + (todo + 1) := by omega
    rw [e1] at hmono ⊢
    congr 1
    omega

/-- Claim C17, counterexample: with 15 source elements and 11 destination
elements the source cursor after the last index is 14, not
`floor(11 * 15 / 11) = 15`: `11 * (15.0 / 11)` is `14.999999999999998` in
binary64.  This holds for the pointer of the row filter and for `src_y`. -/
theorem cursor_15_11 :
    row_skip (compute_coverage (fun _ => 0) 15 11).1 (compute_coverage (fun _ => 0) 15 11).2
        11 0 (List.range 15) = (11, [14]) ∧
      skip_rows (compute_coverage (fun _ => 0) 15 11).1 (compute_coverage (fun _ => 0) 15 11).2
        11 0 0 = some 14 ∧
      11 * 15 / 11 = 15 := by
  decide!

/-- Claim C17, amended: for `1 <= d <= s < 2 ^ 31` with `s <= (1 << 24) * d` and
the tables of `compute_coverage(s, d)`, the source cursor of the row filter at
the start of index `i` (equally `src_y` at the start of destination row `i`) is
`floor(i * scale)` as `compute_coverage` computes it in binary64, where
`scale = (double) s / d`; these positions increase strictly with `i`, are below
`s` for every `i < d` and at most `s` for `i = d`, and the row filter writes
every requested pixel. -/
theorem cursor_alignment (c0 : Nat → Int) (s d i : Nat) (src : List Nat) (hd : 1 ≤ d)
    (hds : d ≤ s) (hs : s < 2 ^ 31) (hr : s ≤ 16777216 * d) (hi : i ≤ d)
    (hsrc : src.length = s) :
    row_skip (compute_coverage c0 s d).1 (compute_coverage c0 s d).2 i 0 src =
        (i, src.drop (cov_edge s d i / dblOne)) ∧
      skip_rows (compute_coverage c0 s d).1 (compute_coverage c0 s d).2 i 0 0 =
        some (cov_edge s d i / dblOne) ∧
      cov_edge s d 0 / dblOne = 0 ∧
      cov_edge s d i / dblOne ≤ s ∧
      (i < d → cov_edge s d i / dblOne < cov_edge s d (i + 1) / dblOne ∧
        cov_edge s d i / dblOne < s) ∧
      ∀ start width, start + width ≤ d →
        (downsample_row_box_filter start width src (compute_coverage c0 s d).1
          (compute_coverage c0 s d).2).length = width := by
  have hs52 : s < 2 ^ 52 := by omega
  have hrp := coverage_ratio_pos_of_le s d hd hds hr
  have h0 : cov_edge s d 0 / dblOne = 0 := by rw [cov_edge_zero, Nat.zero_div]
  refine ⟨?_, ?_, h0, cov_floor_le s d i (by omega) hi hds hs52, ?_, ?_⟩
  · have := row_skip_run c0 s d hds hs52 hrp i 0 src (by omega) (by rw [h0]; exact hsrc)
    rw [h0, Nat.zero_add, Nat.sub_zero] at this
    exact this
  · have := skip_rows_run c0 s d hds hs52 hrp i 0 0 (by omega)
    rw [h0, Nat.zero_add, Nat.sub_zero, Nat.zero_add] at this
    exact this
  · intro hlt
    exact ⟨cov_floor_step s d i hlt hds hs52, cov_floor_lt s d i hlt hds hs52⟩
  · intro start width hsw
    have hwin : downsample_row_box_filter start width src (compute_coverage c0 s d).1
        (compute_coverage c0 s d).2 =
        (downsample_row_box_filter 0 (start + width) src (compute_coverage c0 s d).1
          (compute_coverage c0 s d).2).drop start := by
      have := row_main_drop (compute_coverage c0 s d).1 (compute_coverage c0 s d).2 start width
        0 src
      simp only [downsample_row_box_filter, row_skip, Nat.zero_add, Nat.sub_zero] at this ⊢
      exact this.symm
    have hfull : (downsample_row_box_filter 0 (start + width) src (compute_coverage c0 s d).1
        (compute_coverage c0 s d).2).length = start + width := by
      have e : downsample_row_box_filter 0 (start + width) src (compute_coverage c0 s d).1
          (compute_coverage c0 s d).2 =
          row_main (compute_coverage c0 s d).1 (compute_coverage c0 s d).2 (start + width) 0
            src := by
        simp only [downsample_row_box_filter, row_skip, Nat.zero_add, Nat.sub_zero]
      rw [e, ← row_main_weights_length,
        row_main_weights_run c0 s d hds hs52 hrp (start + width) 0 src (by omega)
          (by rw [h0]; exact hsrc)]
      simp
    rw [hwin, List.length_drop, hfull]
    omega

theorem cursor_alignment_witness :
    row_skip (compute_coverage (fun _ => 0) 3 2).1 (compute_coverage (fun _ => 0) 3 2).2 1 0
        [7, 8, 9] = (1, [7, 8, 9].drop (cov_edge 3 2 1 / dblOne)) ∧
      skip_rows (compute_coverage (fun _ => 0) 3 2).1 (compute_coverage (fun _ => 0) 3 2).2
        1 0 0 = some (cov_edge 3 2 1 / dblOne) ∧
      cov_edge 3 2 0 / dblOne = 0 ∧
      cov_edge 3 2 1 / dblOne ≤ 3 ∧
      (1 < 2 → cov_edge 3 2 1 / dblOne < cov_edge 3 2 (1 + 1) / dblOne ∧
        cov_edge 3 2 1 / dblOne < 3) ∧
      ∀ start width, start + width ≤ 2 →
        (downsample_row_box_filter start width [7, 8, 9] (compute_coverage (fun _ => 0) 3 2).1
          (compute_coverage (fun _ => 0) 3 2).2).length = width :=
  cursor_alignment (fun _ => 0) 3 2 1 [7, 8, 9] (by decide) (by decide) (by decide) (by decide)
    (by decide) rfl

/-! ## The last box of an axis of at most `2 ^ 26` destination elements -/

/-- The last right edge exceeds `s` by at most about `s * 2 ^ (-52)`. -/
theorem cov_edge_last_rel (s d : Nat) (hd : 0 < d) (hds : d ≤ s) (hs : s < 2 ^ 52) :
    2 ^ 106 * cov_edge s d d ≤ (2 ^ 53 + 1) * (2 ^ 53 + 1) * (s * dblOne) := by
  have hp := dblOne_pos
  have hle := cov_scale_le s d hd hds (by omega)
  have hge := cov_scale_ge s d hd hds (by omega)
  have h53 := two_pow_le_dblOne
  have herr := dblRound_err_up (d * dblOne * cov_scale s d) dblOne
  rw [← cov_edge_eq s d d (by omega)] at herr
  have hq : d * dblOne * cov_scale s d / dblOne = cov_scale s d * d := by
    have e : d * dblOne * cov_scale s d = cov_scale s d * d * dblOne := by ring
    rw [e, Nat.mul_div_cancel _ hp]
  rw [hq] at herr
  have hY : 2 ^ 53 ≤ cov_scale s d * d := by
    calc 2 ^ 53 ≤ dblOne * 1 := by omega
      _ ≤ cov_scale s d * d := Nat.mul_le_mul hge hd
  have hg : 2 ^ 52 * dblGranule (cov_scale s d * d) ≤ cov_scale s d * d := by
    rcases dblGranule_one_or (cov_scale s d * d) with h1 | h1
    · rw [h1]
      omega
    · exact h1
  have h1 : 2 * cov_edge s d d * dblOne ≤
      (2 * (cov_scale s d * d) + dblGranule (cov_scale s d * d)) * dblOne := by
    calc 2 * cov_edge s d d * dblOne = 2 * (cov_edge s d d * dblOne) := by ring
      _ ≤ 2 * (d * dblOne * cov_scale s d) + dblOne * dblGranule (cov_scale s d * d) := herr
      _ = (2 * (cov_scale s d * d) + dblGranule (cov_scale s d * d)) * dblOne := by ring
  have h2 := Nat.le_of_mul_le_mul_right h1 hp
  generalize cov_scale s d * d = Y at *
  generalize dblGranule Y = g at *
  generalize cov_edge s d d = E at *
  generalize s * dblOne = S at *
  omega

/-- With at most `2 ^ 26` destination elements a last right edge at `s` or
above has no overage. -/
theorem cov_overage_last_small (s d i : Nat) (hi : i + 1 = d) (hds : d ≤ s) (hs : s < 2 ^ 52)
    (hd26 : d ≤ 2 ^ 26) (h : s ≤ cov_edge s d (i + 1) / dblOne) : cov_overage s d i = 0 := by
  have hp := dblOne_pos
  have hd : 0 < d := by omega
  have hrel := cov_edge_last_rel s d hd hds hs
  have hrle := coverage_ratio_le s d hds
  have hrs : 16777216 * d / s * s ≤ 16777216 * d := Nat.div_mul_le_self _ _
  rw [hi] at h
  unfold cov_overage
  rw [hi, coverage_ratio_toNat, dblOfNat_eq _ (by omega)]
  have hmod : cov_edge s d d % dblOne + s * dblOne ≤ cov_edge s d d := by
    have h2 := Nat.div_add_mod (cov_edge s d d) dblOne
    have h3 : dblOne * s ≤ dblOne * (cov_edge s d d / dblOne) := Nat.mul_le_mul_left _ h
    have h4 : dblOne * s = s * dblOne := Nat.mul_comm _ _
    omega
  have hprod : 2 * (16777216 * d / s * (cov_edge s d d % dblOne)) ≤ dblOne := by
    have h5 : 2 ^ 106 * (cov_edge s d d % dblOne) ≤ (2 ^ 54 + 1) * (s * dblOne) := by
      generalize cov_edge s d d % dblOne = rf at *
      generalize cov_edge s d d = E at *
      generalize s * dblOne = S at *
      omega
    have h6 : 2 ^ 106 * (16777216 * d / s * (cov_edge s d d % dblOne)) ≤
        (2 ^ 54 + 1) * (16777216 * d * dblOne) := by
      calc 2 ^ 106 * (16777216 * d / s * (cov_edge s d d % dblOne))
          = 16777216 * d / s * (2 ^ 106 * (cov_edge s d d % dblOne)) := by ring
        _ ≤ 16777216 * d / s * ((2 ^ 54 + 1) * (s * dblOne)) := Nat.mul_le_mul_left _ h5
        _ = (2 ^ 54 + 1) * (16777216 * d / s * s * dblOne) := by ring
        _ ≤ (2 ^ 54 + 1) * (16777216 * d * dblOne) :=
          Nat.mul_le_mul_left _ (Nat.mul_le_mul_right _ hrs)
    have h7 : 16777216 * d * dblOne ≤ 2 ^ 50 * dblOne :=
      Nat.mul_le_mul_right _ (by omega)
    generalize 16777216 * d / s * (cov_edge s d d % dblOne) = y at *
    generalize 16777216 * d * dblOne = z at *
    omega
  have hhalf : dblMul (16777216 * d / s * dblOne) (cov_edge s d d % dblOne) ≤ dblHalf := by
    unfold dblMul
    have hr1 : dblRep (1 * dblHalf) := dblRep_half 1 (by norm_num)
    rw [Nat.one_mul] at hr1
    apply dblRound_one_le _ _ hr1
    have h2 := dblHalf_two
    calc 16777216 * d / s * dblOne * (cov_edge s d d % dblOne)
        = 16777216 * d / s * (cov_edge s d d % dblOne) * dblOne := by ring
      _ ≤ dblHalf * dblOne := Nat.mul_le_mul_right _ (by omega)
  apply Nat.div_eq_of_lt
  have := dblHalf_two
  omega

/-! ## The rows requested from getRow -/

theorem rows_iter_fetched (c : Call) (xc : Nat → Int) (pcx pcy : Int) (k : Nat) :
    ∀ (st : RowState) (z : Nat), z ∈ (rows_iter c xc pcx pcy k st).fetched →
      z ∈ st.fetched ∨ (st.src_y ≤ z ∧ z < st.src_y + k) := by
  induction k with
  | zero =>
    intro st z hz
    exact Or.inl hz
  | succ k ih =>
    intro st z hz
    simp only [rows_iter] at hz
    rcases ih _ z hz with h | h
    · simp only [fetch_row_eq, List.mem_append, List.mem_singleton] at h
      rcases h with h | h
      · exact Or.inl h
      · exact Or.inr ⟨by omega, by omega⟩
    · simp only [fetch_row_eq] at h
      exact Or.inr ⟨by omega, by omega⟩

theorem gather_fetched (c : Call) (xc : Nat → Int) (pcx pcy : Int) (sc : Int)
    (src_y : Nat) (t : Nat → Nat) (f : List Nat) (k z : Nat)
    (hz : z ∈ (gather_last c xc pcx (rows_iter c xc pcx pcy k
      (gather_first c xc pcx sc src_y t f))).fetched) :
    z ∈ f ∨ (src_y ≤ z ∧ z ≤ src_y + k) ∨ (z = src_y + 1 + k ∧ UNIT - sc - k * pcy > 0) := by
  obtain ⟨h1, _, h3⟩ := rows_iter_fields c xc pcx pcy k (gather_first c xc pcx sc src_y t f)
  have g1 : (gather_first c xc pcx sc src_y t f).box = UNIT - sc := rfl
  have g3 : (gather_first c xc pcx sc src_y t f).src_y = src_y + 1 := rfl
  have g4 : (gather_first c xc pcx sc src_y t f).fetched = f ++ [src_y] := rfl
  rw [g1] at h1
  rw [g3] at h3
  have hiter : ∀ z, z ∈ (rows_iter c xc pcx pcy k (gather_first c xc pcx sc src_y t f)).fetched →
      z ∈ f ∨ (src_y ≤ z ∧ z ≤ src_y + k) := by
    intro z hz
    rcases rows_iter_fetched c xc pcx pcy k _ z hz with h | h
    · rw [g4, List.mem_append, List.mem_singleton] at h
      rcases h with h | h
      · exact Or.inl h
      · exact Or.inr ⟨by omega, by omega⟩
    · rw [g3] at h
      exact Or.inr ⟨by omega, by omega⟩
  unfold gather_last at hz
  by_cases hb : (rows_iter c xc pcx pcy k (gather_first c xc pcx sc src_y t f)).box > 0
  · rw [if_pos hb, fetch_row_eq] at hz
    simp only [List.mem_append, List.mem_singleton] at hz
    rcases hz with hz | hz
    · rcases hiter z hz with h | h
      · exact Or.inl h
      · exact Or.inr (Or.inl h)
    · rw [h1] at hb
      exact Or.inr (Or.inr ⟨by rw [hz, h3], hb⟩)
  · rw [if_neg hb] at hz
    rcases hiter z hz with h | h
    · exact Or.inl h
    · exact Or.inr (Or.inl h)

/-- The number of iterations of the loop `while (box >= pixel_coverage_y)` for
destination row `x`. -/
theorem skip_inner_count (c0 : Nat → Int) (s d x : Nat) (hx : x < d) (hds : d ≤ s)
    (hs : s < 2 ^ 52) (hr : 0 < 16777216 * d / s) :
    skip_inner (compute_coverage c0 s d).2 (UNIT - (compute_coverage c0 s d).1 x).toNat
        (UNIT - (compute_coverage c0 s d).1 x) 0 =
      some (cov_edge s d (x + 1) / dblOne - cov_edge s d x / dblOne - 1) ∧
    UNIT - (compute_coverage c0 s d).1 x -
        ((cov_edge s d (x + 1) / dblOne - cov_edge s d x / dblOne - 1 : Nat) : Int) *
          (compute_coverage c0 s d).2 = ((cov_overage s d x : Nat) : Int) := by
  have hov := cov_overage_lt s d x hx hds hs hr
  have hbox := coverage_entry_box s d x hx hds hs
  have hpc : (compute_coverage c0 s d).2 = coverage_ratio s d := rfl
  have hov1 : ((cov_overage s d x : Nat) : Int) < coverage_ratio s d := by
    rw [coverage_ratio_cast]
    exact_mod_cast hov
  have hrpos : 0 < coverage_ratio s d := by
    rw [coverage_ratio_cast]
    exact_mod_cast hr
  have hrun := skip_inner_run (coverage_ratio s d) (cov_overage s d x : Nat)
    (Int.ofNat_nonneg _) hov1
    (cov_edge s d (x + 1) / dblOne - cov_edge s d x / dblOne - 1) _ 0
    (toNat_budget (coverage_ratio s d) (cov_overage s d x : Nat) (Int.ofNat_nonneg _) hrpos
      (cov_edge s d (x + 1) / dblOne - cov_edge s d x / dblOne - 1))
  rw [Nat.zero_add] at hrun
  rw [compute_coverage_fst c0 s d x hx, hpc, hbox]
  exact ⟨hrun, by ring⟩

theorem scale_rows_range (c : Call) (xc : Nat → Int) (pcx : Int) (c0 : Nat → Int) (s d : Nat)
    (hds : d ≤ s) (hs : s < 2 ^ 52) (hr : 0 < 16777216 * d / s) (todo : Nat) :
    ∀ (dest_y : Nat) (st r : ImageState), dest_y + todo ≤ d →
      st.src_y = cov_edge s d dest_y / dblOne → (∀ z ∈ st.fetched, z < s) →
      (∀ j, j < dest_y + todo → 0 < cov_overage s d j → cov_edge s d (j + 1) / dblOne < s) →
      scale_rows c xc pcx (compute_coverage c0 s d).1 (compute_coverage c0 s d).2 todo dest_y
        st = some r →
      r.src_y = cov_edge s d (dest_y + todo) / dblOne ∧ ∀ z ∈ r.fetched, z < s := by
  induction todo with
  | zero =>
    intro dest_y st r _ hy hf _ h
    simp only [scale_rows, Option.some.injEq] at h
    subst h
    exact ⟨hy, hf⟩
  | succ todo ih =>
    intro x st r hx hy hf hlast h
    have hxd : x < d := by omega
    obtain ⟨hk, hbox⟩ := skip_inner_count c0 s d x hxd hds hs hr
    have hstep := cov_floor_step s d x hxd hds hs
    have hle := cov_floor_le s d (x + 1) (by omega) (by omega) hds hs
    unfold scale_rows at h
    rw [gather_rows_eq, hk] at h
    simp only [Option.map_some'] at h
    obtain ⟨g1, _⟩ := gather_state c xc pcx (compute_coverage c0 s d).2
      ((compute_coverage c0 s d).1 x) st.src_y st.temp_buf st.fetched
      (cov_edge s d (x + 1) / dblOne - cov_edge s d x / dblOne - 1)
    cases hcol : downsample_columns_box_filter c.width ((compute_coverage c0 s d).1 x)
        (compute_coverage c0 s d).2
        (gather_last c xc pcx (rows_iter c xc pcx (compute_coverage c0 s d).2
          (cov_edge s d (x + 1) / dblOne - cov_edge s d x / dblOne - 1)
          (gather_first c xc pcx ((compute_coverage c0 s d).1 x) st.src_y st.temp_buf
            st.fetched))).temp_buf with
    | none =>
      rw [hcol] at h
      exact absurd h (by simp)
    | some row =>
      rw [hcol] at h
      simp only [] at h
      have e1 : x + (todo + 1) = x + 1 + todo := by omega
      rw [e1]
      apply ih (x + 1) _ r (by omega) _ _ _ h
      · show (gather_last c xc pcx _).src_y = _
        rw [g1, hy]
        omega
      · intro z hz
        rcases gather_fetched c xc pcx _ _ _ _ _ _ z hz with h1 | h1 | h1
        · exact hf z h1
        · rw [hy] at h1
          omega
        · rw [hbox] at h1
          have := hlast x (by omega) (by exact_mod_cast h1.2)
          rw [hy] at h1
          omega
      · intro j hj
        exact hlast j (by omega)

/-- Claim C18: for a call of `downScaleImage` with `1 <= scaled_height <=
orig_height <= (1 << 24) * scaled_height`, `orig_height` a positive `int` and
`start_row + height <= scaled_height` (`start_row` and `height` being
`unsigned short`), every index passed to `getRow` is below `orig_height`, the
indices are non-decreasing, and `src_y <= orig_height` when the loop ends. -/
theorem getRow_in_range (c : Call) (m : Scratch) (dest : Nat → Nat) (o : Outcome)
    (h : downScaleImage c m dest = some o) (hh : 1 ≤ c.scaled_height) (hoh : c.scaled_height ≤ c.orig_height)
    (hint : c.orig_height < 2 ^ 31) (hr : c.orig_height ≤ 16777216 * c.scaled_height)
    (hwin : c.start_row + c.height ≤ c.scaled_height) (hsr : c.start_row < 65536)
    (hht : c.height < 65536) :
    (∀ z ∈ o.fetched, z < c.orig_height) ∧ o.fetched.Pairwise (· ≤ ·) ∧
      (o.retval = true → ∃ x0 y0 t0 src_y s1, m.x_coverage = some x0 ∧ m.y_coverage = some y0 ∧
        m.temp_buf = some t0 ∧
        skip_rows (compute_coverage y0 c.orig_height c.scaled_height).1
          (compute_coverage y0 c.orig_height c.scaled_height).2 c.start_row 0 0 = some src_y ∧
        scale_rows c (compute_coverage x0 c.orig_width c.scaled_width).1
          (compute_coverage x0 c.orig_width c.scaled_width).2
          (compute_coverage y0 c.orig_height c.scaled_height).1
          (compute_coverage y0 c.orig_height c.scaled_height).2 c.height c.start_row
          { src_y := src_y, temp_buf := t0, dest := dest, dest_off := 0, fetched := [],
            written := [] } = some s1 ∧
        o.fetched = s1.fetched ∧ s1.src_y ≤ c.orig_height) := by
  have hs52 : c.orig_height < 2 ^ 52 := by omega
  have hrp := coverage_ratio_pos_of_le c.orig_height c.scaled_height hh hoh hr
  have htrace := downScaleImage_trace c m dest o h
  rcases downScaleImage_cases c m dest o h with
    ho | ⟨x0, y0, t0, src_y, s1, hx, hy, _, ht, _, hskip, hs1, ho⟩
  · rw [ho]
    exact ⟨by simp, by simp, by simp⟩
  · have hrun := skip_rows_run y0 c.orig_height c.scaled_height hoh hs52 hrp c.start_row 0 0
      (by omega)
    rw [hskip, cov_edge_zero, Nat.zero_div, Nat.sub_zero, Nat.zero_add, Nat.zero_add] at hrun
    simp only [Option.some.injEq] at hrun
    have hrange := scale_rows_range c _ _ y0 c.orig_height c.scaled_height hoh hs52 hrp
      c.height c.start_row _ s1 hwin hrun (by simp) (by
        intro j hj hov
        by_cases hlt : j + 1 < c.scaled_height
        · exact cov_floor_lt _ _ (j + 1) hlt hoh hs52
        · by_contra hge
          have := cov_overage_last_small c.orig_height c.scaled_height j (by omega) hoh hs52
            (by omega) (Nat.le_of_not_lt hge)
          omega) hs1
    have hf : o.fetched = s1.fetched := by rw [ho]
    refine ⟨?_, htrace.1, fun _ => ⟨x0, y0, t0, src_y, s1, hx, hy, ht, hskip, hs1, hf, ?_⟩⟩
    · rw [hf]
      exact hrange.2
    · rw [hrange.1]
      exact cov_floor_le _ _ _ (by omega) hwin hoh hs52

theorem getRow_in_range_witness :
    ∃ o, downScaleImage sample_call sample_scratch (fun _ => 0) = some o ∧
      ((∀ z ∈ o.fetched, z < sample_call.orig_height) ∧ o.fetched.Pairwise (· ≤ ·) ∧
      (o.retval = true → ∃ x0 y0 t0 src_y s1, sample_scratch.x_coverage = some x0 ∧
        sample_scratch.y_coverage = some y0 ∧ sample_scratch.temp_buf = some t0 ∧
        skip_rows (compute_coverage y0 sample_call.orig_height sample_call.scaled_height).1
          (compute_coverage y0 sample_call.orig_height sample_call.scaled_height).2
          sample_call.start_row 0 0 = some src_y ∧
        scale_rows sample_call
          (compute_coverage x0 sample_call.orig_width sample_call.scaled_width).1
          (compute_coverage x0 sample_call.orig_width sample_call.scaled_width).2
          (compute_coverage y0 sample_call.orig_height sample_call.scaled_height).1
          (compute_coverage y0 sample_call.orig_height sample_call.scaled_height).2
          sample_call.height sample_call.start_row
          { src_y := src_y, temp_buf := t0, dest := fun _ => 0, dest_off := 0, fetched := [],
            written := [] } = some s1 ∧
        o.fetched = s1.fetched ∧ s1.src_y ≤ sample_call.orig_height)) := by
  have h : (downScaleImage sample_call sample_scratch (fun _ => 0)).isSome = true := by decide!
  obtain ⟨o, ho⟩ := Option.isSome_iff_exists.mp h
  exact ⟨o, ho, getRow_in_range sample_call sample_scratch (fun _ => 0) o ho (by decide)
    (by decide) (by decide) (by decide) (by decide) (by decide) (by decide)⟩

/-! ## The width of a box -/

/-- A box is at most `K` source elements wide, for every integer `K` that is at
least `s / d`: the right edge `(i + 1) * scale` does not exceed
`floor(i * scale) + 1 + K`. -/
theorem cov_edge_width (s d i K : Nat) (hi : i < d) (hds : d ≤ s) (hs : s < 2 ^ 52)
    (hK : s ≤ K * d) (hKs : K ≤ s) :
    cov_edge s d (i + 1) ≤ (cov_edge s d i / dblOne + 1 + K) * dblOne := by
  have hp := dblOne_pos
  have hd : 0 < d := by omega
  have hFL := cov_floor_lt s d i hi hds hs
  by_contra hcon
  have hlt : (cov_edge s d i / dblOne + 1 + K) * dblOne < cov_edge s d (i + 1) :=
    Nat.lt_of_not_le hcon
  have hv : dblRep ((cov_edge s d i / dblOne + 1 + K) * dblOne) := dblRep_nat _ (by omega)
  have hw : dblRep ((cov_edge s d i / dblOne + 1) * dblOne) := dblRep_nat _ (by omega)
  have hAw : cov_edge s d i < (cov_edge s d i / dblOne + 1) * dblOne := by
    have := Nat.lt_div_mul_add (a := cov_edge s d i) hp
    calc cov_edge s d i < cov_edge s d i / dblOne * dblOne + dblOne := this
      _ = (cov_edge s d i / dblOne + 1) * dblOne := by ring
  have hsf : cov_scale s d ≤ K * dblOne := by
    rw [cov_scale_eq s d (by omega) (by omega)]
    apply dblRep_round_le _ _ _ (Nat.mul_pos hd hp) (dblRep_nat K (by omega))
    calc s * dblOne * dblOne ≤ K * d * dblOne * dblOne :=
          Nat.mul_le_mul_right _ (Nat.mul_le_mul_right _ hK)
      _ = K * dblOne * (d * dblOne) := by ring
  have hB := cov_edge_eq s d (i + 1) (by omega)
  have hA := cov_edge_eq s d i (by omega)
  generalize cov_scale s d = sf at *
  generalize cov_edge s d i = L at *
  generalize cov_edge s d (i + 1) = R at *
  have hmidB := dblRound_mid_below ((i + 1) * dblOne * sf) dblOne
    ((L / dblOne + 1 + K) * dblOne) hp hv (by rw [← hB]; exact hlt)
  rw [← hB] at hmidB
  have hmidA := dblRound_mid_above (i * dblOne * sf) dblOne
    ((L / dblOne + 1) * dblOne) hp hw (by rw [← hA]; exact hAw)
  rw [← hA] at hmidA
  have h1 : (R + (L / dblOne + 1 + K) * dblOne) * dblOne ≤
      (2 * (i * sf) + 2 * sf) * dblOne := by
    calc (R + (L / dblOne + 1 + K) * dblOne) * dblOne
        ≤ 2 * ((i + 1) * dblOne * sf) := hmidB
      _ = (2 * (i * sf) + 2 * sf) * dblOne := by ring
  have h2 : 2 * (i * sf) * dblOne ≤ (L + (L / dblOne + 1) * dblOne) * dblOne := by
    calc 2 * (i * sf) * dblOne = 2 * (i * dblOne * sf) := by ring
      _ ≤ (L + (L / dblOne + 1) * dblOne) * dblOne := hmidA
  have h3 := Nat.le_of_mul_le_mul_right h1 hp
  have h4 := Nat.le_of_mul_le_mul_right h2 hp
  have e : (L / dblOne + 1 + K) * dblOne = (L / dblOne + 1) * dblOne + K * dblOne := by ring
  rw [e] at h3 hlt
  generalize (L / dblOne + 1) * dblOne = w at *
  generalize K * dblOne = KO at *
  generalize i * sf = X at *
  omega

theorem ceil_div_bounds (s d : Nat) (hd : 0 < d) :
    s ≤ (s + d - 1) / d * d ∧ (s + d - 1) / d ≤ s := by
  constructor
  · have h1 := Nat.div_add_mod (s + d - 1) d
    have h2 := Nat.mod_lt (s + d - 1) hd
    have e : d * ((s + d - 1) / d) = (s + d - 1) / d * d := Nat.mul_comm _ _
    omega
  · rw [Nat.div_le_iff_le_mul_add_pred hd]
    have : s ≤ d * s := Nat.le_mul_of_pos_left s hd
    omega

/-- A box takes at most `ceil(s / d)` source elements after its first one, the
element of the overage included. -/
theorem cov_count_le (s d i : Nat) (hi : i < d) (hds : d ≤ s) (hs : s < 2 ^ 52) :
    cov_edge s d (i + 1) / dblOne - cov_edge s d i / dblOne - 1 +
      (if 0 < cov_overage s d i then 1 else 0) ≤ (s + d - 1) / d := by
  have hp := dblOne_pos
  have hd : 0 < d := by omega
  obtain ⟨hK, hKs⟩ := ceil_div_bounds s d hd
  have hwid := cov_edge_width s d i ((s + d - 1) / d) hi hds hs hK hKs
  have hstep := cov_floor_step s d i hi hds hs
  have hfl : cov_edge s d (i + 1) / dblOne ≤ cov_edge s d i / dblOne + 1 + (s + d - 1) / d := by
    calc cov_edge s d (i + 1) / dblOne
        ≤ (cov_edge s d i / dblOne + 1 + (s + d - 1) / d) * dblOne / dblOne :=
          Nat.div_le_div_right hwid
      _ = cov_edge s d i / dblOne + 1 + (s + d - 1) / d := Nat.mul_div_cancel _ hp
  by_cases hov : 0 < cov_overage s d i
  · rw [if_pos hov]
    by_contra hcon
    have heq : cov_edge s d (i + 1) / dblOne = cov_edge s d i / dblOne + 1 + (s + d - 1) / d := by
      omega
    have hmod : cov_edge s d (i + 1) % dblOne = 0 := by
      have h2 := Nat.div_add_mod (cov_edge s d (i + 1)) dblOne
      rw [heq, Nat.mul_comm] at h2
      omega
    have : cov_overage s d i = 0 := by
      unfold cov_overage
      rw [hmod, dblMul_zero, Nat.zero_div]
    omega
  · rw [if_neg hov]
    omega

/-! ## The rows stored into temp_buf -/

theorem skip_inner_none (pc : Int) (hpc : pc ≤ 0) (fuel : Nat) :
    ∀ (box : Int) (y : Nat), pc ≤ box → skip_inner pc fuel box y = none := by
  induction fuel with
  | zero =>
    intro box y hb
    unfold skip_inner
    rw [if_pos hb]
  | succ fuel ih =>
    intro box y hb
    unfold skip_inner
    rw [if_pos hb]
    exact ih _ _ (by omega)

theorem fetch_row_frame (c : Call) (xc : Nat → Int) (pcx : Int) (st : RowState) (p : Nat)
    (hp : c.width * (st.columns + 1) ≤ p) :
    (fetch_row c xc pcx st).temp_buf p = st.temp_buf p := by
  rw [fetch_row_eq]
  apply store_outside
  have := filtered_row_length_le c xc pcx st.src_y
  have e : c.width * (st.columns + 1) = c.width * st.columns + c.width := by ring
  omega

theorem rows_iter_frame (c : Call) (xc : Nat → Int) (pcx pcy : Int) (k : Nat) :
    ∀ (st : RowState) (p : Nat), c.width * (st.columns + k) ≤ p →
      (rows_iter c xc pcx pcy k st).temp_buf p = st.temp_buf p := by
  induction k with
  | zero => exact fun _ _ _ => rfl
  | succ k ih =>
    intro st p hp
    simp only [rows_iter]
    have e2 : c.width * (st.columns + 1) ≤ c.width * (st.columns + (k + 1)) :=
      Nat.mul_le_mul_left _ (by omega)
    rw [ih _ p (by
      show c.width * ((fetch_row c xc pcx st).columns + k) ≤ p
      have e : (fetch_row c xc pcx st).columns + k = st.columns + (k + 1) := by
        rw [fetch_row_eq]
        show st.columns + 1 + k = _
        omega
      rw [e]
      exact hp)]
    exact fetch_row_frame c xc pcx st p (by omega)

theorem gather_frame (c : Call) (xc : Nat → Int) (pcx pcy : Int) (sc : Int)
    (src_y : Nat) (t : Nat → Nat) (f : List Nat) (k p : Nat)
    (hp : c.width * (gather_last c xc pcx (rows_iter c xc pcx pcy k
      (gather_first c xc pcx sc src_y t f))).columns ≤ p) :
    (gather_last c xc pcx (rows_iter c xc pcx pcy k
      (gather_first c xc pcx sc src_y t f))).temp_buf p = t p := by
  obtain ⟨_, h2, _⟩ := rows_iter_fields c xc pcx pcy k (gather_first c xc pcx sc src_y t f)
  have g2 : (gather_first c xc pcx sc src_y t f).columns = 1 := rfl
  rw [g2] at h2
  have hfirst : ∀ q, c.width * 1 ≤ q → (gather_first c xc pcx sc src_y t f).temp_buf q = t q := by
    intro q hq
    exact fetch_row_frame c xc pcx
      { box := UNIT, columns := 0, src_y := src_y, temp_buf := t, fetched := f } q hq
  have hiter : ∀ q, c.width * (1 + k) ≤ q →
      (rows_iter c xc pcx pcy k (gather_first c xc pcx sc src_y t f)).temp_buf q = t q := by
    intro q hq
    rw [rows_iter_frame c xc pcx pcy k _ q (by rw [g2]; exact hq)]
    have e : c.width * 1 ≤ c.width * (1 + k) := Nat.mul_le_mul_left _ (by omega)
    exact hfirst q (by omega)
  unfold gather_last at hp ⊢
  split at hp
  · rename_i hb
    rw [if_pos hb]
    have e1 : (fetch_row c xc pcx (rows_iter c xc pcx pcy k
        (gather_first c xc pcx sc src_y t f))).columns = 1 + k + 1 := by
      rw [fetch_row_eq]
      show (rows_iter c xc pcx pcy k (gather_first c xc pcx sc src_y t f)).columns + 1 = _
      rw [h2]
    rw [e1] at hp
    have e2 : c.width * (1 + k) ≤ c.width * (1 + k + 1) := Nat.mul_le_mul_left _ (by omega)
    rw [fetch_row_frame c xc pcx _ p (by rw [h2]; exact hp)]
    exact hiter p (by omega)
  · rename_i hb
    rw [if_neg hb]
    rw [h2] at hp
    exact hiter p hp

/-- For `1 <= scaled_height <= orig_height` (a positive `int`) with
`orig_height <= (1 << 24) * scaled_height` and every destination row
`dest_y < scaled_height`, the gathering of the intermediate rows ends, the number
of rows stored for the row, the final value of `columns`, is at most
`(orig_height + scaled_height - 1) / scaled_height + 1`, and no pixel of
`temp_buf` at or beyond that many rows of `width` pixels is written. -/
theorem temp_buf_capacity (c : Call) (xc : Nat → Int) (pcx : Int) (y0 : Nat → Int)
    (dest_y src_y : Nat) (t : Nat → Nat) (f : List Nat)
    (hoh : c.scaled_height ≤ c.orig_height) (hint : c.orig_height < 2 ^ 31)
    (hr : c.orig_height ≤ 16777216 * c.scaled_height) (hy : dest_y < c.scaled_height) :
    ∃ st, gather_rows c xc pcx (compute_coverage y0 c.orig_height c.scaled_height).1
        (compute_coverage y0 c.orig_height c.scaled_height).2 dest_y src_y t f = some st ∧
      st.columns ≤ (c.orig_height + c.scaled_height - 1) / c.scaled_height + 1 ∧
      ∀ p, ((c.orig_height + c.scaled_height - 1) / c.scaled_height + 1) * c.width ≤ p →
        st.temp_buf p = t p := by
  have hs52 : c.orig_height < 2 ^ 52 := by omega
  have hr1 : 0 < 16777216 * c.scaled_height / c.orig_height :=
    coverage_ratio_pos_of_le _ _ (by omega) hoh hr
  obtain ⟨hk, hbox⟩ := skip_inner_count y0 c.orig_height c.scaled_height dest_y hy hoh hs52 hr1
  rw [gather_rows_eq, hk]
  simp only [Option.map_some']
  refine ⟨_, rfl, ?_⟩
  obtain ⟨_, hcol⟩ := gather_state c xc pcx
    (compute_coverage y0 c.orig_height c.scaled_height).2
    ((compute_coverage y0 c.orig_height c.scaled_height).1 dest_y) src_y t f
    (cov_edge c.orig_height c.scaled_height (dest_y + 1) / dblOne -
      cov_edge c.orig_height c.scaled_height dest_y / dblOne - 1)
  have hcnt := cov_count_le c.orig_height c.scaled_height dest_y hy hoh hs52
  rw [hbox] at hcol
  have key : ∀ st, gather_last c xc pcx (rows_iter c xc pcx
      (compute_coverage y0 c.orig_height c.scaled_height).2
      (cov_edge c.orig_height c.scaled_height (dest_y + 1) / dblOne -
        cov_edge c.orig_height c.scaled_height dest_y / dblOne - 1)
      (gather_first c xc pcx ((compute_coverage y0 c.orig_height c.scaled_height).1 dest_y)
        src_y t f)) = st →
      st.columns ≤ (c.orig_height + c.scaled_height - 1) / c.scaled_height + 1 ∧
      ∀ p, ((c.orig_height + c.scaled_height - 1) / c.scaled_height + 1) * c.width ≤ p →
        st.temp_buf p = t p := by
    intro st h
    rw [h] at hcol
    have hcols : st.columns ≤
        (c.orig_height + c.scaled_height - 1) / c.scaled_height + 1 := by
      rw [hcol]
      by_cases hov : 0 < cov_overage c.orig_height c.scaled_height dest_y
      · rw [if_pos hov] at hcnt
        rw [if_pos (by exact_mod_cast hov)]
        omega
      · rw [if_neg hov] at hcnt
        rw [if_neg (by
          intro hc
          exact hov (by exact_mod_cast hc))]
        omega
    refine ⟨hcols, fun p hp => ?_⟩
    rw [← h]
    apply gather_frame
    rw [h]
    calc c.width * st.columns
        ≤ c.width * ((c.orig_height + c.scaled_height - 1) / c.scaled_height + 1) :=
          Nat.mul_le_mul_left _ hcols
      _ = ((c.orig_height + c.scaled_height - 1) / c.scaled_height + 1) * c.width :=
          Nat.mul_comm _ _
      _ ≤ p := hp
  exact key _ rfl

/-! ## Spacing of binary64 values by magnitude -/

/-- Below `2 ^ (a + 1)` the spacing is at most `2 ^ (a - 52)`. -/
theorem dblGranule_le_binade (a P : Nat) (h : P < 2 ^ (a + 1) * dblOne) :
    dblGranule P ≤ 2 ^ a * dblEps := by
  obtain ⟨k, hk, hone⟩ := dblOne_eq_pow
  obtain ⟨j, hj, heps⟩ := dblEps_eq_pow
  rw [hone, ← Nat.pow_add] at h
  rw [heps, ← Nat.pow_add]
  unfold dblGranule
  have hb : dblBits P ≤ a + 1 + k := (dblBits_le_iff P _).mpr h
  exact Nat.pow_le_pow_right (by norm_num) (by omega)

/-- From `2 ^ a` on the spacing is a multiple of `2 ^ (a - 52)`. -/
theorem dblGranule_ge_binade (a P : Nat) (h : 2 ^ a * dblOne ≤ P) :
    2 ^ a * dblEps ∣ dblGranule P := by
  obtain ⟨k, hk, hone⟩ := dblOne_eq_pow
  obtain ⟨j, hj, heps⟩ := dblEps_eq_pow
  rw [hone, ← Nat.pow_add] at h
  rw [heps, ← Nat.pow_add]
  unfold dblGranule
  have hb : a + k < dblBits P := (dblBits_lt_iff P _).mpr h
  exact Nat.pow_dvd_pow 2 (by omega)

theorem dblGranule_dvd_down (n d : Nat) : dblGranule (n / d) ∣ dblDown n d := by
  unfold dblDown
  exact Dvd.intro_left _ rfl

theorem dblGranule_dvd_round (n d : Nat) : dblGranule (n / d) ∣ dblRound n d := by
  rcases dblRound_cases n d with h | h <;> rw [h.1]
  · exact dblGranule_dvd_down n d
  · exact Dvd.dvd.add (dblGranule_dvd_down n d) (Nat.dvd_refl _)

/-! ## The overage fits into the budget of a box -/

/-- When `ratio * (count + right_fract)` is below `2 ^ 24 + 1` by `2 ^ (-28)`,
`count * ratio + overage` is at most `2 ^ 24`. -/
theorem overage_floor (r c rf : Nat)
    (h : 2 ^ 28 * (r * (c * dblOne + rf)) ≤ (2 ^ 52 + 2 ^ 28 - 1) * dblOne) :
    c * r + dblMul (r * dblOne) rf / dblOne ≤ 2 ^ 24 := by
  have hp := dblOne_pos
  obtain ⟨j, hj, heps⟩ := dblEps_eq_pow
  have hmul := dblEps_mul
  have e0 : r * (c * dblOne + rf) = c * r * dblOne + r * rf := by ring
  rw [e0] at h
  have hcr : c * r ≤ 2 ^ 24 := by
    by_contra hcon
    have h1 : (2 ^ 24 + 1) * dblOne ≤ c * r * dblOne := Nat.mul_le_mul_right _ (by omega)
    generalize c * r * dblOne = a1 at *
    generalize r * rf = rrf at *
    omega
  obtain ⟨N1, hN1⟩ : ∃ N1, c * r + N1 = 2 ^ 24 + 1 := ⟨2 ^ 24 + 1 - c * r, by omega⟩
  obtain ⟨M, hM⟩ : ∃ M, M + 1 = N1 * 2 ^ 28 := ⟨N1 * 2 ^ 28 - 1, by omega⟩
  have hv : dblRep (M * (2 ^ 24 * dblEps)) := by
    rw [heps, ← Nat.pow_add]
    exact dblRep_of M _ (by omega)
  have e1 : c * r * dblOne + N1 * dblOne = (2 ^ 24 + 1) * dblOne := by
    rw [← Nat.add_mul, hN1]
  have e2 : M * dblOne + dblOne = 2 ^ 28 * (N1 * dblOne) := by
    calc M * dblOne + dblOne = (M + 1) * dblOne := by ring
      _ = 2 ^ 28 * (N1 * dblOne) := by rw [hM]; ring
  have e3 : 2 ^ 28 * (M * (2 ^ 24 * dblEps)) = M * dblOne := by
    rw [← hmul]
    ring
  have hle : r * rf ≤ M * (2 ^ 24 * dblEps) := by
    generalize c * r * dblOne = a1 at *
    generalize N1 * dblOne = a2 at *
    generalize M * dblOne = a3 at *
    generalize M * (2 ^ 24 * dblEps) = v at *
    generalize r * rf = rrf at *
    omega
  have hround : dblMul (r * dblOne) rf ≤ M * (2 ^ 24 * dblEps) := by
    unfold dblMul
    apply dblRound_one_le _ _ hv
    calc r * dblOne * rf = r * rf * dblOne := by ring
      _ ≤ M * (2 ^ 24 * dblEps) * dblOne := Nat.mul_le_mul_right _ hle
  have hlt : dblMul (r * dblOne) rf < N1 * dblOne := by
    have hE : 0 < dblEps := by
      rw [heps]
      exact Nat.pow_pos (by norm_num)
    generalize M * dblOne = a3 at *
    generalize N1 * dblOne = a2 at *
    generalize M * (2 ^ 24 * dblEps) = v at *
    omega
  have hlt1 : dblMul (r * dblOne) rf < dblOne * N1 := by
    rw [Nat.mul_comm dblOne N1]
    exact hlt
  have hdiv : dblMul (r * dblOne) rf / dblOne < N1 := Nat.div_lt_of_lt_mul hlt1
  omega

/-- The right edge of a box against its left edge: both products are rounded
to nearest, so twice the right edge is at most the left edge plus the next
integer above it plus twice the scale plus one spacing at the right edge. -/
theorem cov_box_excess (s d i : Nat) (hi : i < d) (hds : d ≤ s) (hs : s < 2 ^ 52) :
    2 * cov_edge s d (i + 1) ≤
      cov_edge s d i + (cov_edge s d i / dblOne + 1) * dblOne + 2 * cov_scale s d +
        dblGranule ((i + 1) * cov_scale s d) := by
  have hp := dblOne_pos
  have hB := cov_edge_eq s d (i + 1) (by omega)
  have hA := cov_edge_eq s d i (by omega)
  have hFL := cov_floor_lt s d i hi hds hs
  have hAw : cov_edge s d i < (cov_edge s d i / dblOne + 1) * dblOne := by
    have := Nat.lt_div_mul_add (a := cov_edge s d i) hp
    calc cov_edge s d i < cov_edge s d i / dblOne * dblOne + dblOne := this
      _ = (cov_edge s d i / dblOne + 1) * dblOne := by ring
  have hwrep : dblRep ((cov_edge s d i / dblOne + 1) * dblOne) := dblRep_nat _ (by omega)
  generalize cov_scale s d = sf at *
  generalize cov_edge s d i = L at *
  generalize cov_edge s d (i + 1) = R at *
  have herr := dblRound_err_up ((i + 1) * dblOne * sf) dblOne
  rw [← hB] at herr
  have hq : (i + 1) * dblOne * sf / dblOne = (i + 1) * sf := by
    have e : (i + 1) * dblOne * sf = (i + 1) * sf * dblOne := by ring
    rw [e, Nat.mul_div_cancel _ hp]
  rw [hq] at herr
  have h1 : 2 * R * dblOne ≤ (2 * (i * sf) + 2 * sf + dblGranule ((i + 1) * sf)) * dblOne := by
    calc 2 * R * dblOne = 2 * (R * dblOne) := by ring
      _ ≤ 2 * ((i + 1) * dblOne * sf) + dblOne * dblGranule ((i + 1) * sf) := herr
      _ = (2 * (i * sf) + 2 * sf + dblGranule ((i + 1) * sf)) * dblOne := by ring
  have h2 := Nat.le_of_mul_le_mul_right h1 hp
  have hmid := dblRound_mid_above (i * dblOne * sf) dblOne ((L / dblOne + 1) * dblOne) hp
    hwrep (by rw [← hA]; exact hAw)
  rw [← hA] at hmid
  have h4 : 2 * (i * sf) * dblOne ≤ (L + (L / dblOne + 1) * dblOne) * dblOne := by
    calc 2 * (i * sf) * dblOne = 2 * (i * dblOne * sf) := by ring
      _ ≤ (L + (L / dblOne + 1) * dblOne) * dblOne := hmid
  have h3 := Nat.le_of_mul_le_mul_right h4 hp
  generalize (L / dblOne + 1) * dblOne = w at *
  generalize i * sf = X at *
  generalize dblGranule ((i + 1) * sf) = g at *
  omega

/-- What a box that overdraws its budget would need: the spacing at the right
edge exceeds the distance of the left edge from the next integer by more than
`2 ^ (-23) * (s / d)`. -/
theorem cov_overdraw (s d i : Nat) (hi : i < d) (hds : d ≤ s) (hs : s < 2 ^ 52)
    (hbad : (2 ^ 52 + 2 ^ 28 - 1) * dblOne <
      2 ^ 28 * (16777216 * d / s *
        (cov_edge s d (i + 1) - (cov_edge s d i / dblOne + 1) * dblOne))) :
    (2 ^ 52 + 2 ^ 28 - 1) * (s * dblOne) <
        2 ^ 52 * (d * (cov_edge s d (i + 1) - (cov_edge s d i / dblOne + 1) * dblOne)) ∧
      (2 ^ 29 - 3) * (s * dblOne) +
          2 ^ 52 * (d * ((cov_edge s d i / dblOne + 1) * dblOne - cov_edge s d i)) <
        2 ^ 52 * (d * dblGranule ((i + 1) * cov_scale s d)) := by
  have hp := dblOne_pos
  have hd : 0 < d := by omega
  have hs0 : 0 < s := by omega
  have hle := cov_scale_le s d hd hds (by omega)
  have hex := cov_box_excess s d i hi hds hs
  have hstep := cov_floor_step s d i hi hds hs
  have hrs : 16777216 * d / s * s ≤ 16777216 * d := Nat.div_mul_le_self _ _
  have hAw : cov_edge s d i < (cov_edge s d i / dblOne + 1) * dblOne := by
    have := Nat.lt_div_mul_add (a := cov_edge s d i) hp
    calc cov_edge s d i < cov_edge s d i / dblOne * dblOne + dblOne := this
      _ = (cov_edge s d i / dblOne + 1) * dblOne := by ring
  have hwB : (cov_edge s d i / dblOne + 1) * dblOne ≤ cov_edge s d (i + 1) :=
    calc (cov_edge s d i / dblOne + 1) * dblOne
        ≤ cov_edge s d (i + 1) / dblOne * dblOne := Nat.mul_le_mul_right _ hstep
      _ ≤ cov_edge s d (i + 1) := Nat.div_mul_le_self _ _
  generalize cov_scale s d = sf at *
  generalize cov_edge s d i = L at *
  generalize cov_edge s d (i + 1) = R at *
  generalize hw : (L / dblOne + 1) * dblOne = w at *
  generalize hg : dblGranule ((i + 1) * sf) = g at *
  generalize hr : 16777216 * d / s = r at *
  have hX : 2 * (R - w) + (w - L) ≤ 2 * sf + g := by omega
  have hdX : 2 * (d * (R - w)) + d * (w - L) ≤ 2 * (sf * d) + d * g := by
    calc 2 * (d * (R - w)) + d * (w - L) = d * (2 * (R - w) + (w - L)) := by ring
      _ ≤ d * (2 * sf + g) := Nat.mul_le_mul_left _ hX
      _ = 2 * (sf * d) + d * g := by ring
  have h1 : (2 ^ 52 + 2 ^ 28 - 1) * (s * dblOne) < 2 ^ 52 * (d * (R - w)) := by
    have a1 : (2 ^ 52 + 2 ^ 28 - 1) * dblOne * s < 2 ^ 28 * (r * (R - w)) * s :=
      Nat.mul_lt_mul_of_pos_right hbad hs0
    have a2 : r * s * (R - w) ≤ 16777216 * d * (R - w) := Nat.mul_le_mul_right _ hrs
    calc (2 ^ 52 + 2 ^ 28 - 1) * (s * dblOne) = (2 ^ 52 + 2 ^ 28 - 1) * dblOne * s := by ring
      _ < 2 ^ 28 * (r * (R - w)) * s := a1
      _ = 2 ^ 28 * (r * s * (R - w)) := by ring
      _ ≤ 2 ^ 28 * (16777216 * d * (R - w)) := Nat.mul_le_mul_left _ a2
      _ = 2 ^ 52 * (d * (R - w)) := by ring
  refine ⟨h1, ?_⟩
  generalize d * (R - w) = dX at *
  generalize d * (w - L) = dl at *
  generalize sf * d = dsf at *
  generalize d * g = dg at *
  generalize s * dblOne = S at *
  omega

/-- The exact product `i * scale` is at most the midpoint of the left edge and
the next integer above it. -/
theorem cov_left_mid (s d i : Nat) (hi : i < d) (hds : d ≤ s) (hs : s < 2 ^ 52) :
    2 * (i * cov_scale s d) ≤ cov_edge s d i + (cov_edge s d i / dblOne + 1) * dblOne := by
  have hp := dblOne_pos
  have hA := cov_edge_eq s d i (by omega)
  have hFL := cov_floor_lt s d i hi hds hs
  have hAw : cov_edge s d i < (cov_edge s d i / dblOne + 1) * dblOne := by
    have := Nat.lt_div_mul_add (a := cov_edge s d i) hp
    calc cov_edge s d i < cov_edge s d i / dblOne * dblOne + dblOne := this
      _ = (cov_edge s d i / dblOne + 1) * dblOne := by ring
  have hwrep : dblRep ((cov_edge s d i / dblOne + 1) * dblOne) := dblRep_nat _ (by omega)
  generalize cov_scale s d = sf at *
  generalize cov_edge s d i = L at *
  have hmid := dblRound_mid_above (i * dblOne * sf) dblOne ((L / dblOne + 1) * dblOne) hp
    hwrep (by rw [← hA]; exact hAw)
  rw [← hA] at hmid
  have h4 : 2 * (i * sf) * dblOne ≤ (L + (L / dblOne + 1) * dblOne) * dblOne := by
    calc 2 * (i * sf) * dblOne = 2 * (i * dblOne * sf) := by ring
      _ ≤ (L + (L / dblOne + 1) * dblOne) * dblOne := hmid
  exact Nat.le_of_mul_le_mul_right h4 hp

/-- The distance of the left edge from the next integer is a multiple of the
spacing `2 ^ (a - 52)` when the left edge is at least `2 ^ a`. -/
theorem cov_left_fract_dvd (s d i a : Nat) (ha : a ≤ 52)
    (h : 2 ^ a * dblOne ≤ cov_edge s d i) :
    2 ^ a * dblEps ∣ (cov_edge s d i / dblOne + 1) * dblOne - cov_edge s d i := by
  have h1 : 2 ^ a * dblEps ∣ cov_edge s d i :=
    Dvd.dvd.trans (dblGranule_ge_binade a _ h) (dblRep_edge s d i)
  have h2 : 2 ^ a * dblEps ∣ dblOne := by
    rw [← dblEps_mul]
    exact Nat.mul_dvd_mul (Nat.pow_dvd_pow 2 ha) (Nat.dvd_refl _)
  exact Nat.dvd_sub' (Dvd.dvd.mul_left h2 _) h1

/-- No box overdraws its budget: `ratio * (count + right_fract)` stays below
`2 ^ 24 + 1 - 2 ^ (-28)`. -/
theorem cov_no_overdraw (s d i : Nat) (hi : i < d) (hds : d ≤ s) (hs : s < 2 ^ 31) :
    2 ^ 28 * (16777216 * d / s *
        (cov_edge s d (i + 1) - (cov_edge s d i / dblOne + 1) * dblOne)) ≤
      (2 ^ 52 + 2 ^ 28 - 1) * dblOne := by
  by_contra hcon
  have hs52 : s < 2 ^ 52 := by omega
  obtain ⟨h1, h2⟩ := cov_overdraw s d i hi hds hs52 (Nat.lt_of_not_le hcon)
  have hp := dblOne_pos
  have hd : 0 < d := by omega
  obtain ⟨j, hj, heps⟩ := dblEps_eq_pow
  have hE : 0 < dblEps := by
    rw [heps]
    exact Nat.pow_pos (by norm_num)
  have hO := dblEps_mul
  have h53 := two_pow_le_dblOne
  have hle := cov_scale_le s d hd hds (by omega)
  have hge := cov_scale_ge s d hd hds (by omega)
  have hex := cov_box_excess s d i hi hds hs52
  have hmid := cov_left_mid s d i hi hds hs52
  have hstep := cov_floor_step s d i hi hds hs52
  have hAw : cov_edge s d i < (cov_edge s d i / dblOne + 1) * dblOne := by
    have := Nat.lt_div_mul_add (a := cov_edge s d i) hp
    calc cov_edge s d i < cov_edge s d i / dblOne * dblOne + dblOne := this
      _ = (cov_edge s d i / dblOne + 1) * dblOne := by ring
  have hwA : (cov_edge s d i / dblOne + 1) * dblOne ≤ cov_edge s d i + dblOne := by
    have := Nat.div_mul_le_self (cov_edge s d i) dblOne
    calc (cov_edge s d i / dblOne + 1) * dblOne
        = cov_edge s d i / dblOne * dblOne + dblOne := by ring
      _ ≤ cov_edge s d i + dblOne := Nat.add_le_add_right this _
  have hwB : (cov_edge s d i / dblOne + 1) * dblOne ≤ cov_edge s d (i + 1) :=
    calc (cov_edge s d i / dblOne + 1) * dblOne
        ≤ cov_edge s d (i + 1) / dblOne * dblOne := Nat.mul_le_mul_right _ hstep
      _ ≤ cov_edge s d (i + 1) := Nat.div_mul_le_self _ _
  have hgone := dblGranule_one_or ((i + 1) * cov_scale s d)
  have hP : (i + 1) * cov_scale s d ≤ cov_scale s d * d := by
    calc (i + 1) * cov_scale s d ≤ d * cov_scale s d := Nat.mul_le_mul_right _ (by omega)
      _ = cov_scale s d * d := Nat.mul_comm _ _
  have hPi : (i + 1) * cov_scale s d = i * cov_scale s d + cov_scale s d := by ring
  have hg52 : 2 ^ 52 * dblGranule ((i + 1) * cov_scale s d) ≤ cov_scale s d * d := by
    rcases hgone with hg1 | hg1
    · rw [hg1]
      have : cov_scale s d * 1 ≤ cov_scale s d * d := Nat.mul_le_mul_left _ hd
      omega
    · omega
  have hdg : 2 ^ 52 * (d * dblGranule ((i + 1) * cov_scale s d)) ≤ d * (cov_scale s d * d) := by
    calc 2 ^ 52 * (d * dblGranule ((i + 1) * cov_scale s d))
        = d * (2 ^ 52 * dblGranule ((i + 1) * cov_scale s d)) := by ring
      _ ≤ d * (cov_scale s d * d) := Nat.mul_le_mul_left _ hg52
  by_cases hd28 : d ≤ 2 ^ 28
  · have h3 : d * (cov_scale s d * d) ≤ 2 ^ 28 * (cov_scale s d * d) :=
      Nat.mul_le_mul_right _ hd28
    omega
  · have hSO : s * dblOne ≤ (2 ^ 31 - 1) * dblOne := Nat.mul_le_mul_right _ (by omega)
    have hdO : d * dblOne ≤ s * dblOne := Nat.mul_le_mul_right _ hds
    have hsfd : cov_scale s d * (2 ^ 28 + 1) ≤ cov_scale s d * d :=
      Nat.mul_le_mul_left _ (by omega)
    have hsf9 : cov_scale s d < 9 * dblOne := by omega
    have hP31 : (i + 1) * cov_scale s d < 2 ^ (30 + 1) * dblOne := by
      have : (2 : Nat) ^ (30 + 1) = 2147483648 := by norm_num
      rw [this]
      omega
    have hg30 := dblGranule_le_binade 30 _ hP31
    have h3 : d * ((2 ^ 29 - 3) * dblOne +
        2 ^ 52 * ((cov_edge s d i / dblOne + 1) * dblOne - cov_edge s d i)) <
        d * (2 ^ 52 * dblGranule ((i + 1) * cov_scale s d)) := by
      have e1 : d * ((2 ^ 29 - 3) * dblOne +
          2 ^ 52 * ((cov_edge s d i / dblOne + 1) * dblOne - cov_edge s d i)) =
          (2 ^ 29 - 3) * (d * dblOne) +
            2 ^ 52 * (d * ((cov_edge s d i / dblOne + 1) * dblOne - cov_edge s d i)) := by
        ring
      have e2 : d * (2 ^ 52 * dblGranule ((i + 1) * cov_scale s d)) =
          2 ^ 52 * (d * dblGranule ((i + 1) * cov_scale s d)) := by ring
      rw [e1, e2]
      omega
    have h4 := Nat.lt_of_mul_lt_mul_left h3
    have h5 : (2 ^ 29 - 3) * dblEps +
        ((cov_edge s d i / dblOne + 1) * dblOne - cov_edge s d i) <
        dblGranule ((i + 1) * cov_scale s d) := by omega
    have hlfpos : 0 < (cov_edge s d i / dblOne + 1) * dblOne - cov_edge s d i := by omega
    by_cases hP29 : (i + 1) * cov_scale s d < 2 ^ (28 + 1) * dblOne
    · have hg28 := dblGranule_le_binade 28 _ hP29
      omega
    · have e29 : (2 : Nat) ^ (28 + 1) = 536870912 := by norm_num
      rw [e29] at hP29
      by_cases hP30 : (i + 1) * cov_scale s d < 2 ^ (29 + 1) * dblOne
      · have hg29 := dblGranule_le_binade 29 _ hP30
        have hL28 : 2 ^ 28 * dblOne ≤ cov_edge s d i := by omega
        have hdvd := cov_left_fract_dvd s d i 28 (by norm_num) hL28
        have hlfge := Nat.le_of_dvd hlfpos hdvd
        omega
      · have e30 : (2 : Nat) ^ (29 + 1) = 1073741824 := by norm_num
        rw [e30] at hP30
        have hL29 : 2 ^ 29 * dblOne ≤ cov_edge s d i := by omega
        have hdvd := cov_left_fract_dvd s d i 29 (by norm_num) hL29
        have hlfge := Nat.le_of_dvd hlfpos hdvd
        have hlf : (cov_edge s d i / dblOne + 1) * dblOne - cov_edge s d i = 2 ^ 29 * dblEps := by
          obtain ⟨t, ht⟩ := hdvd
          have ht2 : t < 2 := by
            by_contra hc
            have : 2 ^ 29 * dblEps * 2 ≤ 2 ^ 29 * dblEps * t :=
              Nat.mul_le_mul_left _ (by omega)
            omega
          have ht1 : t = 1 := by
            rcases Nat.eq_zero_or_pos t with h0 | h0
            · rw [h0, Nat.mul_zero] at ht
              omega
            · omega
          rw [ht, ht1, Nat.mul_one]
        have hgdvd := dblGranule_ge_binade 30 ((i + 1) * cov_scale s d) (by omega)
        have hgge := Nat.le_of_dvd (dblGranule_pos _) hgdvd
        have hgeq : dblGranule ((i + 1) * cov_scale s d) = 2 ^ 30 * dblEps := by omega
        have hQO : 2 ^ 30 * dblEps * 2 ^ 22 = dblOne := by
          rw [← hO]
          ring
        have hgR : 2 ^ 30 * dblEps ∣ cov_edge s d (i + 1) := by
          have hB := cov_edge_eq s d (i + 1) (by omega)
          have hq : (i + 1) * dblOne * cov_scale s d / dblOne = (i + 1) * cov_scale s d := by
            have e : (i + 1) * dblOne * cov_scale s d = (i + 1) * cov_scale s d * dblOne := by
              ring
            rw [e, Nat.mul_div_cancel _ hp]
          have := dblGranule_dvd_round ((i + 1) * dblOne * cov_scale s d) dblOne
          rw [hq, hgeq, ← hB] at this
          exact this
        have hgw : 2 ^ 30 * dblEps ∣ (cov_edge s d i / dblOne + 1) * dblOne :=
          Dvd.dvd.mul_left (Dvd.intro _ hQO) _
        have hQX := Nat.dvd_sub' hgR hgw
        rw [hgeq] at hex h2
        have e1 : d * (2 ^ 30 * dblEps) = 2 ^ 30 * (d * dblEps) := by ring
        have e2 : d * (2 ^ 29 * dblEps) = 2 ^ 29 * (d * dblEps) := by ring
        have e3 : d * dblOne = 2 ^ 52 * (d * dblEps) := by
          rw [← hO]
          ring
        rw [hlf, e1, e2] at h2
        have hdE : 0 < d * dblEps := Nat.mul_pos hd hE
        by_cases hXO : cov_edge s d (i + 1) - (cov_edge s d i / dblOne + 1) * dblOne ≤ dblOne
        · have h6 : d * (cov_edge s d (i + 1) - (cov_edge s d i / dblOne + 1) * dblOne) ≤
              d * dblOne := Nat.mul_le_mul_left _ hXO
          omega
        · obtain ⟨u, hu⟩ := hQX
          have hu1 : 2 ^ 22 < u := by
            have h7 : 2 ^ 30 * dblEps * 2 ^ 22 < 2 ^ 30 * dblEps * u := by
              rw [hQO, ← hu]
              omega
            exact Nat.lt_of_mul_lt_mul_left h7
          have h8 : 2 ^ 30 * dblEps * (2 ^ 22 + 1) ≤ 2 ^ 30 * dblEps * u :=
            Nat.mul_le_mul_left _ (by omega)
          have h9 : dblOne + 2 ^ 30 * dblEps ≤
              cov_edge s d (i + 1) - (cov_edge s d i / dblOne + 1) * dblOne := by
            rw [hu]
            calc dblOne + 2 ^ 30 * dblEps = 2 ^ 30 * dblEps * (2 ^ 22 + 1) := by
                  rw [← hQO]
                  ring
              _ ≤ 2 ^ 30 * dblEps * u := h8
          have h10 : dblOne + 3 * 2 ^ 28 * dblEps ≤ cov_scale s d := by omega
          have h11 : (dblOne + 3 * 2 ^ 28 * dblEps) * d ≤ cov_scale s d * d :=
            Nat.mul_le_mul_right _ h10
          have e4 : (dblOne + 3 * 2 ^ 28 * dblEps) * d =
              d * dblOne + 3 * 2 ^ 28 * (d * dblEps) := by ring
          rw [e4] at h11
          omega

theorem cov_overage_eq (s d i : Nat) (hds : d ≤ s) :
    cov_overage s d i =
      dblMul (16777216 * d / s * dblOne) (cov_edge s d (i + 1) % dblOne) / dblOne := by
  have hrle := coverage_ratio_le s d hds
  unfold cov_overage
  rw [coverage_ratio_toNat, dblOfNat_eq _ (by omega)]

/-- The weights of a box after its first element fit into `1 << 24`. -/
theorem cov_budget_le (s d i : Nat) (hi : i < d) (hds : d ≤ s) (hs : s < 2 ^ 31) :
    (cov_edge s d (i + 1) / dblOne - cov_edge s d i / dblOne - 1) * (16777216 * d / s) +
      cov_overage s d i ≤ 2 ^ 24 := by
  have hp := dblOne_pos
  have hno := cov_no_overdraw s d i hi hds hs
  have hstep := cov_floor_step s d i hi hds (by omega)
  have hX : cov_edge s d (i + 1) - (cov_edge s d i / dblOne + 1) * dblOne =
      (cov_edge s d (i + 1) / dblOne - cov_edge s d i / dblOne - 1) * dblOne +
        cov_edge s d (i + 1) % dblOne := by
    have h1 := Nat.div_add_mod (cov_edge s d (i + 1)) dblOne
    have h2 : cov_edge s d (i + 1) / dblOne =
        (cov_edge s d (i + 1) / dblOne - cov_edge s d i / dblOne - 1) +
          (cov_edge s d i / dblOne + 1) := by omega
    have h3 : dblOne * (cov_edge s d (i + 1) / dblOne) =
        (cov_edge s d (i + 1) / dblOne - cov_edge s d i / dblOne - 1) * dblOne +
          (cov_edge s d i / dblOne + 1) * dblOne := by
      rw [← Nat.add_mul, ← h2, Nat.mul_comm]
    omega
  rw [hX] at hno
  rw [cov_overage_eq s d i hds]
  exact overage_floor _ _ _ hno

/-- Claim C2: for `1 <= d <= s` (both `int`, so below `2 ^ 31`) every entry
`coverage[i]`, `0 <= i < d`, that `compute_coverage(s, d)` writes satisfies
`0 <= coverage[i] <= 1 << 24`. -/
theorem coverage_in_range (coverage : Nat → Int) (s d i : Nat) (hds : d ≤ s)
    (hs : s < 2 ^ 31) (hi : i < d) :
    0 ≤ (compute_coverage coverage s d).1 i ∧
      (compute_coverage coverage s d).1 i ≤ (1 <<< 24 : Int) := by
  have hU : UNIT = (1 <<< 24 : Int) := rfl
  have hle := coverage_entry_le_unit s d i hi hds (by omega)
  have hb := cov_budget_le s d i hi hds hs
  rw [compute_coverage_fst coverage s d i hi, ← hU]
  refine ⟨?_, hle⟩
  rw [coverage_entry_eq, coverage_ratio_cast]
  have hb1 : (((cov_edge s d (i + 1) / dblOne - cov_edge s d i / dblOne - 1) *
      (16777216 * d / s) + cov_overage s d i : Nat) : Int) ≤ ((2 ^ 24 : Nat) : Int) := by
    exact_mod_cast hb
  have hstep := cov_floor_step s d i hi hds (by omega)
  push_cast at hb1
  have e : ((cov_edge s d (i + 1) / dblOne : Nat) : Int) - ((cov_edge s d i / dblOne : Nat) : Int)
      - 1 = ((cov_edge s d (i + 1) / dblOne - cov_edge s d i / dblOne - 1 : Nat) : Int) := by
    omega
  rw [e]
  push_cast
  linarith

theorem coverage_in_range_witness :
    0 ≤ (compute_coverage (fun _ => 0) 4 3).1 2 ∧
      (compute_coverage (fun _ => 0) 4 3).1 2 ≤ (1 <<< 24 : Int) :=
  coverage_in_range (fun _ => 0) 4 3 2 (by decide) (by decide) (by decide)

/-! ## Accumulators as weighted sums -/

theorem box_accum_cons (w : Int) (ws : List Int) (p : Nat) (ps : List Nat) :
    box_accum (w :: ws) (p :: ps) = accum_weights (accum_first p w) ws ps := rfl

theorem accum_chan_add (acc : Accum) (p : Nat) (w : Int) (sh : Nat) (hsh : sh ∈ [24, 16, 8, 0]) :
    accum_chan (accum_add acc p w) sh = u32 (accum_chan acc sh + chan p sh * w) := by
  simp only [List.mem_cons, List.mem_singleton, List.not_mem_nil, or_false] at hsh
  rcases hsh with h | h | h | h <;> subst h <;> rfl

theorem accum_chan_first (p : Nat) (w : Int) (sh : Nat) (hsh : sh ∈ [24, 16, 8, 0]) :
    accum_chan (accum_first p w) sh = u32 (chan p sh * w) := by
  simp only [List.mem_cons, List.mem_singleton, List.not_mem_nil, or_false] at hsh
  rcases hsh with h | h | h | h <;> subst h <;> rfl

theorem accum_chan_lt (acc : Accum) (ha : acc.a < 4294967296) (hr : acc.r < 4294967296)
    (hg : acc.g < 4294967296) (hb : acc.b < 4294967296) (sh : Nat) :
    accum_chan acc sh < 4294967296 := by
  unfold accum_chan
  split
  · exact ha
  · split
    · exact hr
    · split
      · exact hg
      · exact hb

theorem chan_accum_chan (acc : Accum) (ha : acc.a < 4294967296) (hr : acc.r < 4294967296)
    (hg : acc.g < 4294967296) (hb : acc.b < 4294967296) (sh : Nat)
    (hsh : sh ∈ [24, 16, 8, 0]) :
    chan (accum_pack acc) sh = accum_chan acc sh / 16777216 := by
  obtain ⟨h24, h16, h8, h0⟩ := chan_accum_pack acc ha hr hg hb
  simp only [List.mem_cons, List.mem_singleton, List.not_mem_nil, or_false] at hsh
  rcases hsh with h | h | h | h <;> subst h
  · exact h24
  · exact h16
  · exact h8
  · exact h0

/-- With weights that are not negative and small enough for the sums to stay
below `2 ^ 32`, the accumulator of a channel is the exact weighted sum. -/
theorem accum_weights_chan (sh : Nat) (hsh : sh ∈ [24, 16, 8, 0]) (ws : List Int) :
    ∀ (ps : List Nat) (acc : Accum) (A : Int), (∀ w ∈ ws, 0 ≤ w) →
      (accum_chan acc sh : Int) = A → A + 255 * ws.sum < 4294967296 →
      (accum_chan (accum_weights acc ws ps) sh : Int) = A + weighted sh ws ps := by
  induction ws with
  | nil =>
    intro ps acc A _ hA _
    simp [accum_weights, weighted, hA]
  | cons w ws ih =>
    intro ps acc A hw hA hlt
    cases ps with
    | nil => simp [accum_weights, weighted, hA]
    | cons p ps =>
      have hw0 : 0 ≤ w := hw w (List.mem_cons_self _ _)
      have hws : ∀ v ∈ ws, 0 ≤ v := fun v hv => hw v (List.mem_cons_of_mem _ hv)
      have hsum : 0 ≤ ws.sum := List.sum_nonneg hws
      have hc := chan_lt p sh
      have hA0 : 0 ≤ A := by
        rw [← hA]
        exact Int.ofNat_nonneg _
      have hcw : (chan p sh : Int) * w ≤ 255 * w :=
        mul_le_mul_of_nonneg_right (by omega) hw0
      have hcw0 : 0 ≤ (chan p sh : Int) * w := mul_nonneg (Int.ofNat_nonneg _) hw0
      simp only [List.sum_cons] at hlt
      simp only [accum_weights, weighted]
      rw [ih ps (accum_add acc p w) (A + chan p sh * w) hws ?_ (by linarith)]
      · ring
      · rw [accum_chan_add acc p w sh hsh, hA]
        unfold u32
        have h1 : (A + chan p sh * w) % 4294967296 = A + chan p sh * w :=
          Int.emod_eq_of_lt (by linarith) (by linarith)
        rw [h1, Int.toNat_of_nonneg (by linarith)]

theorem weighted_bounds (sh m M : Nat) (ws : List Int) :
    ∀ ps : List Nat, (∀ w ∈ ws, 0 ≤ w) → ws.length ≤ ps.length →
      (∀ p ∈ ps.take ws.length, m ≤ chan p sh ∧ chan p sh ≤ M) →
      m * ws.sum ≤ weighted sh ws ps ∧ weighted sh ws ps ≤ M * ws.sum := by
  induction ws with
  | nil =>
    intro ps _ _ _
    simp [weighted]
  | cons w ws ih =>
    intro ps hw hlen hp
    cases ps with
    | nil => simp at hlen
    | cons p ps =>
      have hw0 : 0 ≤ w := hw w (List.mem_cons_self _ _)
      have hws : ∀ v ∈ ws, 0 ≤ v := fun v hv => hw v (List.mem_cons_of_mem _ hv)
      simp only [List.length_cons, List.take_succ_cons, List.mem_cons, forall_eq_or_imp] at hp
      obtain ⟨h1, h2⟩ := ih ps hws (by simpa using hlen) hp.2
      have h3 : (m : Int) * w ≤ w * chan p sh := by
        rw [mul_comm]
        exact mul_le_mul_of_nonneg_left (by exact_mod_cast hp.1.1) hw0
      have h4 : w * chan p sh ≤ (M : Int) * w := by
        rw [mul_comm (M : Int)]
        exact mul_le_mul_of_nonneg_left (by exact_mod_cast hp.1.2) hw0
      simp only [weighted, List.sum_cons]
      constructor <;> linarith

theorem accum_weights_append (ws2 : List Int) (ws1 : List Int) :
    ∀ (acc : Accum) (ps : List Nat), ws1.length ≤ ps.length →
      accum_weights acc (ws1 ++ ws2) ps =
        accum_weights (accum_weights acc ws1 ps) ws2 (ps.drop ws1.length) := by
  induction ws1 with
  | nil =>
    intro acc ps _
    cases ps <;> cases ws2 <;> simp [accum_weights]
  | cons w ws1 ih =>
    intro acc ps hlen
    cases ps with
    | nil => simp at hlen
    | cons p ps =>
      simp only [List.cons_append, accum_weights, List.length_cons, List.drop_succ_cons]
      exact ih _ ps (by simpa using hlen)

theorem row_inner_accum (r ov : Int) (h0 : 0 ≤ ov) (hlt : ov < r) (cnt : Nat) :
    ∀ (acc : Accum) (src : List Nat), cnt ≤ src.length →
      row_inner r (cnt * r + ov) acc src =
        (ov, accum_weights acc (List.replicate cnt r) src, src.drop cnt) := by
  induction cnt with
  | zero =>
    intro acc src _
    cases src with
    | nil => simp [row_inner, accum_weights]
    | cons p src =>
      simp only [row_inner, Nat.cast_zero, zero_mul, zero_add, List.replicate_zero,
        accum_weights, List.drop_zero]
      rw [if_neg (by omega)]
  | succ cnt ih =>
    intro acc src hlen
    cases src with
    | nil => simp at hlen
    | cons p src =>
      have hnn : (0 : Int) ≤ cnt * r := mul_nonneg (Int.ofNat_nonneg _) (by omega)
      have e : ((cnt + 1 : Nat) : Int) * r + ov - r = cnt * r + ov := by
        push_cast
        ring
      simp only [row_inner, List.replicate_succ, accum_weights, List.drop_succ_cons]
      rw [if_pos (by push_cast; linarith), e]
      exact ih _ src (by simpa using hlen)

theorem row_leftover_eq (box : Int) (acc : Accum) (src : List Nat) :
    row_leftover box acc src = accum_weights acc (row_leftover_weights box src) src := by
  cases src with
  | nil => simp [row_leftover, row_leftover_weights, accum_weights]
  | cons p src =>
    simp only [row_leftover, row_leftover_weights]
    split <;> simp [accum_weights]

/-! ## The pixels of a row under the tables of compute_coverage -/

/-- The row filter stores, for each index `i`, the pixel that the weights of box
`i` give on the source pixels from `floor(i * scale)` on. -/
theorem row_main_run (c0 : Nat → Int) (s d : Nat) (hds : d ≤ s) (hs : s < 2 ^ 52)
    (hr : 0 < 16777216 * d / s) (full : List Nat) (hfull : full.length = s) (todo : Nat) :
    ∀ x : Nat, x + todo ≤ d →
      row_main (compute_coverage c0 s d).1 (compute_coverage c0 s d).2 todo x
          (full.drop (cov_edge s d x / dblOne)) =
        (List.range' x todo).map
          (fun i => box_pixel (box_weights s d i) (full.drop (cov_edge s d i / dblOne))) := by
  induction todo with
  | zero => exact fun _ _ => by simp [row_main]
  | succ todo ih =>
    intro x hx
    have hxd : x < d := by omega
    have hlt := cov_floor_lt s d x hxd hds hs
    have hle := cov_floor_le s d (x + 1) (by omega) (by omega) hds hs
    have hstep := cov_floor_step s d x hxd hds hs
    have hov := cov_overage_lt s d x hxd hds hs hr
    have hbox := coverage_entry_box s d x hxd hds hs
    have hov1 : ((cov_overage s d x : Nat) : Int) < coverage_ratio s d := by
      rw [coverage_ratio_cast]
      exact_mod_cast hov
    obtain ⟨p, hdrop⟩ : ∃ p, full.drop (cov_edge s d x / dblOne) =
        p :: full.drop (cov_edge s d x / dblOne + 1) :=
      ⟨_, List.drop_eq_getElem_cons (by omega)⟩
    have ih1 := ih (x + 1) (by omega)
    have hcov := compute_coverage_fst c0 s d x hxd
    have hpc : (compute_coverage c0 s d).2 = coverage_ratio s d := rfl
    generalize ha : cov_edge s d x / dblOne = a at *
    generalize hb : cov_edge s d (x + 1) / dblOne = b at *
    have hrestlen : (full.drop (a + 1)).length = s - (a + 1) := by
      rw [List.length_drop, hfull]
    have hcnt : b - a - 1 ≤ (full.drop (a + 1)).length := by omega
    have hrun : row_inner (compute_coverage c0 s d).2 (UNIT - (compute_coverage c0 s d).1 x)
        (accum_first p ((compute_coverage c0 s d).1 x)) (full.drop (a + 1)) =
        (((cov_overage s d x : Nat) : Int),
          accum_weights (accum_first p (coverage_entry s d x))
            (List.replicate (b - a - 1) (coverage_ratio s d)) (full.drop (a + 1)),
          (full.drop (a + 1)).drop (b - a - 1)) := by
      rw [hcov, hbox]
      exact row_inner_accum (coverage_ratio s d) _ (Int.ofNat_nonneg _) hov1 _ _ _ hcnt
    have hnext : (full.drop (a + 1)).drop (b - a - 1) = full.drop b := by
      rw [List.drop_drop]
      congr 1
      omega
    rw [hdrop]
    simp only [row_main, hrun, List.range'_succ, List.map_cons]
    rw [hnext, ih1, List.cons.injEq]
    refine ⟨?_, rfl⟩
    rw [row_leftover_eq, ← hnext, row_leftover_weights_drop]
    unfold box_weights
    rw [ha, hb, hdrop, List.cons_append]
    rw [box_pixel, box_accum_cons]
    rw [accum_weights_append _ _ _ _ (by rw [List.length_replicate]; exact hcnt),
      List.length_replicate]
    congr 3
    have e1 : (b - a - 1 < (full.drop (a + 1)).length ∧
        (0 : Int) < (cov_overage s d x : Nat)) ↔ (b < s ∧ 0 < cov_overage s d x) := by
      rw [hrestlen]
      constructor
      · intro h
        exact ⟨by omega, by exact_mod_cast h.2⟩
      · intro h
        exact ⟨by omega, by exact_mod_cast h.2⟩
    simp only [e1]

theorem coverage_entry_nonneg (s d i : Nat) (hi : i < d) (hds : d ≤ s) (hs : s < 2 ^ 31) :
    0 ≤ coverage_entry s d i := by
  have hb := cov_budget_le s d i hi hds hs
  have hbox := coverage_entry_box s d i hi hds (by omega)
  have hb1 : (((cov_edge s d (i + 1) / dblOne - cov_edge s d i / dblOne - 1) *
      (16777216 * d / s) + cov_overage s d i : Nat) : Int) ≤ ((2 ^ 24 : Nat) : Int) := by
    exact_mod_cast hb
  rw [coverage_ratio_cast] at hbox
  push_cast at hb1
  have hU : UNIT = 16777216 := rfl
  rw [hU] at hbox
  push_cast at hbox
  linarith

theorem box_weights_nonneg (s d i : Nat) (hi : i < d) (hds : d ≤ s) (hs : s < 2 ^ 31) :
    ∀ w ∈ box_weights s d i, 0 ≤ w := by
  intro w hw
  unfold box_weights at hw
  simp only [List.cons_append, List.mem_cons, List.mem_append] at hw
  rcases hw with h | h | h
  · rw [h]
    exact coverage_entry_nonneg s d i hi hds hs
  · rw [List.eq_of_mem_replicate h, coverage_ratio_cast]
    exact Int.ofNat_nonneg _
  · split at h
    · simp only [List.mem_singleton] at h
      rw [h]
      exact Int.ofNat_nonneg _
    · simp at h

theorem box_weights_length (s d i : Nat) (hi : i < d) (hds : d ≤ s) (hs : s < 2 ^ 52) :
    0 < (box_weights s d i).length ∧
      (box_weights s d i).length + cov_edge s d i / dblOne ≤ s := by
  have hle := cov_floor_le s d (i + 1) (by omega) (by omega) hds hs
  have hstep := cov_floor_step s d i hi hds hs
  unfold box_weights
  simp only [List.cons_append, List.length_cons, List.length_append, List.length_replicate]
  split
  · rename_i h
    simp only [List.length_singleton]
    omega
  · simp only [List.length_nil]
    omega

/-- When the weights of box `i` sum to `1 << 24`: at every index but the last,
and at the last one on axes that are not huge. -/
theorem box_weights_sum_unit (s d i : Nat) (hi : i < d) (hds : d ≤ s) (hs : s < 2 ^ 52)
    (h : i + 1 < d ∨ s < 2 ^ 28 ∨ d ≤ 2 ^ 26) : (box_weights s d i).sum = UNIT := by
  rw [box_weights_sum s d i hi hds hs]
  by_cases hlt : cov_edge s d (i + 1) / dblOne < s
  · rw [if_pos hlt, sub_zero]
  · rw [if_neg hlt]
    have hlast : i + 1 = d := by
      by_contra hne
      exact hlt (cov_floor_lt s d (i + 1) (by omega) hds hs)
    have h0 : cov_overage s d i = 0 := by
      rcases h with h | h | h
      · omega
      · exact cov_overage_last s d i hlast hds h (Nat.le_of_not_lt hlt)
      · exact cov_overage_last_small s d i hlast hds hs h (Nat.le_of_not_lt hlt)
    rw [h0]
    simp

theorem box_weights_sum_le (s d i : Nat) (hi : i < d) (hds : d ≤ s) (hs : s < 2 ^ 52) :
    (box_weights s d i).sum ≤ UNIT := by
  rw [box_weights_sum s d i hi hds hs]
  split
  · simp
  · have : (0 : Int) ≤ (cov_overage s d i : Nat) := Int.ofNat_nonneg _
    linarith

/-! ## The channels of a stored pixel -/

theorem box_accum_chan (sh : Nat) (hsh : sh ∈ [24, 16, 8, 0]) (W : List Int) (ps : List Nat)
    (hW : ∀ w ∈ W, 0 ≤ w) (hsum : W.sum ≤ UNIT) :
    (accum_chan (box_accum W ps) sh : Int) = weighted sh W ps := by
  have hU : UNIT = 16777216 := rfl
  rw [hU] at hsum
  cases W with
  | nil =>
    simp only [List.mem_cons, List.mem_singleton, List.not_mem_nil, or_false] at hsh
    rcases hsh with h | h | h | h <;> subst h <;> rfl
  | cons w ws =>
    cases ps with
    | nil =>
      simp only [List.mem_cons, List.mem_singleton, List.not_mem_nil, or_false] at hsh
      rcases hsh with h | h | h | h <;> subst h <;> rfl
    | cons p ps =>
      have hw0 : 0 ≤ w := hW w (List.mem_cons_self _ _)
      have hws : ∀ v ∈ ws, 0 ≤ v := fun v hv => hW v (List.mem_cons_of_mem _ hv)
      have hs0 : 0 ≤ ws.sum := List.sum_nonneg hws
      have hc := chan_lt p sh
      simp only [List.sum_cons] at hsum
      have hcw : (chan p sh : Int) * w ≤ 255 * w :=
        mul_le_mul_of_nonneg_right (by omega) hw0
      have hcw0 : 0 ≤ (chan p sh : Int) * w := mul_nonneg (Int.ofNat_nonneg _) hw0
      rw [box_accum_cons, accum_weights_chan sh hsh ws ps (accum_first p w) (chan p sh * w) hws
        ?_ (by linarith)]
      · simp only [weighted]
        ring
      · rw [accum_chan_first p w sh hsh]
        unfold u32
        have h1 : ((chan p sh : Int) * w) % 4294967296 = chan p sh * w :=
          Int.emod_eq_of_lt hcw0 (by linarith)
        rw [h1, Int.toNat_of_nonneg hcw0]

theorem box_pixel_channel (W : List Int) (ps : List Nat) (sh : Nat) (hsh : sh ∈ [24, 16, 8, 0])
    (hW : ∀ w ∈ W, 0 ≤ w) (hsum : W.sum ≤ UNIT) (hlen : W.length ≤ ps.length) :
    (accum_chan (box_accum W ps) sh : Int) = weighted sh W ps ∧
      0 ≤ weighted sh W ps ∧ weighted sh W ps ≤ 255 * 16777216 ∧
      chan (box_pixel W ps) sh = accum_chan (box_accum W ps) sh / 16777216 ∧
      box_pixel W ps < 4294967296 ∧
      (∀ M, (∀ p ∈ ps.take W.length, chan p sh ≤ M) → chan (box_pixel W ps) sh ≤ M) ∧
      (W.sum = UNIT →
        ∀ m, (∀ p ∈ ps.take W.length, m ≤ chan p sh) → m ≤ chan (box_pixel W ps) sh) := by
  have hU : UNIT = 16777216 := rfl
  have hs0 : 0 ≤ W.sum := List.sum_nonneg hW
  have hacc : ∀ t, t ∈ [24, 16, 8, 0] →
      (accum_chan (box_accum W ps) t : Int) = weighted t W ps ∧ 0 ≤ weighted t W ps ∧
        weighted t W ps ≤ 255 * 16777216 := by
    intro t ht
    have hb := weighted_bounds t 0 255 W ps hW hlen (fun p _ => ⟨Nat.zero_le _, by
      have := chan_lt p t
      omega⟩)
    refine ⟨box_accum_chan t ht W ps hW hsum, ?_, ?_⟩
    · have := hb.1
      simp only [Nat.cast_zero, zero_mul] at this
      exact this
    · have := hb.2
      rw [hU] at hsum
      push_cast at this
      linarith
  have hlt : ∀ t, t ∈ [24, 16, 8, 0] → accum_chan (box_accum W ps) t < 4294967296 := by
    intro t ht
    obtain ⟨h1, _, h3⟩ := hacc t ht
    have : (accum_chan (box_accum W ps) t : Int) < 4294967296 := by
      rw [h1]
      linarith
    exact_mod_cast this
  have hchan : chan (box_pixel W ps) sh = accum_chan (box_accum W ps) sh / 16777216 :=
    chan_accum_chan (box_accum W ps) (hlt 24 (by simp)) (hlt 16 (by simp)) (hlt 8 (by simp))
      (hlt 0 (by simp)) sh hsh
  obtain ⟨h1, h2, h3⟩ := hacc sh hsh
  refine ⟨h1, h2, h3, hchan, accum_pack_lt (box_accum W ps) (hlt 24 (by simp))
    (hlt 16 (by simp)) (hlt 8 (by simp)) (hlt 0 (by simp)), ?_, ?_⟩
  · intro M hM
    have hb := weighted_bounds sh 0 M W ps hW hlen (fun p hp => ⟨Nat.zero_le _, hM p hp⟩)
    rw [hchan]
    have h4 : (accum_chan (box_accum W ps) sh : Int) ≤ M * 16777216 := by
      rw [h1]
      have h5 : (M : Int) * W.sum ≤ M * 16777216 :=
        mul_le_mul_of_nonneg_left (by rw [← hU]; exact hsum) (Int.ofNat_nonneg _)
      linarith [hb.2]
    have h6 : accum_chan (box_accum W ps) sh ≤ M * 16777216 := by exact_mod_cast h4
    omega
  · intro hunit m hm
    have hb := weighted_bounds sh m 255 W ps hW hlen (fun p hp => ⟨hm p hp, by
      have := chan_lt p sh
      omega⟩)
    rw [hchan]
    have h4 : (m : Int) * 16777216 ≤ accum_chan (box_accum W ps) sh := by
      rw [h1]
      have := hb.1
      rw [hunit, hU] at this
      exact this
    have h6 : m * 16777216 ≤ accum_chan (box_accum W ps) sh := by exact_mod_cast h4
    omega

theorem pixel_ext (q p : Nat) (hq : q < 4294967296) (hp : p < 4294967296)
    (h : ∀ sh, sh ∈ [24, 16, 8, 0] → chan q sh = chan p sh) : q = p := by
  have h24 := h 24 (by simp)
  have h16 := h 16 (by simp)
  have h8 := h 8 (by simp)
  have h0 := h 0 (by simp)
  simp only [chan_eq] at h24 h16 h8 h0
  omega

theorem box_pixel_constant (W : List Int) (ps : List Nat) (p0 : Nat) (hW : ∀ w ∈ W, 0 ≤ w)
    (hsum : W.sum = UNIT) (hlen : W.length ≤ ps.length) (hp0 : p0 < 4294967296)
    (hall : ∀ p ∈ ps.take W.length, p = p0) : box_pixel W ps = p0 := by
  have hq := (box_pixel_channel W ps 0 (by simp) hW (by rw [hsum]) hlen).2.2.2.2.1
  apply pixel_ext _ _ hq hp0
  intro sh hsh
  obtain ⟨_, _, _, _, _, hup, hlo⟩ := box_pixel_channel W ps sh hsh hW (by rw [hsum]) hlen
  have h1 := hup (chan p0 sh) (fun p hp => by rw [hall p hp])
  have h2 := hlo hsum (chan p0 sh) (fun p hp => by rw [hall p hp])
  omega

/-- The pixel that the row filter stores for index `i`. -/
theorem row_filter_get (c0 : Nat → Int) (s d i : Nat) (src : List Nat) (hds : d ≤ s)
    (hs : s < 2 ^ 52) (hr : 0 < 16777216 * d / s) (hsrc : src.length = s) (hi : i < d) :
    (downsample_row_box_filter 0 d src (compute_coverage c0 s d).1
        (compute_coverage c0 s d).2)[i]? =
      some (box_pixel (box_weights s d i) (src.drop (cov_edge s d i / dblOne))) := by
  have e : downsample_row_box_filter 0 d src (compute_coverage c0 s d).1
      (compute_coverage c0 s d).2 =
      row_main (compute_coverage c0 s d).1 (compute_coverage c0 s d).2 d 0 src := by
    simp only [downsample_row_box_filter, row_skip, Nat.zero_add, Nat.sub_zero]
  have h := row_main_run c0 s d hds hs hr src hsrc d 0 (by omega)
  rw [cov_edge_zero, Nat.zero_div, List.drop_zero] at h
  rw [e, h, ← List.range_eq_range', List.getElem?_map, List.getElem?_range hi]
  rfl

theorem cov_floor_huge : cov_edge 1549821054 1452203946 1452203945 / dblOne = 1549821052 := by
  decide!

theorem coverage_entry_huge : coverage_entry 1549821054 1452203946 1452203945 = 1056728 := by
  decide!

theorem box_weights_huge :
    box_weights 1549821054 1452203946 1452203945 = [1056728, 15720485] := by
  have e : 1452203945 + 1 = 1452203946 := rfl
  have hr : coverage_ratio 1549821054 1452203946 = 15720485 := by decide
  unfold box_weights
  rw [e, cov_edge_huge, cov_floor_huge, coverage_entry_huge, cov_overage_huge, hr]
  decide

/-- Claim C19, counterexample: a row of 1549821054 pixels that all equal
0x01010101, resampled to 1452203946 pixels (tables of `compute_coverage`): the
last destination pixel, index 1452203945, is 0, each channel one below the
value 1 of every source pixel, both in the call for the whole row and in the
call for that one column.  The weights applied for it are 1056728 and 15720485,
which sum to `(1 << 24) - 3`: the overage 3 of the last box belongs to a pixel
beyond the end of the row. -/
theorem row_filter_constant_last :
    1549821054 ≤ (1 <<< 24) * 1452203946 ∧
      (downsample_row_box_filter 0 1452203946 (List.replicate 1549821054 0x01010101)
        (compute_coverage (fun _ => 0) 1549821054 1452203946).1
        (compute_coverage (fun _ => 0) 1549821054 1452203946).2)[1452203945]? = some 0 ∧
      downsample_row_box_filter 1452203945 1 (List.replicate 1549821054 0x01010101)
        (compute_coverage (fun _ => 0) 1549821054 1452203946).1
        (compute_coverage (fun _ => 0) 1549821054 1452203946).2 = [0] := by
  refine ⟨by decide, ?_, ?_⟩
  · rw [row_filter_get (fun _ => 0) 1549821054 1452203946 1452203945
      (List.replicate 1549821054 0x01010101) (by norm_num) (by norm_num) (by norm_num)
      (List.length_replicate _ _) (by norm_num), cov_floor_huge, box_weights_huge,
      List.drop_replicate]
    decide
  have hskip := row_skip_run (fun _ => 0) 1549821054 1452203946 (by norm_num) (by norm_num)
    (by norm_num) 1452203945 0 (List.replicate 1549821054 0x01010101) (by norm_num)
    (by rw [cov_edge_zero, Nat.zero_div, List.length_replicate])
  rw [Nat.zero_add, cov_floor_huge, cov_edge_zero, Nat.zero_div, Nat.sub_zero] at hskip
  have hmain := row_main_run (fun _ => 0) 1549821054 1452203946 (by norm_num) (by norm_num)
    (by norm_num) (List.replicate 1549821054 0x01010101) (List.length_replicate _ _) 1
    1452203945 (by norm_num)
  rw [cov_floor_huge] at hmain
  have e : downsample_row_box_filter 1452203945 1 (List.replicate 1549821054 0x01010101)
      (compute_coverage (fun _ => 0) 1549821054 1452203946).1
      (compute_coverage (fun _ => 0) 1549821054 1452203946).2 =
      row_main (compute_coverage (fun _ => 0) 1549821054 1452203946).1
        (compute_coverage (fun _ => 0) 1549821054 1452203946).2
        (1452203945 + 1 - (row_skip (compute_coverage (fun _ => 0) 1549821054 1452203946).1
          (compute_coverage (fun _ => 0) 1549821054 1452203946).2 1452203945 0
          (List.replicate 1549821054 0x01010101)).1)
        (row_skip (compute_coverage (fun _ => 0) 1549821054 1452203946).1
          (compute_coverage (fun _ => 0) 1549821054 1452203946).2 1452203945 0
          (List.replicate 1549821054 0x01010101)).1
        (row_skip (compute_coverage (fun _ => 0) 1549821054 1452203946).1
          (compute_coverage (fun _ => 0) 1549821054 1452203946).2 1452203945 0
          (List.replicate 1549821054 0x01010101)).2 := rfl
  rw [e, hskip]
  have e1 : 1452203945 + 1 - 1452203945 = 1 := rfl
  simp only [e1]
  rw [hmain]
  simp only [List.range'_one, List.map_cons, List.map_nil, cov_floor_huge, box_weights_huge,
    List.drop_replicate]
  decide

/-- Claim C19, amended: for a source row of `s` pixels and the tables of
`compute_coverage` with `1 <= d <= s < 2^31` and `s <= (1 << 24) * d`, the row
filter stores for index `i` the pixel built from the weights `box_weights s d i`
and the source pixels from the cursor on.  Each channel accumulator equals the
exact weighted sum of the channel values and stays at most `255 * (1 << 24)`, so
the 32-bit additions never wrap; the stored channel is that sum shifted right by
24, is at most 255, the packed pixel fits 32 bits, and the channel is at most
the maximum of the channel over the consumed pixels.  When the weights sum to
`1 << 24`, which holds for every index but the last and for the last one too
when `s < 2^28` or `d <= 2^26`, the channel is at least the minimum over the
consumed pixels, and consumed pixels all equal to `p0` give the pixel `p0`. -/
theorem row_filter_channels (c0 : Nat → Int) (s d i sh : Nat) (src : List Nat) (hd : 1 ≤ d)
    (hds : d ≤ s) (hs : s < 2 ^ 31) (hr : s ≤ 16777216 * d) (hi : i < d)
    (hsrc : src.length = s) (hsh : sh ∈ [24, 16, 8, 0]) :
    (downsample_row_box_filter 0 d src (compute_coverage c0 s d).1
        (compute_coverage c0 s d).2)[i]? =
        some (box_pixel (box_weights s d i) (src.drop (cov_edge s d i / dblOne))) ∧
      (accum_chan (box_accum (box_weights s d i) (src.drop (cov_edge s d i / dblOne))) sh : Int) =
        weighted sh (box_weights s d i) (src.drop (cov_edge s d i / dblOne)) ∧
      0 ≤ weighted sh (box_weights s d i) (src.drop (cov_edge s d i / dblOne)) ∧
      weighted sh (box_weights s d i) (src.drop (cov_edge s d i / dblOne)) ≤ 255 * 16777216 ∧
      chan (box_pixel (box_weights s d i) (src.drop (cov_edge s d i / dblOne))) sh =
        accum_chan (box_accum (box_weights s d i) (src.drop (cov_edge s d i / dblOne))) sh /
          16777216 ∧
      chan (box_pixel (box_weights s d i) (src.drop (cov_edge s d i / dblOne))) sh ≤ 255 ∧
      box_pixel (box_weights s d i) (src.drop (cov_edge s d i / dblOne)) < 4294967296 ∧
      (∀ M, (∀ p ∈ (src.drop (cov_edge s d i / dblOne)).take (box_weights s d i).length,
          chan p sh ≤ M) →
        chan (box_pixel (box_weights s d i) (src.drop (cov_edge s d i / dblOne))) sh ≤ M) ∧
      ((i + 1 < d ∨ s < 2 ^ 28 ∨ d ≤ 2 ^ 26) →
        (∀ m, (∀ p ∈ (src.drop (cov_edge s d i / dblOne)).take (box_weights s d i).length,
            m ≤ chan p sh) →
          m ≤ chan (box_pixel (box_weights s d i) (src.drop (cov_edge s d i / dblOne))) sh) ∧
        ∀ p0, p0 < 4294967296 →
          (∀ p ∈ (src.drop (cov_edge s d i / dblOne)).take (box_weights s d i).length,
            p = p0) →
          box_pixel (box_weights s d i) (src.drop (cov_edge s d i / dblOne)) = p0) := by
  have hs52 : s < 2 ^ 52 := lt_of_lt_of_le hs (by norm_num)
  have hW := box_weights_nonneg s d i hi hds hs
  have hsum := box_weights_sum_le s d i hi hds hs52
  have hunit := box_weights_sum_unit s d i hi hds hs52
  have hlen0 := box_weights_length s d i hi hds hs52
  have hlen : (box_weights s d i).length ≤ (src.drop (cov_edge s d i / dblOne)).length := by
    rw [List.length_drop, hsrc]
    omega
  have hget := row_filter_get c0 s d i src hds hs52
    (coverage_ratio_pos_of_le s d (by omega) hds hr) hsrc hi
  generalize box_weights s d i = W at *
  generalize src.drop (cov_edge s d i / dblOne) = ps at *
  obtain ⟨h1, h2, h3, h4, h5, h6, h7⟩ := box_pixel_channel W ps sh hsh hW hsum hlen
  refine ⟨hget, h1, h2, h3, h4, ?_, h5, h6, ?_⟩
  · have := chan_lt (box_pixel W ps) sh
    omega
  · intro hcase
    exact ⟨h7 (hunit hcase),
      fun p0 hp0 hall => box_pixel_constant W ps p0 hW (hunit hcase) hlen hp0 hall⟩

/-- Witness for `row_filter_channels`: the row `[1, 2, 3]` resampled to one
pixel, blue channel. -/
theorem row_filter_channels_witness :
    (1 ≤ 1 ∧ 1 ≤ 3 ∧ 3 < 2 ^ 31 ∧ 3 ≤ 16777216 * 1 ∧ 0 < 1 ∧ [1, 2, 3].length = 3 ∧
      0 ∈ [24, 16, 8, 0]) ∧
    ((downsample_row_box_filter 0 1 [1, 2, 3] (compute_coverage (fun _ => 0) 3 1).1
        (compute_coverage (fun _ => 0) 3 1).2)[0]? =
        some (box_pixel (box_weights 3 1 0) ([1, 2, 3].drop (cov_edge 3 1 0 / dblOne))) ∧
      (accum_chan (box_accum (box_weights 3 1 0) ([1, 2, 3].drop (cov_edge 3 1 0 / dblOne))) 0 :
          Int) =
        weighted 0 (box_weights 3 1 0) ([1, 2, 3].drop (cov_edge 3 1 0 / dblOne)) ∧
      0 ≤ weighted 0 (box_weights 3 1 0) ([1, 2, 3].drop (cov_edge 3 1 0 / dblOne)) ∧
      weighted 0 (box_weights 3 1 0) ([1, 2, 3].drop (cov_edge 3 1 0 / dblOne)) ≤
        255 * 16777216 ∧
      chan (box_pixel (box_weights 3 1 0) ([1, 2, 3].drop (cov_edge 3 1 0 / dblOne))) 0 =
        accum_chan (box_accum (box_weights 3 1 0) ([1, 2, 3].drop (cov_edge 3 1 0 / dblOne))) 0 /
          16777216 ∧
      chan (box_pixel (box_weights 3 1 0) ([1, 2, 3].drop (cov_edge 3 1 0 / dblOne))) 0 ≤ 255 ∧
      box_pixel (box_weights 3 1 0) ([1, 2, 3].drop (cov_edge 3 1 0 / dblOne)) < 4294967296 ∧
      (∀ M, (∀ p ∈ ([1, 2, 3].drop (cov_edge 3 1 0 / dblOne)).take (box_weights 3 1 0).length,
          chan p 0 ≤ M) →
        chan (box_pixel (box_weights 3 1 0) ([1, 2, 3].drop (cov_edge 3 1 0 / dblOne))) 0 ≤ M) ∧
      ((0 + 1 < 1 ∨ 3 < 2 ^ 28 ∨ 1 ≤ 2 ^ 26) →
        (∀ m, (∀ p ∈ ([1, 2, 3].drop (cov_edge 3 1 0 / dblOne)).take (box_weights 3 1 0).length,
            m ≤ chan p 0) →
          m ≤ chan (box_pixel (box_weights 3 1 0) ([1, 2, 3].drop (cov_edge 3 1 0 / dblOne))) 0) ∧
        ∀ p0, p0 < 4294967296 →
          (∀ p ∈ ([1, 2, 3].drop (cov_edge 3 1 0 / dblOne)).take (box_weights 3 1 0).length,
            p = p0) →
          box_pixel (box_weights 3 1 0) ([1, 2, 3].drop (cov_edge 3 1 0 / dblOne)) = p0)) :=
  ⟨⟨by decide, by decide, by decide, by decide, by decide, rfl, by decide⟩,
    row_filter_channels (fun _ => 0) 3 1 0 0 [1, 2, 3] (by decide) (by decide) (by decide)
      (by decide) (by decide) rfl (by decide)⟩

/-! ## The entries of the coverage tables that a call reads -/

theorem row_skip_inner_ratio_zero (src : List Nat) :
    ∀ box : Int, 0 ≤ box → (row_skip_inner 0 box src).2 = [] := by
  induction src with
  | nil => exact fun _ _ => rfl
  | cons p src ih =>
    intro box hb
    unfold row_skip_inner
    rw [if_pos hb]
    exact ih _ (by omega)

theorem coverage_ratio_tall : coverage_ratio 16777217 1 = 0 := by decide

theorem coverage_entry_tall : coverage_entry 16777217 1 0 = UNIT := by decide!

theorem filtered_row_tall (x0 : Nat → Int) (y : Nat) :
    filtered_row tall_call (compute_coverage x0 1 1).1 (compute_coverage x0 1 1).2 y = [0] := by
  have hcx := compute_coverage_self x0 1 Nat.one_pos (by omega)
  show downsample_row_box_filter 0 1 [0] (compute_coverage x0 1 1).1 (compute_coverage x0 1 1).2
    = [0]
  rw [hcx.1, row_filter_identity _ 1 [0] (fun i hi => hcx.2 i hi) (by
    intro p hp
    simp only [List.mem_singleton] at hp
    omega)]
  rfl

/-- Claim C14 fails on the code: for 16777217 source rows and one destination
row, sizes in the range of the claim, `temp_buf` is allocated with 16777218
rows, `pixel_coverage_y` is 0 and `box` is 0 after the first row.  The condition
of `while (box >= pixel_coverage_y)` then holds after any number `k` of
iterations, `columns` is `k + 1` there, and the next iteration stores its row
at row `k + 1` of `temp_buf` (shown on a buffer that held 7 everywhere): the
loop has no other exit, so rows 16777218, 16777219, ... beyond the allocation
are written, and the gathering of the rows does not end. -/
theorem temp_buf_overrun :
    (1 ≤ tall_call.scaled_height ∧ tall_call.scaled_height ≤ tall_call.orig_height) ∧
    temp_buf_rows tall_call = some 16777218 ∧
    (compute_coverage (fun _ => 0) tall_call.orig_height tall_call.scaled_height).2 = 0 ∧
    gather_rows tall_call
      (compute_coverage (fun _ => 0) tall_call.orig_width tall_call.scaled_width).1
      (compute_coverage (fun _ => 0) tall_call.orig_width tall_call.scaled_width).2
      (compute_coverage (fun _ => 0) tall_call.orig_height tall_call.scaled_height).1
      (compute_coverage (fun _ => 0) tall_call.orig_height tall_call.scaled_height).2
      0 0 (fun _ => 7) [] = none ∧
    ∀ k,
      (rows_iter tall_call
        (compute_coverage (fun _ => 0) tall_call.orig_width tall_call.scaled_width).1
        (compute_coverage (fun _ => 0) tall_call.orig_width tall_call.scaled_width).2
        (compute_coverage (fun _ => 0) tall_call.orig_height tall_call.scaled_height).2 k
        (gather_first tall_call
          (compute_coverage (fun _ => 0) tall_call.orig_width tall_call.scaled_width).1
          (compute_coverage (fun _ => 0) tall_call.orig_width tall_call.scaled_width).2
          ((compute_coverage (fun _ => 0) tall_call.orig_height tall_call.scaled_height).1 0)
          0 (fun _ => 7) [])).box ≥
        (compute_coverage (fun _ => 0) tall_call.orig_height tall_call.scaled_height).2 ∧
      (rows_iter tall_call
        (compute_coverage (fun _ => 0) tall_call.orig_width tall_call.scaled_width).1
        (compute_coverage (fun _ => 0) tall_call.orig_width tall_call.scaled_width).2
        (compute_coverage (fun _ => 0) tall_call.orig_height tall_call.scaled_height).2 k
        (gather_first tall_call
          (compute_coverage (fun _ => 0) tall_call.orig_width tall_call.scaled_width).1
          (compute_coverage (fun _ => 0) tall_call.orig_width tall_call.scaled_width).2
          ((compute_coverage (fun _ => 0) tall_call.orig_height tall_call.scaled_height).1 0)
          0 (fun _ => 7) [])).columns = k + 1 ∧
      (fetch_row tall_call
        (compute_coverage (fun _ => 0) tall_call.orig_width tall_call.scaled_width).1
        (compute_coverage (fun _ => 0) tall_call.orig_width tall_call.scaled_width).2
        (rows_iter tall_call
          (compute_coverage (fun _ => 0) tall_call.orig_width tall_call.scaled_width).1
          (compute_coverage (fun _ => 0) tall_call.orig_width tall_call.scaled_width).2
          (compute_coverage (fun _ => 0) tall_call.orig_height tall_call.scaled_height).2 k
          (gather_first tall_call
            (compute_coverage (fun _ => 0) tall_call.orig_width tall_call.scaled_width).1
            (compute_coverage (fun _ => 0) tall_call.orig_width tall_call.scaled_width).2
            ((compute_coverage (fun _ => 0) tall_call.orig_height tall_call.scaled_height).1 0)
            0 (fun _ => 7) []))).temp_buf (tall_call.width * (k + 1)) = 0 := by
  have hpy : (compute_coverage (fun _ => 0) tall_call.orig_height tall_call.scaled_height).2 = 0 :=
    coverage_ratio_tall
  have hy0 : (compute_coverage (fun _ => 0) tall_call.orig_height tall_call.scaled_height).1 0 =
      UNIT := by
    show (compute_coverage (fun _ => 0) 16777217 1).1 0 = UNIT
    rw [compute_coverage_fst _ 16777217 1 0 Nat.one_pos]
    exact coverage_entry_tall
  refine ⟨by decide, by decide, hpy, ?_, ?_⟩
  · rw [gather_rows_eq, hy0, hpy]
    rw [skip_inner_none 0 (Int.le_refl 0) _ _ 0 (by simp)]
    rfl
  · intro k
    rw [hy0, hpy]
    generalize hst : gather_first tall_call
      (compute_coverage (fun _ => 0) tall_call.orig_width tall_call.scaled_width).1
      (compute_coverage (fun _ => 0) tall_call.orig_width tall_call.scaled_width).2
      UNIT 0 (fun _ => 7) [] = st0
    have hb0 : st0.box = 0 := by
      rw [← hst]
      show UNIT - UNIT = 0
      omega
    have hc0 : st0.columns = 1 := by
      rw [← hst]
      rfl
    obtain ⟨h1, h2, _⟩ := rows_iter_fields tall_call
      (compute_coverage (fun _ => 0) tall_call.orig_width tall_call.scaled_width).1
      (compute_coverage (fun _ => 0) tall_call.orig_width tall_call.scaled_width).2 0 k st0
    rw [hb0] at h1
    rw [hc0] at h2
    refine ⟨?_, by omega, ?_⟩
    · rw [h1]
      simp
    · rw [fetch_row_eq]
      show store _ _ _ _ = 0
      rw [h2]
      have hrow := filtered_row_tall (fun _ => 0) (rows_iter tall_call
        (compute_coverage (fun _ => 0) tall_call.orig_width tall_call.scaled_width).1
        (compute_coverage (fun _ => 0) tall_call.orig_width tall_call.scaled_width).2 0 k
        st0).src_y
      have hrow1 : filtered_row tall_call
          (compute_coverage (fun _ => 0) tall_call.orig_width tall_call.scaled_width).1
          (compute_coverage (fun _ => 0) tall_call.orig_width tall_call.scaled_width).2
          (rows_iter tall_call
            (compute_coverage (fun _ => 0) tall_call.orig_width tall_call.scaled_width).1
            (compute_coverage (fun _ => 0) tall_call.orig_width tall_call.scaled_width).2 0 k
            st0).src_y = [0] := hrow
      rw [hrow1]
      have e : tall_call.width * (k + 1) = tall_call.width * (1 + k) + 0 := by
        rw [Nat.add_comm k 1]
        rfl
      rw [e, store_inside _ _ [0] 0 Nat.one_pos]
      rfl

end CairoRescaleBox
